import Mathlib

/-!
# Vault service broker: address normalisation, configuration resolution, policy rendering

A shallow embedding of `main.go` and `vault.go`.

Conventions of the embedding.

* A Go `string` is a sequence of bytes: `GoString = List (Fin 256)`.  The literal
  `str "abc"` is the UTF-8 encoding of the Lean string `"abc"`.
* A Go `error` is represented by its message (what `Error()` returns).
* A function with a pointer receiver that mutates its receiver returns the
  receiver after the call together with the error result.
* Library code the program calls (`strings`, `html/template`, `net/url`,
  `strconv`) is embedded next to the program's own functions, restricted to
  what the program uses.
-/

namespace VaultBroker

/-! ## Strings -/

/-- A Go `byte`. -/
abbrev Byte := Fin 256

/-- A Go `string`: a sequence of bytes. -/
abbrev GoString := List Byte

/-- A Go `error`, identified with its message. -/
abbrev GoError := GoString

/-- The bytes (UTF-8) of a string literal. -/
def str (s : String) : GoString :=
  (s.data.flatMap String.utf8EncodeChar).map UInt8.val

/-- Byte test `'a' <= c && c <= 'z'`. -/
def isLower (c : Byte) : Bool := 97 ≤ c && c ≤ 122

/-- Byte test `'A' <= c && c <= 'Z'`. -/
def isUpper (c : Byte) : Bool := 65 ≤ c && c ≤ 90

/-- Byte test `'0' <= c && c <= '9'`. -/
def isDigit (c : Byte) : Bool := 48 ≤ c && c ≤ 57

/-- Go `strings.Contains(s, sub)`. -/
def strings.Contains : GoString → GoString → Bool
  | [], sub => sub.isEmpty
  | c :: cs, sub => sub.isPrefixOf (c :: cs) || strings.Contains cs sub

/-- Go `strings.Cut(s, sep)`: the text before and after the first occurrence of
`sep`, and whether `sep` occurs; `(s, "", false)` when it does not. -/
def strings.Cut : GoString → GoString → GoString × GoString × Bool
  | [], sep => ([], [], sep.isEmpty)
  | c :: cs, sep =>
    if sep.isPrefixOf (c :: cs) then ([], (c :: cs).drop sep.length, true)
    else
      match strings.Cut cs sep with
      | (a, b, true) => (c :: a, b, true)
      | (_, _, false) => (c :: cs, [], false)

/-- Go `strings.ToLower` on ASCII letters; other bytes are kept.  (Go also
lower-cases non-ASCII letters; no ASCII letter is the lower case of one.) -/
def strings.ToLower (s : GoString) : GoString :=
  s.map (fun c => if isUpper c then c + 32 else c)

/-- Go `strings.ToUpper` on ASCII letters; other bytes are kept. -/
def strings.ToUpper (s : GoString) : GoString :=
  s.map (fun c => if isLower c then c - 32 else c)

/-- Go `strings.TrimRight(s, "/")`-style trimming: drop every trailing byte
that occurs in `cutset`. -/
def strings.TrimRight (s cutset : GoString) : GoString :=
  (s.reverse.dropWhile (fun c => cutset.contains c)).reverse

/-- Go `strings.Split(s, sep)` for a one-byte separator `sep`: the segments
between occurrences of `sep`, always at least one. -/
def strings.Split (s : GoString) (sep : Byte) : List GoString :=
  match s with
  | [] => [[]]
  | c :: cs =>
    if c = sep then [] :: strings.Split cs sep
    else
      match strings.Split cs sep with
      | [] => [[c]]
      | seg :: segs => (c :: seg) :: segs

/-! ## Policy templates (`vault.go`) -/

/-- Modelled from the spec: the struct `instanceInfo` is declared in a file of
the repository that is not part of the sources at hand.  The spec's
`InstanceIdentity` has exactly these six string fields, and they are the six
fields the templates of `vault.go` refer to. -/
structure instanceInfo where
  OrganizationGUID : GoString
  OrganizationName : GoString
  SpaceGUID : GoString
  SpaceName : GoString
  ServiceInstanceGUID : GoString
  ServiceInstanceName : GoString
deriving DecidableEq

/-- The constant `ServicePolicyTemplateWithoutNames` of `vault.go`. -/
def ServicePolicyTemplateWithoutNames : GoString :=
  str (
    "\n" ++
    "path \"cf/\x7b\x7b .ServiceInstanceGUID \x7d\x7d\" \x7b\n" ++
    "  capabilities = [\"list\"]\n" ++
    "\x7d\n" ++
    "\n" ++
    "path \"cf/\x7b\x7b .ServiceInstanceGUID \x7d\x7d/*\" \x7b\n" ++
    "\tcapabilities = [\"create\", \"read\", \"update\", \"delete\", \"list\"]\n" ++
    "\x7d\n" ++
    "\n" ++
    "path \"cf/\x7b\x7b .SpaceGUID \x7d\x7d\" \x7b\n" ++
    "  capabilities = [\"list\"]\n" ++
    "\x7d\n" ++
    "\n" ++
    "path \"cf/\x7b\x7b .SpaceGUID \x7d\x7d/*\" \x7b\n" ++
    "  capabilities = [\"create\", \"read\", \"update\", \"delete\", \"list\"]\n" ++
    "\x7d\n" ++
    "\n" ++
    "path \"cf/\x7b\x7b .OrganizationGUID \x7d\x7d\" \x7b\n" ++
    "  capabilities = [\"list\"]\n" ++
    "\x7d\n" ++
    "\n" ++
    "path \"cf/\x7b\x7b .OrganizationGUID \x7d\x7d/*\" \x7b\n" ++
    "  capabilities = [\"read\", \"list\"]\n" ++
    "\x7d\n")

/-- The constant `ServicePolicyTemplateWithNames` of `vault.go`, byte for byte
(including the four stray lines between the organization stanzas). -/
def ServicePolicyTemplateWithNames : GoString :=
  str (
    "\n" ++
    "path \"cf/\x7b\x7b .ServiceInstanceName \x7d\x7d-\x7b\x7b .ServiceInstanceGUID \x7d\x7d\" \x7b\n" ++
    "  capabilities = [\"list\"]\n" ++
    "\x7d\n" ++
    "path \"cf/\x7b\x7b .ServiceInstanceGUID \x7d\x7d\" \x7b\n" ++
    "  capabilities = [\"list\"]\n" ++
    "\x7d\n" ++
    "path \"cf/\x7b\x7b .ServiceInstanceName \x7d\x7d-\x7b\x7b .ServiceInstanceGUID \x7d\x7d/*\" \x7b\n" ++
    "\tcapabilities = [\"create\", \"read\", \"update\", \"delete\", \"list\"]\n" ++
    "\x7d\n" ++
    "path \"cf/\x7b\x7b .ServiceInstanceGUID \x7d\x7d/*\" \x7b\n" ++
    "\tcapabilities = [\"create\", \"read\", \"update\", \"delete\", \"list\"]\n" ++
    "\x7d\n" ++
    "path \"cf/\x7b\x7b .SpaceName \x7d\x7d-\x7b\x7b .SpaceGUID \x7d\x7d\" \x7b\n" ++
    "  capabilities = [\"list\"]\n" ++
    "\x7d\n" ++
    "path \"cf/\x7b\x7b .SpaceGUID \x7d\x7d\" \x7b\n" ++
    "  capabilities = [\"list\"]\n" ++
    "\x7d\n" ++
    "path \"cf/\x7b\x7b .SpaceName \x7d\x7d-\x7b\x7b .SpaceGUID \x7d\x7d/*\" \x7b\n" ++
    "  capabilities = [\"create\", \"read\", \"update\", \"delete\", \"list\"]\n" ++
    "\x7d\n" ++
    "path \"cf/\x7b\x7b .SpaceGUID \x7d\x7d/*\" \x7b\n" ++
    "  capabilities = [\"create\", \"read\", \"update\", \"delete\", \"list\"]\n" ++
    "\x7d\n" ++
    "path \"cf/\x7b\x7b .OrganizationName \x7d\x7d-\x7b\x7b .OrganizationGUID \x7d\x7d\" \x7b\n" ++
    "  capabilities = [\"list\"]\n" ++
    "\x7d\n" ++
    "path \"cf/\x7b\x7b .OrganizationGUID \x7d\x7d\" \x7b\n" ++
    "  capabilities = [\"list\"]\n" ++
    "\x7d\n" ++
    "\t// SpaceID is the unique ID of the space.\n" ++
    "\tSpaceID string\n" ++
    "path \"cf/\x7b\x7b .OrganizationName \x7d\x7d-\x7b\x7b .OrganizationGUID \x7d\x7d/*\" \x7b\n" ++
    "  capabilities = [\"read\", \"list\"]\n" ++
    "\x7d\n" ++
    "\t// OrgID is the unique ID of the space.\n" ++
    "\tOrgID string\n" ++
    "path \"cf/\x7b\x7b .OrganizationGUID \x7d\x7d/*\" \x7b\n" ++
    "  capabilities = [\"read\", \"list\"]\n" ++
    "\x7d\n")

/-! ### The fragment of `html/template` that `GeneratePolicy` exercises

A template is literal text interleaved with actions `{{ .Field }}`.  Any other
action is outside the fragment and is reported as an error by `template.Parse`.
`html/template` escapes the value of an action according to the HTML context
of the surrounding text; text without `<` never leaves the plain-text context,
in which the escaper is `htmlEscaper`.  -/

/-- A parsed template node: literal text or a reference to a field of the data. -/
inductive template.Node where
  | text (t : GoString)
  | field (name : GoString)
deriving DecidableEq

/-- The space bytes skipped inside an action: blank and tab. -/
def template.isSpace (c : Byte) : Bool := c = 32 || c = 9

/-- The bytes of an identifier: `_`, ASCII letters and digits. -/
def template.isAlphaNumeric (c : Byte) : Bool :=
  c = 95 || isLower c || isUpper c || isDigit c

/-- An empty text produces no node. -/
def template.textNode (t : GoString) : List template.Node :=
  if t = [] then [] else [template.Node.text t]

/-- The body of an action (the text between the delimiters): after trimming
spaces it must be a dot followed by a non-empty identifier. -/
def template.parseAction (a : GoString) : Except GoError template.Node :=
  match ((a.dropWhile template.isSpace).reverse.dropWhile template.isSpace).reverse with
  | [] => Except.error (str "template: service: missing value for command")
  | c :: name =>
    if c = 46 ∧ name ≠ [] ∧ name.all template.isAlphaNumeric = true then
      Except.ok (template.Node.field name)
    else Except.error (str "template: service: action outside the modelled fragment")

/-- The parse loop: text up to the next left delimiter, then an action up to
the next right delimiter.  `fuel` bounds the number of actions. -/
def template.parseLoop : Nat → GoString → Except GoError (List template.Node)
  | 0, _ => Except.error (str "template: out of fuel")
  | fuel + 1, s =>
    match strings.Cut s (str "\x7b\x7b") with
    | (_, _, false) => Except.ok (template.textNode s)
    | (pre, rest, true) =>
      match strings.Cut rest (str "\x7d\x7d") with
      | (_, _, false) => Except.error (str "template: service: unclosed action")
      | (act, rest2, true) =>
        match template.parseAction act with
        | Except.error e => Except.error e
        | Except.ok nd =>
          match template.parseLoop fuel rest2 with
          | Except.error e => Except.error e
          | Except.ok tl => Except.ok (template.textNode pre ++ nd :: tl)

/-- Go `template.New("service").Parse(text)`.  Every action consumes at least four
bytes, so `text.length + 1` rounds always suffice. -/
def template.Parse (text : GoString) : Except GoError (List template.Node) :=
  template.parseLoop (text.length + 1) text

/-- Go `htmlReplacementTable` of `html/template`: the replacement of a byte, if it
has one. -/
def htmlReplacementTable (c : Byte) : Option GoString :=
  if c = 0 then some (str "\uFFFD")
  else if c = 34 then some (str "&#34;")
  else if c = 38 then some (str "&amp;")
  else if c = 39 then some (str "&#39;")
  else if c = 43 then some (str "&#43;")
  else if c = 60 then some (str "&lt;")
  else if c = 62 then some (str "&gt;")
  else none

/-- Go `htmlEscaper` of `html/template` on a string value: every byte with an
entry in `htmlReplacementTable` is replaced, every other byte is copied. -/
def htmlEscaper (s : GoString) : GoString :=
  s.flatMap (fun c => (htmlReplacementTable c).getD [c])

/-- Field lookup by name on `instanceInfo`, as the template engine does by
reflection. -/
def instanceInfo.field (i : instanceInfo) (name : GoString) : Option GoString :=
  if name = str "OrganizationGUID" then some i.OrganizationGUID
  else if name = str "OrganizationName" then some i.OrganizationName
  else if name = str "SpaceGUID" then some i.SpaceGUID
  else if name = str "SpaceName" then some i.SpaceName
  else if name = str "ServiceInstanceGUID" then some i.ServiceInstanceGUID
  else if name = str "ServiceInstanceName" then some i.ServiceInstanceName
  else none

/-- Output of the nodes in order: text is copied, a field is written after
`htmlEscaper`. -/
def template.execNodes (i : instanceInfo) : List template.Node → Except GoError GoString
  | [] => Except.ok []
  | template.Node.text t :: ns =>
    match template.execNodes i ns with
    | Except.error e => Except.error e
    | Except.ok r => Except.ok (t ++ r)
  | template.Node.field f :: ns =>
    match i.field f with
    | none => Except.error (str "template: service: can't evaluate field " ++ f)
    | some v =>
      match template.execNodes i ns with
      | Except.error e => Except.error e
      | Except.ok r => Except.ok (htmlEscaper v ++ r)

/-- Whether a node is text containing `<` (which could leave the plain-text
HTML context). -/
def template.Node.hasLt : template.Node → Bool
  | template.Node.text t => t.contains 60
  | template.Node.field _ => false

/-- Go `tmpl.Execute(w, i)` into a writer whose `Write` never fails: the text
written, or the error. -/
def template.Execute (t : List template.Node) (i : instanceInfo) : Except GoError GoString :=
  if t.any template.Node.hasLt then
    Except.error (str "html/template: text outside the modelled fragment")
  else template.execNodes i t

/-- Go `GeneratePolicy(w, i)` of `vault.go`, for a writer `w` whose `Write` never
fails: the text written to `w`, or the error returned. -/
def GeneratePolicy (i : instanceInfo) : Except GoError GoString :=
  let toParse :=
    if i.OrganizationName = [] ∨ i.SpaceName = [] ∨ i.ServiceInstanceName = [] then
      ServicePolicyTemplateWithoutNames
    else ServicePolicyTemplateWithNames
  match template.Parse toParse with
  | Except.error err => Except.error err
  | Except.ok tmpl => template.Execute tmpl i

/-- Rendering of a given template text for an identity: parse, then execute
(what `GeneratePolicy` does once the template is chosen). -/
def renderTemplate (text : GoString) (i : instanceInfo) : Except GoError GoString :=
  match template.Parse text with
  | Except.error err => Except.error err
  | Except.ok tmpl => template.Execute tmpl i

/-! ### Vocabulary for statements about policy text -/

/-- The text of one policy stanza on `path` with capability list `caps`, the
capabilities line indented by `indent`. -/
def stanza (indent path caps : GoString) : GoString :=
  str "path \"" ++ path ++ str "\" \x7b\n" ++ indent ++ str "capabilities = " ++ caps ++
    str "\n\x7d\n"

/-- The capability list `["list"]`. -/
def capsList : GoString := str "[\"list\"]"

/-- The capability list `["create", "read", "update", "delete", "list"]`. -/
def capsFull : GoString := str "[\"create\", \"read\", \"update\", \"delete\", \"list\"]"

/-- The capability list `["read", "list"]`. -/
def capsReadList : GoString := str "[\"read\", \"list\"]"

/-- The policy text `out` contains a stanza on `path` whose capability list is
exactly `caps` (the templates indent with two blanks or with a tab). -/
def Grants (out path caps : GoString) : Prop :=
  strings.Contains out (stanza (str "  ") path caps) = true ∨
  strings.Contains out (stanza (str "\t") path caps) = true

/-- The GUID-only policy for the three substituted GUID texts: six stanzas, on
`cf/<guid>` and `cf/<guid>/*` for instance, space and organization. -/
def policyWithoutNames (ig sg og : GoString) : GoString :=
  str "\n" ++ stanza (str "  ") (str "cf/" ++ ig) capsList ++
  str "\n" ++ stanza (str "\t") (str "cf/" ++ ig ++ str "/*") capsFull ++
  str "\n" ++ stanza (str "  ") (str "cf/" ++ sg) capsList ++
  str "\n" ++ stanza (str "  ") (str "cf/" ++ sg ++ str "/*") capsFull ++
  str "\n" ++ stanza (str "  ") (str "cf/" ++ og) capsList ++
  str "\n" ++ stanza (str "  ") (str "cf/" ++ og ++ str "/*") capsReadList

/-- The name-qualified policy for the six substituted texts: twelve stanzas and
the two pairs of stray lines of the template. -/
def policyWithNames (iname ig sname sg oname og : GoString) : GoString :=
  str "\n" ++ stanza (str "  ") (str "cf/" ++ iname ++ str "-" ++ ig) capsList ++
  stanza (str "  ") (str "cf/" ++ ig) capsList ++
  stanza (str "\t") (str "cf/" ++ iname ++ str "-" ++ ig ++ str "/*") capsFull ++
  stanza (str "\t") (str "cf/" ++ ig ++ str "/*") capsFull ++
  stanza (str "  ") (str "cf/" ++ sname ++ str "-" ++ sg) capsList ++
  stanza (str "  ") (str "cf/" ++ sg) capsList ++
  stanza (str "  ") (str "cf/" ++ sname ++ str "-" ++ sg ++ str "/*") capsFull ++
  stanza (str "  ") (str "cf/" ++ sg ++ str "/*") capsFull ++
  stanza (str "  ") (str "cf/" ++ oname ++ str "-" ++ og) capsList ++
  stanza (str "  ") (str "cf/" ++ og) capsList ++
  str "\t// SpaceID is the unique ID of the space.\n\tSpaceID string\n" ++
  stanza (str "  ") (str "cf/" ++ oname ++ str "-" ++ og ++ str "/*") capsReadList ++
  str "\t// OrgID is the unique ID of the space.\n\tOrgID string\n" ++
  stanza (str "  ") (str "cf/" ++ og ++ str "/*") capsReadList

/-- No byte of `s` has an entry in `htmlReplacementTable`. -/
def htmlSafe (s : GoString) : Bool :=
  s.all (fun c => (htmlReplacementTable c).isNone)

/-- At least one of the three names of the identity is empty (the condition
under which `GeneratePolicy` takes the GUID-only template). -/
def instanceInfo.namesAbsent (i : instanceInfo) : Prop :=
  i.OrganizationName = [] ∨ i.SpaceName = [] ∨ i.ServiceInstanceName = []

instance (i : instanceInfo) : Decidable i.namesAbsent := by
  unfold instanceInfo.namesAbsent; exact inferInstance

/-- All six identifier fields are free of bytes that `htmlEscaper` replaces. -/
def instanceInfo.identifiersSafe (i : instanceInfo) : Prop :=
  htmlSafe i.OrganizationGUID = true ∧ htmlSafe i.OrganizationName = true ∧
  htmlSafe i.SpaceGUID = true ∧ htmlSafe i.SpaceName = true ∧
  htmlSafe i.ServiceInstanceGUID = true ∧ htmlSafe i.ServiceInstanceName = true

/-- The quoted path text `path "cf/<p>"` as it stands in a policy. -/
def quotedPath (p : GoString) : GoString := str "path \"cf/" ++ p ++ str "\""

/-- The identifiers of `i`, each passed through `sub`, stand in `out` as quoted
paths: the three GUIDs always, and the three composite `name-GUID` paths when
all names are present. -/
def MentionsIdentifiers (sub : GoString → GoString) (i : instanceInfo) (out : GoString) : Prop :=
  strings.Contains out (quotedPath (sub i.ServiceInstanceGUID)) = true ∧
  strings.Contains out (quotedPath (sub i.SpaceGUID)) = true ∧
  strings.Contains out (quotedPath (sub i.OrganizationGUID)) = true ∧
  (¬ i.namesAbsent →
    strings.Contains out
      (quotedPath (sub i.ServiceInstanceName ++ str "-" ++ sub i.ServiceInstanceGUID)) = true ∧
    strings.Contains out (quotedPath (sub i.SpaceName ++ str "-" ++ sub i.SpaceGUID)) = true ∧
    strings.Contains out
      (quotedPath (sub i.OrganizationName ++ str "-" ++ sub i.OrganizationGUID)) = true)

/-! ## `net/url` (as of Go 1.19 to 1.22), as far as `url.Parse` and `URL.String` go -/

/-- Go `strings.SplitN(s, sep, n)` for `n >= 0` and a non-empty `sep`: at most
`n` pieces, the last one the unsplit remainder. -/
def strings.SplitN (s sep : GoString) : Nat → List GoString
  | 0 => []
  | 1 => [s]
  | n + 2 =>
    match strings.Cut s sep with
    | (a, b, true) => a :: strings.SplitN b sep (n + 1)
    | (_, _, false) => [s]

/-- Split at the last occurrence of the byte `c`: the text before it and the
text after it (Go code indexes with `strings.LastIndex`); `none` when `c` does
not occur. -/
def strings.LastCut (s : GoString) (c : Byte) : Option (GoString × GoString) :=
  match strings.Cut s.reverse [c] with
  | (a, b, true) => some (b.reverse, a.reverse)
  | (_, _, false) => none

/-- The escaping modes of `net/url`. -/
inductive url.encoding where
  | encodePath
  | encodePathSegment
  | encodeHost
  | encodeZone
  | encodeUserPassword
  | encodeQueryComponent
  | encodeFragment
deriving DecidableEq

/-- Go `ishex` of `net/url`. -/
def url.ishex (c : Byte) : Bool :=
  isDigit c || (97 ≤ c && c ≤ 102) || (65 ≤ c && c ≤ 70)

/-- Go `unhex` of `net/url`. -/
def url.unhex (c : Byte) : Byte :=
  if isDigit c then c - 48
  else if 97 ≤ c && c ≤ 102 then c - 97 + 10
  else if 65 ≤ c && c ≤ 70 then c - 65 + 10
  else 0

/-- The digit `"0123456789ABCDEF"[n]`. -/
def url.upperhex (n : Nat) : Byte :=
  if n < 10 then Fin.ofNat (48 + n) else Fin.ofNat (55 + n)

/-- Go `shouldEscape(c, mode)` of `net/url`. -/
def url.shouldEscape (c : Byte) (mode : url.encoding) : Bool :=
  if isLower c || isUpper c || isDigit c then false
  else if (mode = url.encoding.encodeHost ∨ mode = url.encoding.encodeZone) ∧
      c ∈ str "!$&'()*+,;=:[]<>\"" then false
  else if c ∈ str "-_.~" then false
  else if c ∈ str "$&+,/:;=?@" ∧ mode = url.encoding.encodePath then c = 63
  else if c ∈ str "$&+,/:;=?@" ∧ mode = url.encoding.encodePathSegment then
    c = 47 || c = 59 || c = 44 || c = 63
  else if c ∈ str "$&+,/:;=?@" ∧ mode = url.encoding.encodeUserPassword then
    c = 64 || c = 47 || c = 63 || c = 58
  else if c ∈ str "$&+,/:;=?@" ∧ mode = url.encoding.encodeQueryComponent then true
  else if c ∈ str "$&+,/:;=?@" ∧ mode = url.encoding.encodeFragment then false
  else if mode = url.encoding.encodeFragment ∧ c ∈ str "!()*" then false
  else true

/-- Go `unescape(s, mode)` of `net/url`; `none` stands for the error results
(`EscapeError`, `InvalidHostError`). -/
def url.unescape (mode : url.encoding) : GoString → Option GoString
  | [] => some []
  | c :: rest =>
    if c = 37 then
      match rest with
      | a :: b :: rest2 =>
        if url.ishex a = false ∨ url.ishex b = false then none
        else if mode = url.encoding.encodeHost ∧ url.unhex a < 8 ∧ ¬ (a = 50 ∧ b = 53) then none
        else if mode = url.encoding.encodeZone ∧ ¬ (a = 50 ∧ b = 53) ∧
            url.unhex a * 16 + url.unhex b ≠ 32 ∧
            url.shouldEscape (url.unhex a * 16 + url.unhex b) url.encoding.encodeHost = true then
          none
        else (url.unescape mode rest2).map (fun t => (url.unhex a * 16 + url.unhex b) :: t)
      | _ => none
    else if (mode = url.encoding.encodeHost ∨ mode = url.encoding.encodeZone) ∧ c < 128 ∧
        url.shouldEscape c url.encoding.encodeHost = true then none
    else if c = 43 ∧ mode = url.encoding.encodeQueryComponent then
      (url.unescape mode rest).map (fun t => 32 :: t)
    else (url.unescape mode rest).map (fun t => c :: t)

/-- Go `escape(s, mode)` of `net/url`. -/
def url.escape (s : GoString) (mode : url.encoding) : GoString :=
  s.flatMap (fun c =>
    if c = 32 ∧ mode = url.encoding.encodeQueryComponent then [43]
    else if url.shouldEscape c mode then [37, url.upperhex (c.val / 16), url.upperhex (c.val % 16)]
    else [c])

/-- Go `validEncoded(s, mode)` of `net/url`. -/
def url.validEncoded (s : GoString) (mode : url.encoding) : Bool :=
  s.all (fun c => c ∈ str "!$&'()*+,;=:@[]%" || !url.shouldEscape c mode)

/-- Go `getScheme(rawURL)` of `net/url`, reading on from a scheme candidate `pre`
(the bytes before the current one): the scheme and the rest, or `none` for the
error "missing protocol scheme". -/
def url.getSchemeFrom (rawURL pre : GoString) : GoString → Option (GoString × GoString)
  | [] => some ([], rawURL)
  | c :: cs =>
    if isLower c || isUpper c then url.getSchemeFrom rawURL (pre ++ [c]) cs
    else if isDigit c || c = 43 || c = 45 || c = 46 then
      if pre = [] then some ([], rawURL) else url.getSchemeFrom rawURL (pre ++ [c]) cs
    else if c = 58 then
      if pre = [] then none else some (pre, cs)
    else some ([], rawURL)

/-- Go `getScheme(rawURL)` of `net/url`. -/
def url.getScheme (rawURL : GoString) : Option (GoString × GoString) :=
  url.getSchemeFrom rawURL [] rawURL

/-- Go `validOptionalPort(port)` of `net/url`. -/
def url.validOptionalPort (port : GoString) : Bool :=
  match port with
  | [] => true
  | c :: ds => c = 58 && ds.all isDigit

/-- Go `parseHost(host)` of `net/url`. -/
def url.parseHost (host : GoString) : Option GoString :=
  if (str "[").isPrefixOf host then
    match strings.LastCut host 93 with
    | none => none
    | some (before, colonPort) =>
      if url.validOptionalPort colonPort = false then none
      else
        match strings.Cut before (str "%25") with
        | (host1, z, true) =>
          match url.unescape url.encoding.encodeHost host1,
            url.unescape url.encoding.encodeZone (str "%25" ++ z),
            url.unescape url.encoding.encodeHost (93 :: colonPort) with
          | some h1, some h2, some h3 => some (h1 ++ h2 ++ h3)
          | _, _, _ => none
        | (_, _, false) => url.unescape url.encoding.encodeHost host
  else
    match strings.LastCut host 58 with
    | some (_, port) =>
      if url.validOptionalPort (58 :: port) = false then none
      else url.unescape url.encoding.encodeHost host
    | none => url.unescape url.encoding.encodeHost host

/-- The type `Userinfo` of `net/url`. -/
structure url.Userinfo where
  username : GoString
  password : GoString
  passwordSet : Bool
deriving DecidableEq

/-- Go `validUserinfo(s)` of `net/url`. -/
def url.validUserinfo (s : GoString) : Bool :=
  s.all (fun c => isUpper c || isLower c || isDigit c || c ∈ str "-._:~!$&'()*+,;=%@")

/-- Go `parseAuthority(authority)` of `net/url`: user information and host. -/
def url.parseAuthority (authority : GoString) : Option (Option url.Userinfo × GoString) :=
  match strings.LastCut authority 64 with
  | none => (url.parseHost authority).map (fun h => (none, h))
  | some (userinfo, hostpart) =>
    match url.parseHost hostpart with
    | none => none
    | some host =>
      if url.validUserinfo userinfo = false then none
      else
        match strings.Cut userinfo (str ":") with
        | (_, _, false) =>
          (url.unescape url.encoding.encodeUserPassword userinfo).map
            (fun u => (some ⟨u, [], false⟩, host))
        | (username, password, true) =>
          match url.unescape url.encoding.encodeUserPassword username,
            url.unescape url.encoding.encodeUserPassword password with
          | some u, some p => some (some ⟨u, p, true⟩, host)
          | _, _ => none

/-- The type `URL` of `net/url`. -/
structure url.URL where
  Scheme : GoString
  Opaque : GoString
  User : Option url.Userinfo
  Host : GoString
  Path : GoString
  RawPath : GoString
  OmitHost : Bool
  ForceQuery : Bool
  RawQuery : GoString
  Fragment : GoString
  RawFragment : GoString
deriving DecidableEq

/-- The zero value of `URL`. -/
def url.URL.zero : url.URL :=
  ⟨[], [], none, [], [], [], false, false, [], [], []⟩

/-- Go `(*URL).setPath(p)` of `net/url`. -/
def url.URL.setPath (u : url.URL) (p : GoString) : Option url.URL :=
  match url.unescape url.encoding.encodePath p with
  | none => none
  | some path =>
    some { u with Path := path,
                  RawPath := if p = url.escape path url.encoding.encodePath then [] else p }

/-- Go `(*URL).setFragment(f)` of `net/url`. -/
def url.URL.setFragment (u : url.URL) (f : GoString) : Option url.URL :=
  match url.unescape url.encoding.encodeFragment f with
  | none => none
  | some frag =>
    some { u with Fragment := frag,
                  RawFragment := if f = url.escape frag url.encoding.encodeFragment then [] else f }

/-- Go `stringContainsCTLByte(s)` of `net/url`. -/
def url.stringContainsCTLByte (s : GoString) : Bool :=
  s.any (fun b => b < 32 || b = 127)

/-- Go `parse(rawURL, viaRequest)` of `net/url` with `viaRequest = false`, the only
way `Parse` calls it. -/
def url.parse (rawURL : GoString) : Option url.URL :=
  if url.stringContainsCTLByte rawURL then none
  else if rawURL = str "*" then some { url.URL.zero with Path := str "*" }
  else
    match url.getScheme rawURL with
    | none => none
    | some (scheme0, rest0) =>
      let scheme := strings.ToLower scheme0
      let forceQuery : Bool := rest0.getLast? = some 63 && rest0.count 63 = 1
      let rest1 := if forceQuery then rest0.dropLast else (strings.Cut rest0 (str "?")).1
      let rawQuery := if forceQuery then [] else (strings.Cut rest0 (str "?")).2.1
      let u : url.URL :=
        { url.URL.zero with Scheme := scheme, ForceQuery := forceQuery, RawQuery := rawQuery }
      if ¬ (str "/").isPrefixOf rest1 ∧ scheme ≠ [] then some { u with Opaque := rest1 }
      else if ¬ (str "/").isPrefixOf rest1 ∧
          strings.Contains (strings.Cut rest1 (str "/")).1 (str ":") then none
      else if (scheme ≠ [] ∨ ¬ (str "///").isPrefixOf rest1) ∧ (str "//").isPrefixOf rest1 then
        let authority := (strings.Cut (rest1.drop 2) (str "/")).1
        let rest2 := (rest1.drop 2).drop authority.length
        match url.parseAuthority authority with
        | none => none
        | some (user, host) => url.URL.setPath { u with User := user, Host := host } rest2
      else if scheme ≠ [] ∧ (str "/").isPrefixOf rest1 then
        url.URL.setPath { u with OmitHost := true } rest1
      else url.URL.setPath u rest1

/-- Go `url.Parse(rawURL)`; `none` stands for the error result. -/
def url.Parse (rawURL : GoString) : Option url.URL :=
  match url.parse (strings.Cut rawURL (str "#")).1 with
  | none => none
  | some u =>
    if (strings.Cut rawURL (str "#")).2.1 = [] then some u
    else u.setFragment (strings.Cut rawURL (str "#")).2.1

/-- Go `(*Userinfo).String()` of `net/url`, for a non-nil receiver. -/
def url.Userinfo.String (u : url.Userinfo) : GoString :=
  url.escape u.username url.encoding.encodeUserPassword ++
    (if u.passwordSet then str ":" ++ url.escape u.password url.encoding.encodeUserPassword
     else [])

/-- Go `(*URL).EscapedPath()` of `net/url`. -/
def url.URL.EscapedPath (u : url.URL) : GoString :=
  if u.RawPath ≠ [] ∧ url.validEncoded u.RawPath url.encoding.encodePath = true ∧
      url.unescape url.encoding.encodePath u.RawPath = some u.Path then u.RawPath
  else if u.Path = str "*" then str "*"
  else url.escape u.Path url.encoding.encodePath

/-- Go `(*URL).EscapedFragment()` of `net/url`. -/
def url.URL.EscapedFragment (u : url.URL) : GoString :=
  if u.RawFragment ≠ [] ∧ url.validEncoded u.RawFragment url.encoding.encodeFragment = true ∧
      url.unescape url.encoding.encodeFragment u.RawFragment = some u.Fragment then u.RawFragment
  else url.escape u.Fragment url.encoding.encodeFragment

/-- Go `(*URL).String()` of `net/url`. -/
def url.URL.String (u : url.URL) : GoString :=
  let scheme := if u.Scheme ≠ [] then u.Scheme ++ str ":" else []
  let body :=
    if u.Opaque ≠ [] then scheme ++ u.Opaque
    else
      let auth :=
        if u.Scheme ≠ [] ∨ u.Host ≠ [] ∨ u.User.isSome then
          if u.OmitHost = true ∧ u.Host = [] ∧ u.User.isNone then []
          else
            (if u.Host ≠ [] ∨ u.Path ≠ [] ∨ u.User.isSome then str "//" else []) ++
            (match u.User with
             | some ui => ui.String ++ str "@"
             | none => []) ++
            (if u.Host ≠ [] then url.escape u.Host url.encoding.encodeHost else [])
        else []
      let path := u.EscapedPath
      let buf := scheme ++ auth ++
        (if path ≠ [] ∧ path.head? ≠ some 47 ∧ u.Host ≠ [] then str "/" else [])
      let buf := buf ++
        (if buf = [] ∧ strings.Contains (strings.Cut path (str "/")).1 (str ":") then str "./"
         else [])
      buf ++ path
  body ++
    (if u.ForceQuery = true ∨ u.RawQuery ≠ [] then str "?" ++ u.RawQuery else []) ++
    (if u.Fragment ≠ [] then str "#" ++ u.EscapedFragment else [])

/-! ## `main.go` -/

/-- Go `normalizeAddr(s)` of `main.go`. -/
def normalizeAddr (s : GoString) : GoString :=
  if s = [] then s
  else
    match url.Parse s with
    | none => s
    | some u0 =>
      let u1 : url.URL := if u0.Scheme = [] then { u0 with Scheme := str "https" } else u0
      let u2 : url.URL :=
        if strings.Contains u1.Scheme (str ".") then
          { u1 with
            Host := if u1.Opaque ≠ [] then u1.Scheme ++ str ":" ++ u1.Opaque else u1.Scheme,
            Opaque := if u1.Opaque ≠ [] then [] else u1.Opaque,
            Scheme := str "https" }
        else u1
      let u3 : url.URL :=
        if u2.Host = [] then
          match strings.SplitN u2.Path (str "/") 2 with
          | [h] => { u2 with Host := h, Path := str "/" }
          | [h, p] => { u2 with Host := h, Path := p }
          | _ => u2
        else u2
      let u4 : url.URL := { u3 with Path := strings.TrimRight u3.Path (str "/") ++ str "/" }
      u4.String

/-- The struct `Configuration` of `main.go`. -/
structure Configuration where
  SecurityUserName : GoString
  SecurityUserPassword : GoString
  VaultToken : GoString
  CredhubURL : GoString
  Port : GoString
  ServiceID : GoString
  VaultAddr : GoString
  VaultAdvertiseAddr : GoString
  ServiceName : GoString
  ServiceDescription : GoString
  PlanName : GoString
  PlanDescription : GoString
  ServiceTags : List GoString
  VaultRenew : Bool
deriving DecidableEq

/-- Go `(*Configuration).Validate()` of `main.go`: the configuration after the
call and the error returned (`none` for `nil`). -/
def Configuration.Validate (c : Configuration) : Configuration × Option GoError :=
  if c.SecurityUserName = [] then (c, some (str "missing SECURITY_USER_NAME"))
  else if c.SecurityUserPassword = [] then (c, some (str "missing SECURITY_USER_PASSWORD"))
  else if c.VaultToken = [] then (c, some (str "missing VAULT_TOKEN"))
  else
    let c1 : Configuration :=
      if (str ":").isPrefixOf c.Port = false then { c with Port := str ":" ++ c.Port } else c
    let c2 : Configuration :=
      if c1.VaultAdvertiseAddr = [] then { c1 with VaultAdvertiseAddr := c1.VaultAddr } else c1
    let c3 : Configuration := { c2 with VaultAddr := normalizeAddr c2.VaultAddr }
    let c4 : Configuration := { c3 with VaultAdvertiseAddr := normalizeAddr c3.VaultAdvertiseAddr }
    (c4, none)

/-- The fields of `Configuration`, in declaration order (what
`reflect.TypeOf(*config).Field(i)` enumerates). -/
inductive Field where
  | SecurityUserName
  | SecurityUserPassword
  | VaultToken
  | CredhubURL
  | Port
  | ServiceID
  | VaultAddr
  | VaultAdvertiseAddr
  | ServiceName
  | ServiceDescription
  | PlanName
  | PlanDescription
  | ServiceTags
  | VaultRenew
deriving DecidableEq

/-- All fields, in declaration order. -/
def Field.all : List Field :=
  [Field.SecurityUserName, Field.SecurityUserPassword, Field.VaultToken, Field.CredhubURL,
   Field.Port, Field.ServiceID, Field.VaultAddr, Field.VaultAdvertiseAddr, Field.ServiceName,
   Field.ServiceDescription, Field.PlanName, Field.PlanDescription, Field.ServiceTags,
   Field.VaultRenew]

/-- The `envconfig` tag of a field. -/
def Field.tag : Field → GoString
  | Field.SecurityUserName => str "security_user_name"
  | Field.SecurityUserPassword => str "security_user_password"
  | Field.VaultToken => str "vault_token"
  | Field.CredhubURL => str "credhub_url"
  | Field.Port => str "port"
  | Field.ServiceID => str "service_id"
  | Field.VaultAddr => str "vault_addr"
  | Field.VaultAdvertiseAddr => str "vault_advertise_addr"
  | Field.ServiceName => str "service_name"
  | Field.ServiceDescription => str "service_description"
  | Field.PlanName => str "plan_name"
  | Field.PlanDescription => str "plan_description"
  | Field.ServiceTags => str "service_tags"
  | Field.VaultRenew => str "vault_renew"

/-- The values of `reflect.Kind` that occur among the fields of
`Configuration`. -/
inductive reflect.Kind where
  | Bool
  | String
  | Slice
deriving DecidableEq

/-- The kind of a field's type: `bool`, `string` or `[]string`. -/
def Field.kind : Field → reflect.Kind
  | Field.ServiceTags => reflect.Kind.Slice
  | Field.VaultRenew => reflect.Kind.Bool
  | _ => reflect.Kind.String

/-- Go `settableField.SetString(v)` for the field `f` of `c`.  (On a field that is
not a string `reflect` panics; `credhubProcess` only calls it on string
fields.) -/
def Configuration.SetString (c : Configuration) (f : Field) (v : GoString) : Configuration :=
  match f with
  | Field.SecurityUserName => { c with SecurityUserName := v }
  | Field.SecurityUserPassword => { c with SecurityUserPassword := v }
  | Field.VaultToken => { c with VaultToken := v }
  | Field.CredhubURL => { c with CredhubURL := v }
  | Field.Port => { c with Port := v }
  | Field.ServiceID => { c with ServiceID := v }
  | Field.VaultAddr => { c with VaultAddr := v }
  | Field.VaultAdvertiseAddr => { c with VaultAdvertiseAddr := v }
  | Field.ServiceName => { c with ServiceName := v }
  | Field.ServiceDescription => { c with ServiceDescription := v }
  | Field.PlanName => { c with PlanName := v }
  | Field.PlanDescription => { c with PlanDescription := v }
  | Field.ServiceTags => c
  | Field.VaultRenew => c

/-- Go `settableField.SetBool(b)` for the field `f` of `c` (only called on the
`bool` field). -/
def Configuration.SetBool (c : Configuration) (f : Field) (b : Bool) : Configuration :=
  match f with
  | Field.VaultRenew => { c with VaultRenew := b }
  | _ => c

/-- Go `settableField.Set(reflect.ValueOf(l))` for the field `f` of `c` and a
`[]string` value (only called on the `[]string` field). -/
def Configuration.Set (c : Configuration) (f : Field) (l : List GoString) : Configuration :=
  match f with
  | Field.ServiceTags => { c with ServiceTags := l }
  | _ => c

/-- A value of one of the three kinds. -/
inductive FieldValue where
  | string (s : GoString)
  | bool (b : Bool)
  | slice (l : List GoString)
deriving DecidableEq

/-- The current value of the field `f` of `c` (`settableConfig.Field(i)`). -/
def Configuration.get (c : Configuration) : Field → FieldValue
  | Field.SecurityUserName => FieldValue.string c.SecurityUserName
  | Field.SecurityUserPassword => FieldValue.string c.SecurityUserPassword
  | Field.VaultToken => FieldValue.string c.VaultToken
  | Field.CredhubURL => FieldValue.string c.CredhubURL
  | Field.Port => FieldValue.string c.Port
  | Field.ServiceID => FieldValue.string c.ServiceID
  | Field.VaultAddr => FieldValue.string c.VaultAddr
  | Field.VaultAdvertiseAddr => FieldValue.string c.VaultAdvertiseAddr
  | Field.ServiceName => FieldValue.string c.ServiceName
  | Field.ServiceDescription => FieldValue.string c.ServiceDescription
  | Field.PlanName => FieldValue.string c.PlanName
  | Field.PlanDescription => FieldValue.string c.PlanDescription
  | Field.ServiceTags => FieldValue.slice c.ServiceTags
  | Field.VaultRenew => FieldValue.bool c.VaultRenew

/-- The dynamic value of `Credential.Value` (an `interface{}` decoded from
JSON): a string, or a value of another type, of which only the name of the
type (as `reflect.TypeOf` prints it) matters. -/
inductive credhub.Value where
  | string (s : GoString)
  | other (typeName : GoString)
deriving DecidableEq

/-- The struct `credhub.Credential`, as far as `credhubProcess` reads it. -/
structure credhub.Credential where
  Value : credhub.Value
deriving DecidableEq

/-- The two results `(latest, err)` of `client.GetLatestByName(name)`; `none`
stands for `nil`. -/
structure credhub.Result where
  latest : Option credhub.Credential
  err : Option GoError
deriving DecidableEq

/-- What the program obtains from outside its own code. -/
structure World where
  /-- Result of `envconfig.Process("", config)` on a fresh `Configuration`: the populated
  configuration, or the error. -/
  envconfig : Except GoError Configuration
  /-- Go `credhub.New(url, httpClient).GetLatestByName(name)`, as a function of
  `url` and `name`. -/
  GetLatestByName : GoString → GoString → credhub.Result
  /-- Go `strconv.Quote`, which `strconv.ParseBool` uses in its error message. -/
  Quote : GoString → GoString

/-- Go `strconv.ParseBool(s)`; `none` stands for the syntax error. -/
def strconv.ParseBool (s : GoString) : Option Bool :=
  if s ∈ [str "1", str "t", str "T", str "TRUE", str "true", str "True"] then some true
  else if s ∈ [str "0", str "f", str "F", str "FALSE", str "false", str "False"] then some false
  else none

/-- The part of the loop body of `credhubProcess` after the lookup and its
error check: what is done with the result `latest` for the field `f`.  The
result is the configuration after the iteration, or the error returned. -/
def credhubAssign (w : World) (credhubName : GoString) (f : Field)
    (latest : Option credhub.Credential) (config : Configuration) :
    Except GoError Configuration :=
  match latest with
  | none => Except.ok config
  | some cred =>
    match cred.Value with
    | credhub.Value.other typeName =>
      Except.error (str "we only support credhub values as bash-like string values, but received "
        ++ credhubName ++ str " as a " ++ typeName)
    | credhub.Value.string settingValue =>
      if settingValue = [] then Except.ok config
      else
        match f.kind with
        | reflect.Kind.Bool =>
          match strconv.ParseBool settingValue with
          | none =>
            Except.error (str "error parsing bool " ++ credhubName ++ str ": " ++
              (str "strconv.ParseBool: parsing " ++ w.Quote settingValue ++ str ": invalid syntax"))
          | some asBool => Except.ok (config.SetBool f asBool)
        | reflect.Kind.String => Except.ok (config.SetString f settingValue)
        | reflect.Kind.Slice => Except.ok (config.Set f (strings.Split settingValue 44))

/-- One iteration of the loop of `credhubProcess` for the field `f`, given the
result `r` of the lookup of `credhubName`. -/
def credhubField (w : World) (credhubName : GoString) (f : Field) (r : credhub.Result)
    (config : Configuration) : Except GoError Configuration :=
  match r.err with
  | some err =>
    if strings.Contains (strings.ToLower err) (str "not found") = false then Except.error err
    else credhubAssign w credhubName f r.latest config
  | none => credhubAssign w credhubName f r.latest config

/-- The state of a run of `credhubProcess`: the configuration as it stands,
the names looked up so far (in order), and the error returned, if any. -/
structure CredhubRun where
  config : Configuration
  queried : List GoString
  err : Option GoError
deriving DecidableEq

/-- The loop of `credhubProcess` over the remaining fields: it stops at the
first error. -/
def credhubLoop (w : World) (client : GoString → credhub.Result) (pfx : GoString) :
    List Field → Configuration → List GoString → CredhubRun
  | [], config, queried => ⟨config, queried, none⟩
  | f :: fs, config, queried =>
    match credhubField w (pfx ++ strings.ToUpper f.tag) f
        (client (pfx ++ strings.ToUpper f.tag)) config with
    | Except.error err => ⟨config, queried ++ [pfx ++ strings.ToUpper f.tag], some err⟩
    | Except.ok config2 =>
      credhubLoop w client pfx fs config2 (queried ++ [pfx ++ strings.ToUpper f.tag])

/-- Go `credhubProcess(prefix, config)` of `main.go`.  The client is created once,
from the `CredhubURL` the configuration has on entry. -/
def credhubProcess (w : World) (pfx : GoString) (config : Configuration) : CredhubRun :=
  credhubLoop w (w.GetLatestByName config.CredhubURL) pfx Field.all config []

/-- Go `parseConfig()` of `main.go`: the configuration returned, or the error. -/
def parseConfig (w : World) : Except GoError Configuration :=
  match w.envconfig with
  | Except.error err => Except.error err
  | Except.ok config =>
    let run : CredhubRun :=
      if config.CredhubURL ≠ [] then credhubProcess w (str "VAULT_SERVICE_BROKER_") config
      else ⟨config, [], none⟩
    match run.err with
    | some err => Except.error err
    | none =>
      match run.config.Validate with
      | (_, some err) => Except.error err
      | (config2, none) => Except.ok config2

/-- The value a successful run of the loop leaves in a field whose lookup
returned the non-empty string `v`, before the fix-ups of `Validate`. -/
def coercedOverride (f : Field) (v : GoString) : Option FieldValue :=
  match f.kind with
  | reflect.Kind.Bool => (strconv.ParseBool v).map FieldValue.bool
  | reflect.Kind.String => some (FieldValue.string v)
  | reflect.Kind.Slice => some (FieldValue.slice (strings.Split v 44))

/-- The value `Validate` leaves in a field that `credhubProcess` has set to the
non-empty string `v` read from the override store: the coercion of `v` to the
kind of the field, followed by the fix-ups of `Validate`.  It is `none` when
`v` cannot be coerced (a `bool` field and no boolean literal). -/
def resolvedOverride (f : Field) (v : GoString) : Option FieldValue :=
  match f with
  | Field.Port =>
    some (FieldValue.string (if (str ":").isPrefixOf v = false then str ":" ++ v else v))
  | Field.VaultAddr => some (FieldValue.string (normalizeAddr v))
  | Field.VaultAdvertiseAddr => some (FieldValue.string (normalizeAddr v))
  | Field.ServiceTags => some (FieldValue.slice (strings.Split v 44))
  | Field.VaultRenew => (strconv.ParseBool v).map FieldValue.bool
  | _ => some (FieldValue.string v)


/-! ### The scenario of `TestCredhubConfigOverridesEnvConfig` (`main_test.go`) -/

/-- The configuration that the environment of the test yields. -/
def testEnvironment : Configuration :=
  { SecurityUserName := str "fizz", SecurityUserPassword := str "buzz", VaultToken := str "bang",
    CredhubURL := str "http://127.0.0.1:8844", Port := str "8080", ServiceID := str "1234",
    VaultAddr := str "http://localhost:8200", VaultAdvertiseAddr := str "https://some-domain.com",
    ServiceName := str "vault", ServiceDescription := str "Vault, by Hashicorp",
    PlanName := str "free", PlanDescription := str "Can you believe it's opensource?",
    ServiceTags := [str "hello", str "world"], VaultRenew := false }

/-- The values the test server returns, by name; for any other name the
lookup reports that the name was not found. -/
def testLookup (name : GoString) : credhub.Result :=
  match
    [(str "VAULT_SERVICE_BROKER_SECURITY_USER_NAME", str "securityUserName"),
     (str "VAULT_SERVICE_BROKER_SECURITY_USER_PASSWORD", str "securityUserPassword"),
     (str "VAULT_SERVICE_BROKER_VAULT_TOKEN", str "vaultToken"),
     (str "VAULT_SERVICE_BROKER_PORT", str "8080"),
     (str "VAULT_SERVICE_BROKER_SERVICE_ID", str "serviceID"),
     (str "VAULT_SERVICE_BROKER_VAULT_ADDR", str "vaultAddr"),
     (str "VAULT_SERVICE_BROKER_VAULT_ADVERTISE_ADDR", str "vaultAdvertiseAddr"),
     (str "VAULT_SERVICE_BROKER_SERVICE_NAME", str "serviceName"),
     (str "VAULT_SERVICE_BROKER_SERVICE_DESCRIPTION", str "serviceDescription"),
     (str "VAULT_SERVICE_BROKER_PLAN_NAME", str "planName"),
     (str "VAULT_SERVICE_BROKER_PLAN_DESCRIPTION", str "planDescription"),
     (str "VAULT_SERVICE_BROKER_SERVICE_TAGS", str "service,tags"),
     (str "VAULT_SERVICE_BROKER_VAULT_RENEW", str "false")].lookup name with
  | some v => ⟨some ⟨credhub.Value.string v⟩, none⟩
  | none => ⟨none, some (str "credential not found")⟩

/-- The world of the test. -/
def testWorld : World :=
  { envconfig := Except.ok testEnvironment,
    GetLatestByName := fun _ name => testLookup name,
    Quote := fun s => str "\"" ++ s ++ str "\"" }

/-- The configuration the test expects. -/
def testResolved : Configuration :=
  { SecurityUserName := str "securityUserName",
    SecurityUserPassword := str "securityUserPassword", VaultToken := str "vaultToken",
    CredhubURL := str "http://127.0.0.1:8844", Port := str ":8080", ServiceID := str "serviceID",
    VaultAddr := str "https://vaultAddr/", VaultAdvertiseAddr := str "https://vaultAdvertiseAddr/",
    ServiceName := str "serviceName", ServiceDescription := str "serviceDescription",
    PlanName := str "planName", PlanDescription := str "planDescription",
    ServiceTags := [str "service", str "tags"], VaultRenew := false }

/-! ### Vocabulary for statements about addresses -/

/-- A scheme as `normalizeAddr` leaves it in place: a lower-case letter followed
by lower-case letters, digits, `+` or `-` (in particular without a dot). -/
def isPlainScheme (sc : GoString) : Bool :=
  match sc with
  | [] => false
  | c :: cs => isLower c && cs.all (fun d => isLower d || isDigit d || d = 43 || d = 45)

/-- A host name written without escapes: not empty, every byte allowed
unescaped in a host, none of them `:`, `[` or `]`. -/
def isPlainHost (h : GoString) : Bool :=
  h ≠ [] && h.all (fun c => !url.shouldEscape c url.encoding.encodeHost &&
    c ≠ 58 && c ≠ 91 && c ≠ 93)

/-- A path written without escapes: empty or starting with `/`, every byte
allowed unescaped in a path. -/
def isPlainPath (p : GoString) : Bool :=
  (p = [] || p.head? = some 47) && p.all (fun c => !url.shouldEscape c url.encoding.encodePath)

/-- The path ends in exactly one `/`: its last byte is `/` and the byte before,
if any, is not. -/
def endsInOneSlash (p : GoString) : Bool :=
  p.getLast? = some 47 && p.dropLast.getLast? ≠ some 47

deriving instance DecidableEq for Except

/-! ### `envconfig.Process` (`github.com/kelseyhightower/envconfig`) on `Configuration` -/

/-- The Go name of a field of `Configuration`. -/
def Field.name : Field → GoString
  | Field.SecurityUserName => str "SecurityUserName"
  | Field.SecurityUserPassword => str "SecurityUserPassword"
  | Field.VaultToken => str "VaultToken"
  | Field.CredhubURL => str "CredhubURL"
  | Field.Port => str "Port"
  | Field.ServiceID => str "ServiceID"
  | Field.VaultAddr => str "VaultAddr"
  | Field.VaultAdvertiseAddr => str "VaultAdvertiseAddr"
  | Field.ServiceName => str "ServiceName"
  | Field.ServiceDescription => str "ServiceDescription"
  | Field.PlanName => str "PlanName"
  | Field.PlanDescription => str "PlanDescription"
  | Field.ServiceTags => str "ServiceTags"
  | Field.VaultRenew => str "VaultRenew"

/-- The `default` tag of a field of `Configuration` (`main.go`); empty when the
field has none. -/
def Field.defaultTag : Field → GoString
  | Field.Port => str ":8000"
  | Field.ServiceID => str "0654695e-0760-a1d4-1cad-5dd87b75ed99"
  | Field.VaultAddr => str "https://127.0.0.1:8200"
  | Field.ServiceName => str "hashicorp-vault"
  | Field.ServiceDescription => str "HashiCorp Vault Service Broker"
  | Field.PlanName => str "shared"
  | Field.PlanDescription => str "Secure access to Vault's storage and transit backends"
  | Field.VaultRenew => str "true"
  | _ => []

/-- The name of the Go type of a field, as `reflect.Type.String` prints it. -/
def Field.typeName (f : Field) : GoString :=
  match f.kind with
  | reflect.Kind.Bool => str "bool"
  | reflect.Kind.String => str "string"
  | reflect.Kind.Slice => str "[]string"

/-- The zero value of `Configuration` (`&Configuration\x7b\x7d`). -/
def Configuration.zero : Configuration :=
  { SecurityUserName := [], SecurityUserPassword := [], VaultToken := [], CredhubURL := [],
    Port := [], ServiceID := [], VaultAddr := [], VaultAdvertiseAddr := [], ServiceName := [],
    ServiceDescription := [], PlanName := [], PlanDescription := [], ServiceTags := [],
    VaultRenew := false }

/-- The process environment: `os.LookupEnv`, `none` for a variable that is not
set. -/
abbrev Environ := GoString → Option GoString

/-- Go `len(strings.TrimSpace(s)) == 0`: the text consists of white space only.
White space is what `unicode.IsSpace` accepts: the ASCII bytes tab, line feed,
vertical tab, form feed, carriage return and space, and the UTF-8 encodings of
U+0085, U+00A0, U+1680, U+2000 to U+200A, U+2028, U+2029, U+202F, U+205F and
U+3000. -/
def strings.isBlank : GoString → Bool
  | [] => true
  | [c] => c = 9 || c = 10 || c = 11 || c = 12 || c = 13 || c = 32
  | [c, d] =>
    if c = 9 || c = 10 || c = 11 || c = 12 || c = 13 || c = 32 then strings.isBlank [d]
    else c = 194 && (d = 133 || d = 160)
  | c :: d :: e :: rest =>
    if c = 9 || c = 10 || c = 11 || c = 12 || c = 13 || c = 32 then
      strings.isBlank (d :: e :: rest)
    else if c = 194 && (d = 133 || d = 160) then strings.isBlank (e :: rest)
    else if (c = 225 && d = 154 && e = 128) ||
        (c = 226 && d = 128 && ((128 ≤ e && e ≤ 138) || e = 168 || e = 169 || e = 175)) ||
        (c = 226 && d = 129 && e = 159) || (c = 227 && d = 128 && e = 128) then
      strings.isBlank rest
    else false

/-- Modelled from the spec: `processField(value, field)` of the library
`envconfig`, which is not among the sources.  The spec has three kinds of
setting and calls a malformed value for a declared type an error of
environment population; the coercions are those of the library: a string is
assigned as it is, a `bool` is parsed with `strconv.ParseBool`, a `[]string` is
the list of the segments between commas, and empty when the value is white
space only.  The error is the one of `strconv.ParseBool`, whose message quotes
the value with `quote`. -/
def envconfig.processField (quote : GoString → GoString) (value : GoString) (f : Field)
    (c : Configuration) : Except GoError Configuration :=
  match f.kind with
  | reflect.Kind.String => Except.ok (c.SetString f value)
  | reflect.Kind.Bool =>
    match strconv.ParseBool value with
    | some b => Except.ok (c.SetBool f b)
    | none =>
      Except.error (str "strconv.ParseBool: parsing " ++ quote value ++ str ": invalid syntax")
  | reflect.Kind.Slice =>
    Except.ok (c.Set f (if strings.isBlank value then [] else strings.Split value 44))

/-- Modelled from the spec: the loop of `envconfig.Process("", spec)` over the
fields; the library is not among the sources.  By the spec every setting is
populated from its environment key, the upper-cased name, and a declared
default applies to a key that is not set: the variable of a field is the
upper-cased `envconfig` tag, a variable that is not set is replaced by the
`default` tag of `main.go` when there is one, and the field is left alone
otherwise (no field is tagged `required`).  The error message is that of
`envconfig.ParseError`. -/
def envconfig.loop (quote : GoString → GoString) (env : Environ) :
    List Field → Configuration → Except GoError Configuration
  | [], c => Except.ok c
  | f :: fs, c =>
    match (match env (strings.ToUpper f.tag) with
      | some value => some value
      | none => if f.defaultTag ≠ [] then some f.defaultTag else none) with
    | none => envconfig.loop quote env fs c
    | some value =>
      match envconfig.processField quote value f c with
      | Except.error err =>
        Except.error (str "envconfig.Process: assigning " ++ strings.ToUpper f.tag ++
          str " to " ++ f.name ++ str ": converting '" ++ value ++ str "' to type " ++
          f.typeName ++ str ". details: " ++ err)
      | Except.ok c2 => envconfig.loop quote env fs c2

/-- Modelled from the spec: `envconfig.Process("", config)` on a fresh
`Configuration`, in the environment `env`; the library is not among the
sources. -/
def envconfig.Process (quote : GoString → GoString) (env : Environ) :
    Except GoError Configuration :=
  envconfig.loop quote env Field.all Configuration.zero

/-! ### The scenario of `TestParseConfigDefaults` (`main_test.go`) -/

/-- The environment of the test: only the three required variables are set. -/
def defaultsEnviron : Environ := fun name =>
  [(str "SECURITY_USER_NAME", str "fizz"), (str "SECURITY_USER_PASSWORD", str "buzz"),
   (str "VAULT_TOKEN", str "bang")].lookup name

/-- The world of the test: no override store is consulted. -/
def defaultsWorld : World :=
  { envconfig := envconfig.Process (fun s => str "\"" ++ s ++ str "\"") defaultsEnviron,
    GetLatestByName := fun _ _ => ⟨none, some (str "credential not found")⟩,
    Quote := fun s => str "\"" ++ s ++ str "\"" }

/-- The configuration with the declared defaults and the three required values
`n`, `p` and `t`, after the fix-ups of `Validate`. -/
def defaultsResolved (n p t : GoString) : Configuration :=
  { SecurityUserName := n, SecurityUserPassword := p, VaultToken := t, CredhubURL := [],
    Port := str ":8000", ServiceID := str "0654695e-0760-a1d4-1cad-5dd87b75ed99",
    VaultAddr := str "https://127.0.0.1:8200/", VaultAdvertiseAddr := str "https://127.0.0.1:8200/",
    ServiceName := str "hashicorp-vault", ServiceDescription := str "HashiCorp Vault Service Broker",
    PlanName := str "shared",
    PlanDescription := str "Secure access to Vault's storage and transit backends",
    ServiceTags := [], VaultRenew := true }

/-! ### Scenarios with one lookup of the test server replaced -/

/-- The world of `TestCredhubConfigOverridesEnvConfig` with the result of the
lookup of `key` replaced by `r`. -/
def overrideWorld (key : GoString) (r : credhub.Result) : World :=
  { envconfig := Except.ok testEnvironment,
    GetLatestByName := fun _ name => if name = key then r else testLookup name,
    Quote := fun s => str "\"" ++ s ++ str "\"" }

/-- The boolean that a literal denotes by the rule "`true`, `false`, `1`, `0` and
case variants": `1` and every spelling of `true` in upper and lower case
letters denote `true`, `0` and every spelling of `false` denote `false`. -/
def boolLiteral (v : GoString) : Option Bool :=
  if strings.ToLower v = str "true" ∨ v = str "1" then some true
  else if strings.ToLower v = str "false" ∨ v = str "0" then some false
  else none

/-! ### Vocabulary for statements about the URL that `normalizeAddr` writes out -/

/-- The URL that `normalizeAddr` writes out for a parsed URL `u0`: the
assignments between `url.Parse` and `u.String()`. -/
def normalizedURL (u0 : url.URL) : url.URL :=
  let u1 : url.URL := if u0.Scheme = [] then { u0 with Scheme := str "https" } else u0
  let u2 : url.URL :=
    if strings.Contains u1.Scheme (str ".") then
      { u1 with
        Host := if u1.Opaque ≠ [] then u1.Scheme ++ str ":" ++ u1.Opaque else u1.Scheme,
        Opaque := if u1.Opaque ≠ [] then [] else u1.Opaque,
        Scheme := str "https" }
    else u1
  let u3 : url.URL :=
    if u2.Host = [] then
      match strings.SplitN u2.Path (str "/") 2 with
      | [h] => { u2 with Host := h, Path := str "/" }
      | [h, p] => { u2 with Host := h, Path := p }
      | _ => u2
    else u2
  { u3 with Path := strings.TrimRight u3.Path (str "/") ++ str "/" }

/-- The query part of a URL text: `?` and the raw query, when there is one. -/
def queryText (forceQuery : Bool) (rawQuery : GoString) : GoString :=
  if forceQuery = true ∨ rawQuery ≠ [] then 63 :: rawQuery else []

/-- The user part of a URL text: the user information and `@`, when there is
user information. -/
def userText (user : Option url.Userinfo) : GoString :=
  match user with
  | some ui => ui.String ++ [64]
  | none => []

/-- The path part of a URL text with a host: the escaped path, after a `/` when
it does not begin with one. -/
def pathText (u : url.URL) : GoString :=
  (if u.EscapedPath ≠ [] ∧ u.EscapedPath.head? ≠ some 47 then [47] else []) ++ u.EscapedPath

/-- The fragment part of a URL text: `#` and the escaped fragment, when there
is a fragment. -/
def fragmentText (u : url.URL) : GoString :=
  if u.Fragment ≠ [] then 35 :: u.EscapedFragment else []

/-- What `url.Parse` guarantees of the URL it returns, as far as `normalizeAddr`
relies on it: the scheme is empty or a lower-case letter followed by lower-case
letters, digits, `+`, `-` or `.`; an opaque URL has no host and no path; the raw
query has no `#` and no control byte, and is empty when the query is forced;
with a scheme or a host the raw path is empty or starts with `/`; a raw path
unescapes to the path; a password that is not set is empty. -/
structure url.URL.Parsed (u : url.URL) : Prop where
  scheme : u.Scheme = [] ∨ ∃ c cs, u.Scheme = c :: cs ∧ isLower c = true ∧
    ∀ d ∈ cs, (isLower d || isDigit d || d = 43 || d = 45 || d = 46) = true
  bare : u.Opaque ≠ [] → u.Host = [] ∧ u.Path = [] ∧ u.RawPath = []
  query : ∀ c ∈ u.RawQuery, c ≠ 35 ∧ (c < 32 || c = 127) = false
  forced : u.ForceQuery = true → u.RawQuery = []
  rooted : u.Scheme ≠ [] ∨ u.Host ≠ [] → u.RawPath = [] ∨ u.RawPath.head? = some 47
  raw : u.RawPath ≠ [] → url.unescape url.encoding.encodePath u.RawPath = some u.Path
  password : ∀ ui, u.User = some ui → ui.passwordSet = false → ui.password = []

/-- A bare host name: not empty; letters, digits, `.` and `-` only. -/
def isHostName (h : GoString) : Bool :=
  h ≠ [] && h.all (fun c => isLower c || isUpper c || isDigit c || c = 46 || c = 45)

/-- A bare host name that starts with a letter and contains a dot. -/
def isDottedHostName (h : GoString) : Bool :=
  isHostName h && (match h with
    | [] => false
    | c :: _ => isLower c || isUpper c) && h.contains 46

/-- A decimal port number: not empty, digits only. -/
def isDecimal (p : GoString) : Bool :=
  p ≠ [] && p.all isDigit

/-- A text that a path holds without escapes: every byte is one that `net/url`
leaves as it is in a path (so no `?`, `#`, `%`, space or control byte). -/
def isUnescapedPath (p : GoString) : Bool :=
  p.all (fun c => !url.shouldEscape c url.encoding.encodePath)

/-- The text of `n` slashes. -/
def slashes (n : Nat) : GoString := List.replicate n 47

/-- The URL that has a path and nothing else: what `url.Parse` returns for a
text without scheme, authority, query and fragment. -/
def url.URL.ofPath (path : GoString) : url.URL :=
  { url.URL.zero with Path := path }

/-- The `https` URL that has a host, a path and nothing else. -/
def url.URL.https (host path : GoString) : url.URL :=
  { url.URL.zero with Scheme := str "https", Host := host, Path := path }

/-! ### Vocabulary for statements about a URL that is written and parsed again -/

/-- Percent-decoding without any check: `%` followed by two hexadecimal digits
becomes the byte they denote, every other byte is copied. -/
def url.decode : GoString → GoString
  | [] => []
  | [c] => [c]
  | [c, a] => [c, a]
  | c :: a :: b :: rest2 =>
    if c = 37 ∧ url.ishex a = true ∧ url.ishex b = true then
      (url.unhex a * 16 + url.unhex b) :: url.decode rest2
    else c :: url.decode (a :: b :: rest2)

/-- The host of the URL that `normalizeAddr` writes out for `s`; `none` when
`s` does not parse and is returned unchanged. -/
def normalizedHost (s : GoString) : Option GoString :=
  (url.Parse s).map (fun u0 => (normalizedURL u0).Host)

/-! ### Vocabulary for statements about `Validate` -/

/-- The address from which `Validate` computes `VaultAdvertiseAddr`: the field
itself, or `VaultAddr` when the field is empty. -/
def Configuration.advertiseSource (c : Configuration) : GoString :=
  if c.VaultAdvertiseAddr = [] then c.VaultAddr else c.VaultAdvertiseAddr

/-- A configuration that has the three required values and is otherwise
empty, with the given port and addresses. -/
def Configuration.ofAddrs (port addr advertise : GoString) : Configuration :=
  ⟨str "user", str "password", str "token", [], port, [], addr, advertise, [], [], [], [], [],
    false⟩

/-- The text `t` is an absolute URL whose path ends in a slash: a scheme, then
`://`, an authority (without `/`, `?` and `#`), a path that begins with `/`, has
no `?` and no `#` and is the escaped form of a path ending in `/`, then
possibly `?` with a query (without `#`) and possibly `#` with a fragment. -/
def NormalizedAbsolute (t : GoString) : Prop :=
  ∃ sc auth path query frag decoded : GoString,
    t = sc ++ str "://" ++ auth ++ path ++ query ++ frag ∧
    isPlainScheme sc = true ∧
    (∀ c ∈ auth, c ≠ 47 ∧ c ≠ 63 ∧ c ≠ 35) ∧
    path.head? = some 47 ∧ (∀ c ∈ path, c ≠ 63 ∧ c ≠ 35) ∧
    url.unescape url.encoding.encodePath path = some decoded ∧ decoded.getLast? = some 47 ∧
    (query = [] ∨ query.head? = some 63) ∧ (∀ c ∈ query, c ≠ 35) ∧
    (frag = [] ∨ frag.head? = some 35)

/-! ### Vocabulary for statements about the names that `credhubProcess` looks up -/

/-- The lookup key of a field under a prefix: the prefix followed by the
upper-cased `envconfig` tag. -/
def lookupKey (pfx : GoString) (f : Field) : GoString := pfx ++ strings.ToUpper f.tag

/-! ### Vocabulary for statements about the lines of a policy -/

/-- A line of a policy that consists of path stanzas only: a blank line, an
opening line `path "..." {`, a line `capabilities = [...]` or a closing brace.
Blanks and tabs at the start of the line do not count. -/
def isStanzaLine (l : GoString) : Bool :=
  l.dropWhile template.isSpace = [] ||
  ((str "path \"").isPrefixOf (l.dropWhile template.isSpace) &&
    (str "\" \x7b").isSuffixOf (l.dropWhile template.isSpace)) ||
  ((str "capabilities = [").isPrefixOf (l.dropWhile template.isSpace) &&
    (str "]").isSuffixOf (l.dropWhile template.isSpace)) ||
  l.dropWhile template.isSpace = str "\x7d"

/-- Every line of the policy text is a line of a path stanza or blank. -/
def stanzasOnly (out : GoString) : Bool :=
  (strings.Split out 10).all isStanzaLine

/-- The number of path stanzas in a policy text: its lines that open one. -/
def stanzaCount (out : GoString) : Nat :=
  ((strings.Split out 10).filter
    (fun l => (str "path \"").isPrefixOf (l.dropWhile template.isSpace))).length

/-- The first pair of lines of `ServicePolicyTemplateWithNames` that belong to no
stanza. -/
def strayLinesSpace : GoString :=
  str "\t// SpaceID is the unique ID of the space.\n\tSpaceID string\n"

/-- The second pair of lines of `ServicePolicyTemplateWithNames` that belong to
no stanza. -/
def strayLinesOrg : GoString :=
  str "\t// OrgID is the unique ID of the space.\n\tOrgID string\n"

/-! ### Vocabulary for statements about the stanzas of a policy -/

/-- The policy text `out` has the six stanzas on the GUID paths of `i`, each
identifier passed through `sub`: `["list"]` on `cf/<guid>` for instance, space
and organization, the full list on `cf/<guid>/*` for instance and space, and
`["read", "list"]` on `cf/<guid>/*` for the organization. -/
def GuidGrants (sub : GoString → GoString) (i : instanceInfo) (out : GoString) : Prop :=
  Grants out (str "cf/" ++ sub i.ServiceInstanceGUID) capsList ∧
  Grants out (str "cf/" ++ sub i.SpaceGUID) capsList ∧
  Grants out (str "cf/" ++ sub i.OrganizationGUID) capsList ∧
  Grants out (str "cf/" ++ sub i.ServiceInstanceGUID ++ str "/*") capsFull ∧
  Grants out (str "cf/" ++ sub i.SpaceGUID ++ str "/*") capsFull ∧
  Grants out (str "cf/" ++ sub i.OrganizationGUID ++ str "/*") capsReadList

/-- The policy text `out` has, for each of instance, space and organization, a
stanza on the composite path `cf/<name>-<guid>` with the capability list of
the stanza on `cf/<guid>`, and a stanza on `cf/<name>-<guid>/*` with the
capability list of the stanza on `cf/<guid>/*`, each identifier passed through
`sub`. -/
def CompositeGrants (sub : GoString → GoString) (i : instanceInfo) (out : GoString) : Prop :=
  (Grants out (str "cf/" ++ sub i.ServiceInstanceName ++ str "-" ++
      sub i.ServiceInstanceGUID) capsList ∧
    Grants out (str "cf/" ++ sub i.ServiceInstanceGUID) capsList) ∧
  (Grants out (str "cf/" ++ sub i.ServiceInstanceName ++ str "-" ++
      sub i.ServiceInstanceGUID ++ str "/*") capsFull ∧
    Grants out (str "cf/" ++ sub i.ServiceInstanceGUID ++ str "/*") capsFull) ∧
  (Grants out (str "cf/" ++ sub i.SpaceName ++ str "-" ++ sub i.SpaceGUID) capsList ∧
    Grants out (str "cf/" ++ sub i.SpaceGUID) capsList) ∧
  (Grants out (str "cf/" ++ sub i.SpaceName ++ str "-" ++ sub i.SpaceGUID ++ str "/*")
      capsFull ∧
    Grants out (str "cf/" ++ sub i.SpaceGUID ++ str "/*") capsFull) ∧
  (Grants out (str "cf/" ++ sub i.OrganizationName ++ str "-" ++
      sub i.OrganizationGUID) capsList ∧
    Grants out (str "cf/" ++ sub i.OrganizationGUID) capsList) ∧
  (Grants out (str "cf/" ++ sub i.OrganizationName ++ str "-" ++
      sub i.OrganizationGUID ++ str "/*") capsReadList ∧
    Grants out (str "cf/" ++ sub i.OrganizationGUID ++ str "/*") capsReadList)

/-! ### Vocabulary for statements about every stanza of a policy -/

/-- The text `t` holds the text `p` between two double quotes, directly
followed by the text `r` up to the end of `t`. -/
def QuotedAt (p r t : GoString) : Prop :=
  ∃ a : GoString, t = a ++ 34 :: (p ++ 34 :: r)

/-- The stanzas of the GUID-only policy, as pairs of a path and a capability
list, for the three substituted GUID texts. -/
def stanzasWithoutNames (ig sg og : GoString) : List (GoString × GoString) :=
  [(str "cf/" ++ ig, capsList), (str "cf/" ++ ig ++ str "/*", capsFull),
   (str "cf/" ++ sg, capsList), (str "cf/" ++ sg ++ str "/*", capsFull),
   (str "cf/" ++ og, capsList), (str "cf/" ++ og ++ str "/*", capsReadList)]

/-- The stanzas of the name-qualified policy, as pairs of a path and a
capability list, for the six substituted texts. -/
def stanzasWithNames (iname ig sname sg oname og : GoString) : List (GoString × GoString) :=
  [(str "cf/" ++ iname ++ str "-" ++ ig, capsList), (str "cf/" ++ ig, capsList),
   (str "cf/" ++ iname ++ str "-" ++ ig ++ str "/*", capsFull),
   (str "cf/" ++ ig ++ str "/*", capsFull),
   (str "cf/" ++ sname ++ str "-" ++ sg, capsList), (str "cf/" ++ sg, capsList),
   (str "cf/" ++ sname ++ str "-" ++ sg ++ str "/*", capsFull),
   (str "cf/" ++ sg ++ str "/*", capsFull),
   (str "cf/" ++ oname ++ str "-" ++ og, capsList), (str "cf/" ++ og, capsList),
   (str "cf/" ++ oname ++ str "-" ++ og ++ str "/*", capsReadList),
   (str "cf/" ++ og ++ str "/*", capsReadList)]

/-- The stanzas of the template that `GeneratePolicy` chooses for `i`, with the
identifiers as the template engine writes them (after `htmlEscaper`). -/
def templateStanzas (i : instanceInfo) : List (GoString × GoString) :=
  if i.namesAbsent then
    stanzasWithoutNames (htmlEscaper i.ServiceInstanceGUID) (htmlEscaper i.SpaceGUID)
      (htmlEscaper i.OrganizationGUID)
  else
    stanzasWithNames (htmlEscaper i.ServiceInstanceName) (htmlEscaper i.ServiceInstanceGUID)
      (htmlEscaper i.SpaceName) (htmlEscaper i.SpaceGUID) (htmlEscaper i.OrganizationName)
      (htmlEscaper i.OrganizationGUID)

/-- The text of a sequence of stanzas on paths `cf/...`, each given by the text
before it, the indentation of its capabilities line, the path after `cf/` and
the capability list. -/
def renderStanzas : List (GoString × GoString × GoString × GoString) → GoString
  | [] => []
  | (pre, ind, y, caps) :: l => pre ++ stanza ind (str "cf/" ++ y) caps ++ renderStanzas l

/-! # Theorems -/

/-! ## Strings -/

theorem contains_iff_subslice (s sub : GoString) :
    strings.Contains s sub = true ↔ sub <:+: s := by
  induction s with
  | nil =>
    cases sub with
    | nil => simp [strings.Contains]
    | cons a t => simp [strings.Contains]
  | cons c cs ih =>
    simp only [strings.Contains, Bool.or_eq_true, ih, List.infix_cons_iff,
      List.isPrefixOf_iff_prefix]

theorem contains_append_right {s sub : GoString} (t : GoString)
    (h : strings.Contains s sub = true) : strings.Contains (s ++ t) sub = true := by
  rw [contains_iff_subslice] at h ⊢
  exact h.trans (List.prefix_append s t).isInfix

theorem contains_append_left {s sub : GoString} (t : GoString)
    (h : strings.Contains s sub = true) : strings.Contains (t ++ s) sub = true := by
  rw [contains_iff_subslice] at h ⊢
  exact h.trans (List.suffix_append t s).isInfix

theorem contains_self (s : GoString) : strings.Contains s s = true := by
  rw [contains_iff_subslice]

theorem contains_suffix (t s : GoString) : strings.Contains (t ++ s) s = true :=
  contains_append_left t (contains_self s)

/-! ## Policy rendering -/

theorem htmlEscaper_of_htmlSafe (s : GoString) (h : htmlSafe s = true) : htmlEscaper s = s := by
  induction s with
  | nil => rfl
  | cons c cs ih =>
    simp only [htmlSafe, List.all_cons, Bool.and_eq_true] at h
    have hc : htmlReplacementTable c = none := by
      cases hr : htmlReplacementTable c with
      | none => rfl
      | some v => rw [hr] at h; simp at h
    have ih2 := ih (by simpa [htmlSafe] using h.2)
    simp only [htmlEscaper, List.flatMap_cons, hc, Option.getD_none] at ih2 ⊢
    rw [ih2]; rfl

set_option maxRecDepth 1000000 in
theorem render_withoutNames (i : instanceInfo) :
    renderTemplate ServicePolicyTemplateWithoutNames i =
      Except.ok (policyWithoutNames (htmlEscaper i.ServiceInstanceGUID)
        (htmlEscaper i.SpaceGUID) (htmlEscaper i.OrganizationGUID)) := by
  simp only [policyWithoutNames, stanza, List.append_assoc]
  rfl

set_option maxRecDepth 1000000 in
theorem render_withNames (i : instanceInfo) :
    renderTemplate ServicePolicyTemplateWithNames i =
      Except.ok (policyWithNames (htmlEscaper i.ServiceInstanceName)
        (htmlEscaper i.ServiceInstanceGUID) (htmlEscaper i.SpaceName) (htmlEscaper i.SpaceGUID)
        (htmlEscaper i.OrganizationName) (htmlEscaper i.OrganizationGUID)) := by
  simp only [policyWithNames, stanza, List.append_assoc]
  rfl

theorem GeneratePolicy_of_namesAbsent (i : instanceInfo) (h : i.namesAbsent) :
    GeneratePolicy i = renderTemplate ServicePolicyTemplateWithoutNames i := by
  unfold instanceInfo.namesAbsent at h
  simp only [GeneratePolicy, renderTemplate, if_pos h]

theorem GeneratePolicy_of_names (i : instanceInfo) (h : ¬ i.namesAbsent) :
    GeneratePolicy i = renderTemplate ServicePolicyTemplateWithNames i := by
  unfold instanceInfo.namesAbsent at h
  simp only [GeneratePolicy, renderTemplate, if_neg h]

theorem stanza_length (ind p c : GoString) :
    (stanza ind p c).length = 28 + ind.length + p.length + c.length := by
  simp only [stanza, List.length_append]
  have h1 : (str "path \"").length = 6 := rfl
  have h2 : (str "\" \x7b\n").length = 4 := rfl
  have h3 : (str "capabilities = ").length = 15 := rfl
  have h4 : (str "\n\x7d\n").length = 3 := rfl
  omega

theorem policyWithoutNames_length_lt (iname ig sname sg oname og : GoString) :
    (policyWithoutNames ig sg og).length < (policyWithNames iname ig sname sg oname og).length := by
  simp only [policyWithoutNames, policyWithNames, stanza_length, List.length_append]
  have h1 : (str "\n").length = 1 := rfl
  have h2 : (str "cf/").length = 3 := rfl
  have h3 : (str "/*").length = 2 := rfl
  have h4 : (str "-").length = 1 := rfl
  have h5 : (str "  ").length = 2 := rfl
  have h6 : (str "\t").length = 1 := rfl
  omega

theorem render_templates_differ (i : instanceInfo) :
    renderTemplate ServicePolicyTemplateWithNames i ≠
      renderTemplate ServicePolicyTemplateWithoutNames i := by
  rw [render_withNames, render_withoutNames]
  intro h
  have hl := policyWithoutNames_length_lt (htmlEscaper i.ServiceInstanceName)
    (htmlEscaper i.ServiceInstanceGUID) (htmlEscaper i.SpaceName) (htmlEscaper i.SpaceGUID)
    (htmlEscaper i.OrganizationName) (htmlEscaper i.OrganizationGUID)
  rw [Except.ok.injEq] at h
  rw [h] at hl
  exact lt_irrefl _ hl

/-- C2: `GeneratePolicy` renders the name-qualified template exactly when the
organization, space and service-instance names are all non-empty, and the
GUID-only template exactly when at least one of them is empty (the two
renderings of one identity are never equal). -/
theorem GeneratePolicy_selects_template (i : instanceInfo) :
    (GeneratePolicy i = renderTemplate ServicePolicyTemplateWithNames i ↔
      (i.OrganizationName ≠ [] ∧ i.SpaceName ≠ [] ∧ i.ServiceInstanceName ≠ [])) ∧
    (GeneratePolicy i = renderTemplate ServicePolicyTemplateWithoutNames i ↔
      (i.OrganizationName = [] ∨ i.SpaceName = [] ∨ i.ServiceInstanceName = [])) := by
  by_cases h : i.namesAbsent
  · have h2 := h
    unfold instanceInfo.namesAbsent at h2
    rw [GeneratePolicy_of_namesAbsent i h]
    refine ⟨⟨fun e => absurd e.symm (render_templates_differ i), fun hn => ?_⟩, ⟨fun _ => h2, fun _ => rfl⟩⟩
    rcases h2 with h2 | h2 | h2
    · exact absurd h2 hn.1
    · exact absurd h2 hn.2.1
    · exact absurd h2 hn.2.2
  · have h2 := h
    unfold instanceInfo.namesAbsent at h2
    rw [GeneratePolicy_of_names i h]
    push_neg at h2
    exact ⟨⟨fun _ => h2, fun _ => rfl⟩,
      ⟨fun e => absurd e (render_templates_differ i), fun hn => absurd hn h⟩⟩

/-- C3: two identities with the same three GUIDs, each lacking at least one
name, are rendered to the same text, and that text is the GUID-only policy
built from the three GUIDs alone: six stanzas on `cf/<guid>` and
`cf/<guid>/*`, none on a composite name-GUID path. -/
theorem GeneratePolicy_guid_only (i j : instanceInfo)
    (hi : i.OrganizationName = [] ∨ i.SpaceName = [] ∨ i.ServiceInstanceName = [])
    (hj : j.OrganizationName = [] ∨ j.SpaceName = [] ∨ j.ServiceInstanceName = [])
    (hO : i.OrganizationGUID = j.OrganizationGUID) (hS : i.SpaceGUID = j.SpaceGUID)
    (hI : i.ServiceInstanceGUID = j.ServiceInstanceGUID) :
    GeneratePolicy i = GeneratePolicy j ∧
    GeneratePolicy i = Except.ok (policyWithoutNames (htmlEscaper i.ServiceInstanceGUID)
      (htmlEscaper i.SpaceGUID) (htmlEscaper i.OrganizationGUID)) := by
  rw [GeneratePolicy_of_namesAbsent i hi, GeneratePolicy_of_namesAbsent j hj,
    render_withoutNames, render_withoutNames, hO, hS, hI]
  exact ⟨rfl, rfl⟩

/-- Witness for C3: one identity with exactly one name present, one with
different names, same GUIDs. -/
theorem GeneratePolicy_guid_only_witness :
    GeneratePolicy ⟨str "o1", str "acme", str "s1", [], str "i1", []⟩ =
      GeneratePolicy ⟨str "o1", [], str "s1", str "dev", str "i1", str "db"⟩ ∧
    GeneratePolicy ⟨str "o1", str "acme", str "s1", [], str "i1", []⟩ =
      Except.ok (policyWithoutNames (htmlEscaper (str "i1")) (htmlEscaper (str "s1"))
        (htmlEscaper (str "o1"))) :=
  GeneratePolicy_guid_only ⟨str "o1", str "acme", str "s1", [], str "i1", []⟩
    ⟨str "o1", [], str "s1", str "dev", str "i1", str "db"⟩
    (Or.inr (Or.inl rfl)) (Or.inl rfl) rfl rfl rfl

theorem grants_policyWithoutNames (ig sg og : GoString) :
    Grants (policyWithoutNames ig sg og) (str "cf/" ++ ig) capsList ∧
    Grants (policyWithoutNames ig sg og) (str "cf/" ++ sg) capsList ∧
    Grants (policyWithoutNames ig sg og) (str "cf/" ++ og) capsList ∧
    Grants (policyWithoutNames ig sg og) (str "cf/" ++ ig ++ str "/*") capsFull ∧
    Grants (policyWithoutNames ig sg og) (str "cf/" ++ sg ++ str "/*") capsFull ∧
    Grants (policyWithoutNames ig sg og) (str "cf/" ++ og ++ str "/*") capsReadList := by
  unfold Grants policyWithoutNames
  refine ⟨Or.inl ?_, Or.inl ?_, Or.inl ?_, Or.inr ?_, Or.inl ?_, Or.inl ?_⟩
  · iterate 10 apply contains_append_right
    exact contains_suffix _ _
  · iterate 6 apply contains_append_right
    exact contains_suffix _ _
  · iterate 2 apply contains_append_right
    exact contains_suffix _ _
  · iterate 8 apply contains_append_right
    exact contains_suffix _ _
  · iterate 4 apply contains_append_right
    exact contains_suffix _ _
  · exact contains_suffix _ _

theorem grants_policyWithNames (iname ig sname sg oname og : GoString) :
    (Grants (policyWithNames iname ig sname sg oname og) (str "cf/" ++ ig) capsList ∧
     Grants (policyWithNames iname ig sname sg oname og) (str "cf/" ++ sg) capsList ∧
     Grants (policyWithNames iname ig sname sg oname og) (str "cf/" ++ og) capsList ∧
     Grants (policyWithNames iname ig sname sg oname og) (str "cf/" ++ ig ++ str "/*") capsFull ∧
     Grants (policyWithNames iname ig sname sg oname og) (str "cf/" ++ sg ++ str "/*") capsFull ∧
     Grants (policyWithNames iname ig sname sg oname og) (str "cf/" ++ og ++ str "/*")
       capsReadList) ∧
    (Grants (policyWithNames iname ig sname sg oname og)
       (str "cf/" ++ iname ++ str "-" ++ ig) capsList ∧
     Grants (policyWithNames iname ig sname sg oname og)
       (str "cf/" ++ sname ++ str "-" ++ sg) capsList ∧
     Grants (policyWithNames iname ig sname sg oname og)
       (str "cf/" ++ oname ++ str "-" ++ og) capsList ∧
     Grants (policyWithNames iname ig sname sg oname og)
       (str "cf/" ++ iname ++ str "-" ++ ig ++ str "/*") capsFull ∧
     Grants (policyWithNames iname ig sname sg oname og)
       (str "cf/" ++ sname ++ str "-" ++ sg ++ str "/*") capsFull ∧
     Grants (policyWithNames iname ig sname sg oname og)
       (str "cf/" ++ oname ++ str "-" ++ og ++ str "/*") capsReadList) := by
  unfold Grants policyWithNames
  refine ⟨⟨Or.inl ?_, Or.inl ?_, Or.inl ?_, Or.inr ?_, Or.inl ?_, Or.inl ?_⟩,
    ⟨Or.inl ?_, Or.inl ?_, Or.inl ?_, Or.inr ?_, Or.inl ?_, Or.inl ?_⟩⟩
  · iterate 12 apply contains_append_right
    exact contains_suffix _ _
  · iterate 8 apply contains_append_right
    exact contains_suffix _ _
  · iterate 4 apply contains_append_right
    exact contains_suffix _ _
  · iterate 10 apply contains_append_right
    exact contains_suffix _ _
  · iterate 6 apply contains_append_right
    exact contains_suffix _ _
  · exact contains_suffix _ _
  · iterate 13 apply contains_append_right
    exact contains_suffix _ _
  · iterate 9 apply contains_append_right
    exact contains_suffix _ _
  · iterate 5 apply contains_append_right
    exact contains_suffix _ _
  · iterate 11 apply contains_append_right
    exact contains_suffix _ _
  · iterate 7 apply contains_append_right
    exact contains_suffix _ _
  · iterate 2 apply contains_append_right
    exact contains_suffix _ _

/-- For every identity, whichever template is chosen, the rendered policy
has a stanza with capability list exactly `["list"]` on each of the exact paths
`cf/<instance GUID>`, `cf/<space GUID>`, `cf/<organization GUID>`, a stanza with
`["create", "read", "update", "delete", "list"]` on `cf/<instance GUID>/*` and
on `cf/<space GUID>/*`, and a stanza with only `["read", "list"]` on
`cf/<organization GUID>/*`.  Here `<... GUID>` is the text the template engine
substitutes for the GUID field, `htmlEscaper` of the field. -/
theorem GeneratePolicy_capabilities (i : instanceInfo) :
    ∃ out, GeneratePolicy i = Except.ok out ∧
      Grants out (str "cf/" ++ htmlEscaper i.ServiceInstanceGUID) capsList ∧
      Grants out (str "cf/" ++ htmlEscaper i.SpaceGUID) capsList ∧
      Grants out (str "cf/" ++ htmlEscaper i.OrganizationGUID) capsList ∧
      Grants out (str "cf/" ++ htmlEscaper i.ServiceInstanceGUID ++ str "/*") capsFull ∧
      Grants out (str "cf/" ++ htmlEscaper i.SpaceGUID ++ str "/*") capsFull ∧
      Grants out (str "cf/" ++ htmlEscaper i.OrganizationGUID ++ str "/*") capsReadList := by
  by_cases h : i.namesAbsent
  · exact ⟨_, (GeneratePolicy_of_namesAbsent i h).trans (render_withoutNames i),
      grants_policyWithoutNames _ _ _⟩
  · exact ⟨_, (GeneratePolicy_of_names i h).trans (render_withNames i),
      (grants_policyWithNames _ _ _ _ _ _).1⟩

/-- For every identity with all three names non-empty, the rendered policy
has, for each of instance, space and organization, a stanza on the composite
path `cf/<name>-<guid>` with the same capability list (`["list"]`) as the
stanza on `cf/<guid>`, and a stanza on `cf/<name>-<guid>/*` with the same
capability list as the stanza on `cf/<guid>/*` (the full list for instance and
space, `["read", "list"]` for the organization).  `<name>` and `<guid>` are the
texts the template engine substitutes for the fields. -/
theorem GeneratePolicy_composite_paths (i : instanceInfo)
    (h : i.OrganizationName ≠ [] ∧ i.SpaceName ≠ [] ∧ i.ServiceInstanceName ≠ []) :
    ∃ out, GeneratePolicy i = Except.ok out ∧
      (Grants out (str "cf/" ++ htmlEscaper i.ServiceInstanceName ++ str "-" ++
          htmlEscaper i.ServiceInstanceGUID) capsList ∧
        Grants out (str "cf/" ++ htmlEscaper i.ServiceInstanceGUID) capsList) ∧
      (Grants out (str "cf/" ++ htmlEscaper i.ServiceInstanceName ++ str "-" ++
          htmlEscaper i.ServiceInstanceGUID ++ str "/*") capsFull ∧
        Grants out (str "cf/" ++ htmlEscaper i.ServiceInstanceGUID ++ str "/*") capsFull) ∧
      (Grants out (str "cf/" ++ htmlEscaper i.SpaceName ++ str "-" ++
          htmlEscaper i.SpaceGUID) capsList ∧
        Grants out (str "cf/" ++ htmlEscaper i.SpaceGUID) capsList) ∧
      (Grants out (str "cf/" ++ htmlEscaper i.SpaceName ++ str "-" ++
          htmlEscaper i.SpaceGUID ++ str "/*") capsFull ∧
        Grants out (str "cf/" ++ htmlEscaper i.SpaceGUID ++ str "/*") capsFull) ∧
      (Grants out (str "cf/" ++ htmlEscaper i.OrganizationName ++ str "-" ++
          htmlEscaper i.OrganizationGUID) capsList ∧
        Grants out (str "cf/" ++ htmlEscaper i.OrganizationGUID) capsList) ∧
      (Grants out (str "cf/" ++ htmlEscaper i.OrganizationName ++ str "-" ++
          htmlEscaper i.OrganizationGUID ++ str "/*") capsReadList ∧
        Grants out (str "cf/" ++ htmlEscaper i.OrganizationGUID ++ str "/*") capsReadList) := by
  have hn : ¬ i.namesAbsent := by
    unfold instanceInfo.namesAbsent
    rintro (h1 | h1 | h1)
    · exact h.1 h1
    · exact h.2.1 h1
    · exact h.2.2 h1
  have g := grants_policyWithNames (htmlEscaper i.ServiceInstanceName)
    (htmlEscaper i.ServiceInstanceGUID) (htmlEscaper i.SpaceName) (htmlEscaper i.SpaceGUID)
    (htmlEscaper i.OrganizationName) (htmlEscaper i.OrganizationGUID)
  obtain ⟨⟨b1, b2, b3, b4, b5, b6⟩, ⟨c1, c2, c3, c4, c5, c6⟩⟩ := g
  exact ⟨_, (GeneratePolicy_of_names i hn).trans (render_withNames i),
    ⟨c1, b1⟩, ⟨c4, b4⟩, ⟨c2, b2⟩, ⟨c5, b5⟩, ⟨c3, b3⟩, ⟨c6, b6⟩⟩

/-- An instance: an identity with all three names. -/
theorem GeneratePolicy_composite_paths_witness :
    ∃ out, GeneratePolicy ⟨str "o1", str "acme", str "s1", str "dev", str "i1", str "db"⟩ =
        Except.ok out ∧
      Grants out (str "cf/db-i1") capsList ∧ Grants out (str "cf/i1") capsList := by
  obtain ⟨out, h, g, _⟩ := GeneratePolicy_composite_paths
    ⟨str "o1", str "acme", str "s1", str "dev", str "i1", str "db"⟩ (by decide)
  exact ⟨out, h, g⟩

theorem quotedPath_in_stanza (ind p c : GoString) :
    strings.Contains (stanza ind (str "cf/" ++ p) c) (quotedPath p) = true := by
  have e : stanza ind (str "cf/" ++ p) c =
      quotedPath p ++ (str " \x7b\n" ++ ind ++ str "capabilities = " ++ c ++ str "\n\x7d\n") := by
    simp only [stanza, quotedPath, List.append_assoc]
    rfl
  rw [e]
  exact contains_append_right _ (contains_self _)

theorem contains_of_grants {out p c : GoString} (h : Grants out (str "cf/" ++ p) c) :
    strings.Contains out (quotedPath p) = true := by
  rcases h with h | h
  · rw [contains_iff_subslice] at h ⊢
    exact ((contains_iff_subslice _ _).1 (quotedPath_in_stanza _ p c)).trans h
  · rw [contains_iff_subslice] at h ⊢
    exact ((contains_iff_subslice _ _).1 (quotedPath_in_stanza _ p c)).trans h

theorem mentions_policyWithoutNames (sub : GoString → GoString) (i : instanceInfo)
    (h : i.namesAbsent) :
    MentionsIdentifiers sub i (policyWithoutNames (sub i.ServiceInstanceGUID) (sub i.SpaceGUID)
      (sub i.OrganizationGUID)) := by
  obtain ⟨g1, g2, g3, _⟩ := grants_policyWithoutNames (sub i.ServiceInstanceGUID)
    (sub i.SpaceGUID) (sub i.OrganizationGUID)
  exact ⟨contains_of_grants g1, contains_of_grants g2, contains_of_grants g3,
    fun hn => absurd h hn⟩

theorem mentions_policyWithNames (sub : GoString → GoString) (i : instanceInfo) :
    MentionsIdentifiers sub i (policyWithNames (sub i.ServiceInstanceName)
      (sub i.ServiceInstanceGUID) (sub i.SpaceName) (sub i.SpaceGUID) (sub i.OrganizationName)
      (sub i.OrganizationGUID)) := by
  have G := grants_policyWithNames (sub i.ServiceInstanceName)
    (sub i.ServiceInstanceGUID) (sub i.SpaceName) (sub i.SpaceGUID) (sub i.OrganizationName)
    (sub i.OrganizationGUID)
  generalize policyWithNames (sub i.ServiceInstanceName)
    (sub i.ServiceInstanceGUID) (sub i.SpaceName) (sub i.SpaceGUID) (sub i.OrganizationName)
    (sub i.OrganizationGUID) = P at G ⊢
  obtain ⟨⟨g1, g2, g3, _⟩, ⟨c1, c2, c3, _⟩⟩ := G
  have d1 : Grants P (str "cf/" ++ (sub i.ServiceInstanceName ++ str "-" ++
      sub i.ServiceInstanceGUID)) capsList := by
    simpa only [List.append_assoc] using c1
  have d2 : Grants P (str "cf/" ++ (sub i.SpaceName ++ str "-" ++ sub i.SpaceGUID)) capsList := by
    simpa only [List.append_assoc] using c2
  have d3 : Grants P (str "cf/" ++ (sub i.OrganizationName ++ str "-" ++
      sub i.OrganizationGUID)) capsList := by
    simpa only [List.append_assoc] using c3
  exact ⟨contains_of_grants g1, contains_of_grants g2, contains_of_grants g3,
    fun _ => ⟨contains_of_grants d1, contains_of_grants d2, contains_of_grants d3⟩⟩

set_option maxRecDepth 1000000 in
/-- C6, as stated, fails: for an identity whose organization name is `R&D` the
name-qualified template is rendered and refers to the organization name, yet
the text `R&D` occurs nowhere in the output (it is written as `R&amp;D`). -/
theorem GeneratePolicy_sanitizes_identifier :
    GeneratePolicy ⟨str "o1", str "R&D", str "s1", str "dev", str "i1", str "db"⟩ =
        Except.ok (policyWithNames (str "db") (str "i1") (str "dev") (str "s1") (str "R&amp;D")
          (str "o1")) ∧
      strings.Contains (policyWithNames (str "db") (str "i1") (str "dev") (str "s1")
        (str "R&amp;D") (str "o1")) (str "R&D") = false := by
  decide

/-- C6, amended: substitution is textual expansion after HTML escaping.  For
every identity the output contains, as quoted paths, each identifier the chosen
template refers to after `htmlEscaper` (which replaces exactly the bytes NUL,
`"`, `&`, the apostrophe, `+`, `<` and `>` and copies every other byte); so when
no identifier contains one of these seven bytes, each appears character for
character. -/
theorem GeneratePolicy_substitutes_escaped (i : instanceInfo) :
    ∃ out, GeneratePolicy i = Except.ok out ∧
      MentionsIdentifiers htmlEscaper i out ∧
      (i.identifiersSafe → MentionsIdentifiers (fun s => s) i out) := by
  have key : ∃ out, GeneratePolicy i = Except.ok out ∧ MentionsIdentifiers htmlEscaper i out := by
    by_cases h : i.namesAbsent
    · exact ⟨_, (GeneratePolicy_of_namesAbsent i h).trans (render_withoutNames i),
        mentions_policyWithoutNames htmlEscaper i h⟩
    · exact ⟨_, (GeneratePolicy_of_names i h).trans (render_withNames i),
        mentions_policyWithNames htmlEscaper i⟩
  obtain ⟨out, h1, h2⟩ := key
  refine ⟨out, h1, h2, fun hs => ?_⟩
  unfold instanceInfo.identifiersSafe at hs
  obtain ⟨s1, s2, s3, s4, s5, s6⟩ := hs
  have h3 := h2
  simp only [MentionsIdentifiers, htmlEscaper_of_htmlSafe _ s1, htmlEscaper_of_htmlSafe _ s2,
    htmlEscaper_of_htmlSafe _ s3, htmlEscaper_of_htmlSafe _ s4, htmlEscaper_of_htmlSafe _ s5,
    htmlEscaper_of_htmlSafe _ s6] at h3
  exact h3

set_option maxRecDepth 1000000 in
theorem templates_parse :
    (∃ t, template.Parse ServicePolicyTemplateWithoutNames = Except.ok t) ∧
    (∃ t, template.Parse ServicePolicyTemplateWithNames = Except.ok t) := by
  constructor
  · cases h : template.Parse ServicePolicyTemplateWithoutNames with
    | ok t => exact ⟨t, rfl⟩
    | error e =>
      have := render_withoutNames ⟨[], [], [], [], [], []⟩
      simp [renderTemplate, h] at this
  · cases h : template.Parse ServicePolicyTemplateWithNames with
    | ok t => exact ⟨t, rfl⟩
    | error e =>
      have := render_withNames ⟨[], [], [], [], [], []⟩
      simp [renderTemplate, h] at this

theorem policyWithoutNames_ne_nil (ig sg og : GoString) : policyWithoutNames ig sg og ≠ [] := by
  intro h
  have := congrArg List.length h
  simp [policyWithoutNames, stanza_length] at this

theorem policyWithNames_ne_nil (iname ig sname sg oname og : GoString) :
    policyWithNames iname ig sname sg oname og ≠ [] := by
  intro h
  have := congrArg List.length h
  simp [policyWithNames, stanza_length] at this

/-- C7: `GeneratePolicy` is total: for every identity (any six strings), with a
writer that never fails, it returns no error and the text written is not
empty; and both fixed templates parse. -/
theorem GeneratePolicy_total (i : instanceInfo) :
    (∃ out, GeneratePolicy i = Except.ok out ∧ out ≠ []) ∧
    (∃ t, template.Parse ServicePolicyTemplateWithoutNames = Except.ok t) ∧
    (∃ t, template.Parse ServicePolicyTemplateWithNames = Except.ok t) := by
  refine ⟨?_, templates_parse⟩
  by_cases h : i.namesAbsent
  · exact ⟨_, (GeneratePolicy_of_namesAbsent i h).trans (render_withoutNames i),
      policyWithoutNames_ne_nil _ _ _⟩
  · exact ⟨_, (GeneratePolicy_of_names i h).trans (render_withNames i),
      policyWithNames_ne_nil _ _ _ _ _ _⟩


/-! ## Bytes -/

set_option maxRecDepth 100000 in
theorem pathByte_facts : ∀ c : Byte, url.shouldEscape c url.encoding.encodePath = false →
    c ≠ 37 ∧ c ≠ 63 ∧ c ≠ 35 ∧ (c < 32 || c = 127) = false := by
  decide

set_option maxRecDepth 100000 in
theorem hostByte_facts : ∀ c : Byte, url.shouldEscape c url.encoding.encodeHost = false →
    c ≠ 37 ∧ c ≠ 63 ∧ c ≠ 35 ∧ c ≠ 47 ∧ c ≠ 64 ∧ (c < 32 || c = 127) = false := by
  decide

set_option maxRecDepth 100000 in
theorem schemeByte_facts : ∀ c : Byte, (isLower c || isDigit c || c = 43 || c = 45) = true →
    c ≠ 46 ∧ c ≠ 63 ∧ c ≠ 35 ∧ c ≠ 58 ∧ isUpper c = false ∧ (c < 32 || c = 127) = false ∧
    ((isLower c || isUpper c) = true ∨ (isDigit c || c = 43 || c = 45 || c = 46) = true) := by
  decide

set_option maxRecDepth 100000 in
theorem digit_facts : ∀ c : Byte, isDigit c = true →
    url.shouldEscape c url.encoding.encodeHost = false ∧ c ≠ 58 := by
  decide

/-! ## `strings` -/

theorem cut_of_not_mem (c : Byte) : ∀ s : GoString, c ∉ s → strings.Cut s [c] = (s, [], false)
  | [], _ => rfl
  | x :: xs, h => by
    have hx : c ≠ x := fun e => h (e ▸ List.mem_cons_self _ _)
    have ih := cut_of_not_mem c xs (fun m => h (List.mem_cons_of_mem _ m))
    have hp : List.isPrefixOf [c] (x :: xs) = false := by
      simp [List.isPrefixOf, hx]
    simp only [strings.Cut, hp, ih]
    rfl

theorem cut_at (c : Byte) (q : GoString) :
    ∀ a : GoString, c ∉ a → strings.Cut (a ++ c :: q) [c] = (a, q, true)
  | [], _ => by
    have hp : List.isPrefixOf [c] (c :: q) = true := by simp [List.isPrefixOf]
    simp only [List.nil_append, strings.Cut, hp]
    rfl
  | x :: xs, h => by
    have hx : c ≠ x := fun e => h (e ▸ List.mem_cons_self _ _)
    have ih := cut_at c q xs (fun m => h (List.mem_cons_of_mem _ m))
    have hp : List.isPrefixOf [c] (x :: (xs ++ c :: q)) = false := by
      simp [List.isPrefixOf, hx]
    show strings.Cut (x :: (xs ++ c :: q)) [c] = _
    simp only [strings.Cut, hp, ih]
    rfl

theorem lastCut_of_not_mem (c : Byte) (s : GoString) (h : c ∉ s) : strings.LastCut s c = none := by
  have := cut_of_not_mem c s.reverse (by simpa using h)
  simp only [strings.LastCut, this]

theorem lastCut_at (c : Byte) (a q : GoString) (h : c ∉ q) :
    strings.LastCut (a ++ c :: q) c = some (a, q) := by
  have e : (a ++ c :: q).reverse = q.reverse ++ c :: a.reverse := by simp
  have := cut_at c a.reverse q.reverse (by simpa using h)
  simp only [strings.LastCut, e, this, List.reverse_reverse]

theorem contains_singleton (c : Byte) : ∀ s : GoString, strings.Contains s [c] = decide (c ∈ s)
  | [] => by simp [strings.Contains]
  | x :: xs => by
    have ih := contains_singleton c xs
    simp only [strings.Contains, ih, List.isPrefixOf]
    by_cases hx : c = x
    · subst hx; simp
    · have hx2 : ¬ x = c := fun e => hx e.symm
      simp [hx, hx2, List.isPrefixOf]

theorem mem_of_mem_trimRight {c : Byte} {s cutset : GoString}
    (h : c ∈ strings.TrimRight s cutset) : c ∈ s := by
  unfold strings.TrimRight at h
  rw [List.mem_reverse] at h
  exact List.mem_reverse.1 ((List.dropWhile_sublist _).subset h)

theorem toLower_of_no_upper (s : GoString) (h : ∀ c ∈ s, isUpper c = false) :
    strings.ToLower s = s := by
  unfold strings.ToLower
  conv_rhs => rw [← List.map_id s]
  apply List.map_congr_left
  intro c hc
  simp [h c hc]

/-! ## `net/url` on plain input -/

theorem unescape_of_plain (mode : url.encoding)
    (hm : mode ≠ url.encoding.encodeQueryComponent) :
    ∀ s : GoString,
      (∀ c ∈ s, c ≠ 37 ∧ url.shouldEscape c url.encoding.encodeHost = false) ∨
      (∀ c ∈ s, c ≠ 37 ∧ mode = url.encoding.encodePath) →
      url.unescape mode s = some s
  | [], _ => rfl
  | c :: rest, h => by
    have ih := unescape_of_plain mode hm rest (by
      rcases h with h | h
      · exact Or.inl (fun d hd => h d (List.mem_cons_of_mem _ hd))
      · exact Or.inr (fun d hd => h d (List.mem_cons_of_mem _ hd)))
    have hc : c ≠ 37 := by
      rcases h with h | h
      · exact (h c (List.mem_cons_self _ _)).1
      · exact (h c (List.mem_cons_self _ _)).1
    have h2 : ¬ ((mode = url.encoding.encodeHost ∨ mode = url.encoding.encodeZone) ∧ c < 128 ∧
        url.shouldEscape c url.encoding.encodeHost = true) := by
      rcases h with h | h
      · intro hh
        rw [(h c (List.mem_cons_self _ _)).2] at hh
        exact Bool.noConfusion hh.2.2
      · intro hh
        rw [(h c (List.mem_cons_self _ _)).2] at hh
        rcases hh.1 with e | e <;> exact url.encoding.noConfusion e
    unfold url.unescape
    rw [if_neg hc, if_neg h2, ih, if_neg (fun hh => hm hh.2)]
    rfl

theorem escape_of_plain (mode : url.encoding) (hm : mode ≠ url.encoding.encodeQueryComponent) :
    ∀ s : GoString, (∀ c ∈ s, url.shouldEscape c mode = false) → url.escape s mode = s
  | [], _ => rfl
  | c :: rest, h => by
    have ih := escape_of_plain mode hm rest (fun d hd => h d (List.mem_cons_of_mem _ hd))
    unfold url.escape at ih ⊢
    rw [List.flatMap_cons, ih, if_neg (fun hh => hm hh.2), h c (List.mem_cons_self _ _)]
    rfl

theorem getSchemeFrom_scheme (rawURL rest : GoString) :
    ∀ (sc pre : GoString), pre ≠ [] →
      (∀ c ∈ sc, (isLower c || isDigit c || c = 43 || c = 45) = true) →
      url.getSchemeFrom rawURL pre (sc ++ 58 :: rest) = some (pre ++ sc, rest)
  | [], pre, hpre, _ => by
    have h1 : (isLower (58 : Byte) || isUpper (58 : Byte)) = false := by decide
    have h2 : (isDigit (58 : Byte) || decide ((58 : Byte) = 43) || decide ((58 : Byte) = 45) ||
      decide ((58 : Byte) = 46)) = false := by decide
    simp only [List.nil_append, url.getSchemeFrom, h1, h2, List.append_nil]
    simp [hpre]
  | c :: cs, pre, hpre, h => by
    have ih := getSchemeFrom_scheme rawURL rest cs (pre ++ [c]) (by simp)
      (fun d hd => h d (List.mem_cons_of_mem _ hd))
    have hc := schemeByte_facts c (h c (List.mem_cons_self _ _))
    show url.getSchemeFrom rawURL pre (c :: (cs ++ 58 :: rest)) = _
    simp only [url.getSchemeFrom]
    rcases hc.2.2.2.2.2.2 with h1 | h1
    · rw [if_pos h1, ih]; simp
    · by_cases h0 : (isLower c || isUpper c) = true
      · rw [if_pos h0, ih]; simp
      · rw [if_neg h0, if_pos h1, if_neg hpre, ih]; simp

theorem str_slash : str "/" = [47] := rfl
theorem str_colon : str ":" = [58] := rfl
theorem str_dot : str "." = [46] := rfl
theorem str_hash : str "#" = [35] := rfl
theorem str_question : str "?" = [63] := rfl
theorem str_slash2 : str "//" = [47, 47] := rfl
theorem str_slash3 : str "///" = [47, 47, 47] := rfl
theorem str_scheme_sep : str "://" = [58, 47, 47] := rfl

theorem isPlainHost_iff (h : GoString) : isPlainHost h = true ↔
    h ≠ [] ∧ ∀ c ∈ h, url.shouldEscape c url.encoding.encodeHost = false ∧ c ≠ 58 ∧
      c ≠ 91 ∧ c ≠ 93 := by
  simp [isPlainHost, List.all_eq_true, and_assoc]

theorem isPlainPath_iff (p : GoString) : isPlainPath p = true ↔
    (p = [] ∨ p.head? = some 47) ∧ ∀ c ∈ p, url.shouldEscape c url.encoding.encodePath = false := by
  simp [isPlainPath, List.all_eq_true]

theorem isPlainScheme_iff (sc : GoString) : isPlainScheme sc = true ↔
    ∃ c cs, sc = c :: cs ∧ isLower c = true ∧
      ∀ d ∈ cs, (isLower d || isDigit d || d = 43 || d = 45) = true := by
  cases sc with
  | nil => simp [isPlainScheme]
  | cons c cs =>
    simp only [isPlainScheme, Bool.and_eq_true, List.all_eq_true, List.cons.injEq]
    constructor
    · rintro ⟨h1, h2⟩
      exact ⟨c, cs, ⟨rfl, rfl⟩, h1, h2⟩
    · rintro ⟨c2, cs2, ⟨rfl, rfl⟩, h1, h2⟩
      exact ⟨h1, h2⟩

theorem validOptionalPort_iff (port : GoString) : url.validOptionalPort port = true ↔
    port = [] ∨ ∃ ds, port = 58 :: ds ∧ ∀ d ∈ ds, isDigit d = true := by
  cases port with
  | nil => simp [url.validOptionalPort]
  | cons c ds =>
    simp only [url.validOptionalPort, Bool.and_eq_true, decide_eq_true_eq, List.all_eq_true,
      List.cons.injEq, false_or, reduceCtorEq]
    constructor
    · rintro ⟨h1, h2⟩
      exact ⟨ds, ⟨h1, rfl⟩, h2⟩
    · rintro ⟨ds2, ⟨h1, rfl⟩, h2⟩
      exact ⟨h1, h2⟩

theorem authority_bytes (h port : GoString) (hh : isPlainHost h = true)
    (hport : url.validOptionalPort port = true) :
    ∀ c ∈ h ++ port, c ≠ 37 ∧ url.shouldEscape c url.encoding.encodeHost = false := by
  intro c hc
  rw [isPlainHost_iff] at hh
  rw [validOptionalPort_iff] at hport
  rcases List.mem_append.1 hc with m | m
  · exact ⟨(hostByte_facts c (hh.2 c m).1).1, (hh.2 c m).1⟩
  · rcases hport with e | ⟨ds, e, hd⟩
    · rw [e] at m; exact absurd m (List.not_mem_nil _)
    · rw [e] at m
      rcases List.mem_cons.1 m with e2 | m2
      · subst e2; decide
      · have := (digit_facts c (hd c m2)).1
        exact ⟨(hostByte_facts c this).1, this⟩

theorem parseHost_plain (h port : GoString) (hh : isPlainHost h = true)
    (hport : url.validOptionalPort port = true) :
    url.parseHost (h ++ port) = some (h ++ port) := by
  have hb := authority_bytes h port hh hport
  have hu : url.unescape url.encoding.encodeHost (h ++ port) = some (h ++ port) :=
    unescape_of_plain _ (by decide) _ (Or.inl hb)
  rw [isPlainHost_iff] at hh
  obtain ⟨hne, hbytes⟩ := hh
  obtain ⟨c, cs, rfl⟩ := List.exists_cons_of_ne_nil hne
  have hc91 : c ≠ 91 := (hbytes c (List.mem_cons_self _ _)).2.2.1
  have hpre : List.isPrefixOf (str "[") (c :: cs ++ port) = false := by
    have : str "[" = [91] := rfl
    rw [this]
    simp [List.isPrefixOf, Ne.symm hc91]
  have h58 : (58 : Byte) ∉ c :: cs := fun m => (hbytes 58 m).2.1 rfl
  unfold url.parseHost
  rw [hpre]
  rw [validOptionalPort_iff] at hport
  rcases hport with e | ⟨ds, e, hd⟩
  · subst e
    rw [List.append_nil] at hu ⊢
    rw [lastCut_of_not_mem 58 _ h58]
    simpa using hu
  · subst e
    have hds : (58 : Byte) ∉ ds := fun m => (digit_facts 58 (hd 58 m)).2 rfl
    rw [lastCut_at 58 _ ds hds]
    have hv : url.validOptionalPort (58 :: ds) = true := by
      simp [url.validOptionalPort, List.all_eq_true]
      exact hd
    simp only [hv]
    simpa using hu

theorem parseAuthority_plain (h port : GoString) (hh : isPlainHost h = true)
    (hport : url.validOptionalPort port = true) :
    url.parseAuthority (h ++ port) = some (none, h ++ port) := by
  have hb := authority_bytes h port hh hport
  have h64 : (64 : Byte) ∉ h ++ port := fun m => (hostByte_facts 64 (hb 64 m).2).2.2.2.2.1 rfl
  unfold url.parseAuthority
  rw [lastCut_of_not_mem 64 _ h64, parseHost_plain h port hh hport]
  rfl

theorem cut_fst_authority (a p : GoString) (ha : (47 : Byte) ∉ a)
    (hp : p = [] ∨ p.head? = some 47) : (strings.Cut (a ++ p) [47]).1 = a := by
  rcases hp with e | e
  · subst e
    rw [List.append_nil, cut_of_not_mem 47 a ha]
  · cases p with
    | nil => simp at e
    | cons x q =>
      simp only [List.head?_cons, Option.some.injEq] at e
      subst e
      rw [cut_at 47 q a ha]

/-- The absolute URL `sc://a p` with a plain scheme, authority and path parses
into exactly these three components. -/
theorem parse_absolute (sc h port p : GoString) (hsc : isPlainScheme sc = true)
    (hh : isPlainHost h = true) (hport : url.validOptionalPort port = true)
    (hp : isPlainPath p = true) :
    url.Parse (sc ++ 58 :: 47 :: 47 :: (h ++ port ++ p)) =
      some { url.URL.zero with Scheme := sc, Host := h ++ port, Path := p } := by
  have hb := authority_bytes h port hh hport
  have hauth := parseAuthority_plain h port hh hport
  generalize h ++ port = a at hb hauth ⊢
  rw [isPlainPath_iff] at hp
  obtain ⟨hp0, hpb⟩ := hp
  rw [isPlainScheme_iff] at hsc
  obtain ⟨c0, cs0, rfl, hc0, hcs0⟩ := hsc
  have hscb : ∀ d ∈ c0 :: cs0, (isLower d || isDigit d || d = 43 || d = 45) = true := by
    intro d hd
    rcases List.mem_cons.1 hd with e | m
    · subst e; simp [hc0]
    · exact hcs0 d m
  -- byte facts about the whole text
  have hall : ∀ c ∈ (c0 :: cs0) ++ 58 :: 47 :: 47 :: (a ++ p),
      c ≠ 35 ∧ c ≠ 63 ∧ (c < 32 || c = 127) = false := by
    intro c hc
    rcases List.mem_append.1 hc with m | m
    · have := schemeByte_facts c (hscb c m)
      exact ⟨this.2.2.1, this.2.1, this.2.2.2.2.2.1⟩
    · rcases List.mem_cons.1 m with e | m
      · subst e; decide
      · rcases List.mem_cons.1 m with e | m
        · subst e; decide
        · rcases List.mem_cons.1 m with e | m
          · subst e; decide
          · rcases List.mem_append.1 m with m | m
            · have := hostByte_facts c (hb c m).2
              exact ⟨this.2.2.1, this.2.1, this.2.2.2.2.2⟩
            · have := pathByte_facts c (hpb c m)
              exact ⟨this.2.2.1, this.2.1, this.2.2.2⟩
  have hrest : ∀ c ∈ (47 : Byte) :: 47 :: (a ++ p), c ≠ 63 := by
    intro c hc
    exact (hall c (List.mem_append_right _ (List.mem_cons_of_mem _ hc))).2.1
  have h35 : (35 : Byte) ∉ (c0 :: cs0) ++ 58 :: 47 :: 47 :: (a ++ p) :=
    fun m => (hall 35 m).1 rfl
  have h63 : (63 : Byte) ∉ (47 : Byte) :: 47 :: (a ++ p) := fun m => hrest 63 m rfl
  have h47 : (47 : Byte) ∉ a := fun m => (hostByte_facts 47 (hb 47 m).2).2.2.2.1 rfl
  have hctl : url.stringContainsCTLByte ((c0 :: cs0) ++ 58 :: 47 :: 47 :: (a ++ p)) = false := by
    unfold url.stringContainsCTLByte
    rw [List.any_eq_false]
    intro c hc
    rw [(hall c hc).2.2]
    exact Bool.false_ne_true
  have hstar : (c0 :: cs0) ++ 58 :: 47 :: 47 :: (a ++ p) ≠ str "*" := by
    intro e
    have := congrArg List.length e
    have h1 : (str "*").length = 1 := rfl
    simp [h1] at this
  have hgs : url.getScheme ((c0 :: cs0) ++ 58 :: 47 :: 47 :: (a ++ p)) =
      some (c0 :: cs0, 47 :: 47 :: (a ++ p)) := by
    unfold url.getScheme
    show url.getSchemeFrom _ [] (c0 :: (cs0 ++ 58 :: 47 :: 47 :: (a ++ p))) = _
    have hl : (isLower c0 || isUpper c0) = true := by simp [hc0]
    simp only [url.getSchemeFrom, hl, if_true, List.nil_append]
    rw [getSchemeFrom_scheme _ _ cs0 [c0] (by simp) hcs0]
    rfl
  have hlow : strings.ToLower (c0 :: cs0) = c0 :: cs0 :=
    toLower_of_no_upper _ (fun c hc => (schemeByte_facts c (hscb c hc)).2.2.2.2.1)
  have hfq : ((47 : Byte) :: 47 :: (a ++ p)).count 63 = 0 := List.count_eq_zero.2 h63
  have hcutq : strings.Cut ((47 : Byte) :: 47 :: (a ++ p)) (str "?") =
      ((47 : Byte) :: 47 :: (a ++ p), [], false) := by
    rw [str_question]; exact cut_of_not_mem 63 _ h63
  have hcuth : strings.Cut ((c0 :: cs0) ++ 58 :: 47 :: 47 :: (a ++ p)) (str "#") =
      ((c0 :: cs0) ++ 58 :: 47 :: 47 :: (a ++ p), [], false) := by
    rw [str_hash]; exact cut_of_not_mem 35 _ h35
  have hcuta : (strings.Cut (a ++ p) [47]).1 = a := cut_fst_authority a p h47 hp0
  have hup : url.unescape url.encoding.encodePath p = some p :=
    unescape_of_plain _ (by decide) _ (Or.inr (fun c hc => ⟨(pathByte_facts c (hpb c hc)).1, rfl⟩))
  have hep : url.escape p url.encoding.encodePath = p := escape_of_plain _ (by decide) _ hpb
  have hparse : url.parse ((c0 :: cs0) ++ 58 :: 47 :: 47 :: (a ++ p)) =
      some { url.URL.zero with Scheme := c0 :: cs0, Host := a, Path := p } := by
    unfold url.parse
    rw [hctl, if_neg Bool.false_ne_true, if_neg hstar, hgs]
    simp only [hlow, hfq, hcutq, str_slash, str_slash2, str_slash3, List.isPrefixOf,
      List.drop, url.URL.setPath]
    simp [url.URL.zero, hcuta, hauth, hup, hep]
  unfold url.Parse
  rw [hcuth, hparse]
  simp

theorem trimRight_slash_head (p : GoString) (hp : p = [] ∨ p.head? = some 47) :
    (strings.TrimRight p (str "/") ++ str "/").head? = some 47 := by
  rcases hp with e | e
  · subst e; rfl
  · cases p with
    | nil => simp at e
    | cons x q =>
      simp only [List.head?_cons, Option.some.injEq] at e
      subst e
      have hpre : strings.TrimRight (47 :: q) (str "/") <+: 47 :: q := by
        show List.rdropWhile (fun c => (str "/").contains c) (47 :: q) <+: 47 :: q
        exact List.rdropWhile_prefix _ _
      cases ht : strings.TrimRight (47 :: q) (str "/") with
      | nil => rfl
      | cons y r =>
        rw [ht] at hpre
        obtain ⟨t, ht2⟩ := hpre
        simp only [List.cons_append, List.cons.injEq] at ht2
        rw [ht2.1]
        rfl

/-- Go `normalizeAddr` on an absolute URL `sc://host[:port]path` written with a
plain scheme, host and path: scheme and authority are kept, the path loses
its trailing slashes and gets exactly one. -/
theorem normalizeAddr_absolute (sc h port p : GoString) (hsc : isPlainScheme sc = true)
    (hh : isPlainHost h = true) (hport : url.validOptionalPort port = true)
    (hp : isPlainPath p = true) :
    normalizeAddr (sc ++ str "://" ++ h ++ port ++ p) =
      sc ++ str "://" ++ h ++ port ++ (strings.TrimRight p (str "/") ++ str "/") := by
  have e1 : sc ++ str "://" ++ h ++ port ++ p = sc ++ 58 :: 47 :: 47 :: (h ++ port ++ p) := by
    rw [str_scheme_sep]; simp [List.append_assoc]
  have hparse := parse_absolute sc h port p hsc hh hport hp
  have hscne : sc ≠ [] := by
    intro e; subst e; simp [isPlainScheme] at hsc
  have hdot : strings.Contains sc (str ".") = false := by
    rw [str_dot, contains_singleton]
    rw [isPlainScheme_iff] at hsc
    obtain ⟨c0, cs0, rfl, hc0, hcs0⟩ := hsc
    simp only [decide_eq_false_iff_not, List.mem_cons, not_or]
    constructor
    · intro e; subst e; revert hc0; decide
    · intro m; exact (schemeByte_facts 46 (hcs0 46 m)).1 rfl
  have hhne : h ++ port ≠ [] := by
    rw [isPlainHost_iff] at hh
    intro e
    exact hh.1 (List.append_eq_nil.1 e).1
  have hbh := authority_bytes h port hh hport
  have heh : url.escape (h ++ port) url.encoding.encodeHost = h ++ port :=
    escape_of_plain _ (by decide) _ (fun c hc => (hbh c hc).2)
  rw [isPlainPath_iff] at hp
  have hpt : ∀ c ∈ strings.TrimRight p (str "/") ++ str "/",
      url.shouldEscape c url.encoding.encodePath = false := by
    intro c hc
    rcases List.mem_append.1 hc with m | m
    · exact hp.2 c (mem_of_mem_trimRight m)
    · rw [str_slash] at m
      rw [List.mem_singleton.1 m]; decide
  have hept : url.escape (strings.TrimRight p (str "/") ++ str "/") url.encoding.encodePath =
      strings.TrimRight p (str "/") ++ str "/" := escape_of_plain _ (by decide) _ hpt
  have hhead := trimRight_slash_head p hp.1
  have hne : strings.TrimRight p (str "/") ++ str "/" ≠ [] := by
    intro e; rw [e] at hhead; simp at hhead
  have hstar : strings.TrimRight p (str "/") ++ str "/" ≠ str "*" := by
    intro e; rw [e] at hhead; revert hhead; decide
  have hne0 : sc ++ 58 :: 47 :: 47 :: (h ++ port ++ p) ≠ [] := by simp
  rw [e1]
  unfold normalizeAddr
  rw [if_neg hne0, hparse]
  simp only [url.URL.zero, if_neg hscne, hdot, Bool.false_eq_true, if_false, if_neg hhne]
  generalize strings.TrimRight p (str "/") ++ str "/" = P at hept hhead hne hstar ⊢
  simp only [url.URL.String, url.URL.EscapedPath, hept, heh, hhead, if_neg hstar]
  simp [hscne, hhne, hne, hhead, str_scheme_sep, str_colon, str_slash2, List.append_assoc]


theorem trimRight_of_endsInOneSlash (p : GoString) (h : endsInOneSlash p = true) :
    strings.TrimRight p (str "/") ++ str "/" = p := by
  simp only [endsInOneSlash, Bool.and_eq_true, decide_eq_true_eq] at h
  obtain ⟨h1, h2⟩ := h
  have hp : p.dropLast ++ [47] = p := List.dropLast_append_getLast? 47 h1
  generalize p.dropLast = q at hp h2
  subst hp
  have hq : List.dropWhile (fun c => (str "/").contains c) q.reverse = q.reverse := by
    cases hr : q.reverse with
    | nil => rfl
    | cons x r =>
      have hx : q.getLast? = some x := by
        rw [← List.head?_reverse, hr]; rfl
      have hx47 : x ≠ 47 := by
        intro e; subst e; exact h2 (by simpa using hx)
      have hc : ¬ ((str "/").contains x = true) := by
        rw [str_slash]; simp [hx47]
      rw [List.dropWhile_cons_of_neg hc]
  have h47 : (str "/").contains (47 : Byte) = true := by decide
  unfold strings.TrimRight
  rw [List.reverse_append]
  show (List.dropWhile (fun c => (str "/").contains c) (47 :: q.reverse)).reverse ++ str "/" = _
  rw [List.dropWhile_cons_of_pos h47, hq, List.reverse_reverse, str_slash]

set_option maxRecDepth 1000000 in
/-- C1, as stated, fails: `normalizeAddr` is not idempotent.  For the non-empty
input `http:////foo` the result is `http:///foo/` (empty host, path `/foo/`),
and normalising that gives `http://foo/`.  The host of the URL written by the
first pass is empty. -/
theorem normalizeAddr_not_idempotent :
    str "http:////foo" ≠ [] ∧
    normalizeAddr (str "http:////foo") = str "http:///foo/" ∧
    normalizeAddr (normalizeAddr (str "http:////foo")) = str "http://foo/" ∧
    normalizeAddr (normalizeAddr (str "http:////foo")) ≠ normalizeAddr (str "http:////foo") ∧
    normalizedHost (str "http:////foo") = some [] := by
  decide!

/-- Go `normalizeAddr` is idempotent on every input whose result is an absolute
URL with a host, `scheme://host[:port]/path/`: a plain scheme, a non-empty
plain host, an optional decimal port and a plain path that ends in exactly
one `/`. -/
theorem normalizeAddr_idempotent_of_absolute (s sc h port p : GoString)
    (hs : normalizeAddr s = sc ++ str "://" ++ h ++ port ++ p)
    (hsc : isPlainScheme sc = true) (hh : isPlainHost h = true)
    (hport : url.validOptionalPort port = true) (hp : isPlainPath p = true)
    (hend : endsInOneSlash p = true) :
    normalizeAddr (normalizeAddr s) = normalizeAddr s := by
  rw [hs, normalizeAddr_absolute sc h port p hsc hh hport hp, trimRight_of_endsInOneSlash p hend]

set_option maxRecDepth 1000000 in
/-- An instance: the bare host `www.example.com`, whose result is
`https://www.example.com/`. -/
theorem normalizeAddr_idempotent_of_absolute_witness :
    normalizeAddr (normalizeAddr (str "www.example.com")) = normalizeAddr (str "www.example.com") :=
  normalizeAddr_idempotent_of_absolute (str "www.example.com") (str "https")
    (str "www.example.com") [] (str "/") (by decide) (by decide) (by decide) (by decide)
    (by decide) (by decide)


/-! ## Configuration -/

/-- C8: `Validate` returns an error exactly when one of `SecurityUserName`,
`SecurityUserPassword`, `VaultToken` is empty, and the message names the first
empty one in that order (so, when exactly one is empty, that one); the three
messages are different from each other. -/
theorem Validate_missing_required (c : Configuration) :
    (c.Validate.2 ≠ none ↔
      (c.SecurityUserName = [] ∨ c.SecurityUserPassword = [] ∨ c.VaultToken = [])) ∧
    (c.SecurityUserName = [] → c.Validate.2 = some (str "missing SECURITY_USER_NAME")) ∧
    (c.SecurityUserName ≠ [] → c.SecurityUserPassword = [] →
      c.Validate.2 = some (str "missing SECURITY_USER_PASSWORD")) ∧
    (c.SecurityUserName ≠ [] → c.SecurityUserPassword ≠ [] → c.VaultToken = [] →
      c.Validate.2 = some (str "missing VAULT_TOKEN")) ∧
    str "missing SECURITY_USER_NAME" ≠ str "missing SECURITY_USER_PASSWORD" ∧
    str "missing SECURITY_USER_NAME" ≠ str "missing VAULT_TOKEN" ∧
    str "missing SECURITY_USER_PASSWORD" ≠ str "missing VAULT_TOKEN" := by
  refine ⟨?_, ?_, ?_, ?_, by decide, by decide, by decide⟩
  · by_cases h1 : c.SecurityUserName = []
    · simp [Configuration.Validate, h1]
    · by_cases h2 : c.SecurityUserPassword = []
      · simp [Configuration.Validate, h1, h2]
      · by_cases h3 : c.VaultToken = []
        · simp [Configuration.Validate, h1, h2, h3]
        · simp [Configuration.Validate, h1, h2, h3]
  · intro h1
    simp [Configuration.Validate, h1]
  · intro h1 h2
    simp [Configuration.Validate, h1, h2]
  · intro h1 h2 h3
    simp [Configuration.Validate, h1, h2, h3]

theorem get_SetString_ne (c : Configuration) (f g : Field) (v : GoString) (h : f ≠ g) :
    (c.SetString g v).get f = c.get f := by
  cases g <;> cases f <;> first | rfl | exact absurd rfl h

theorem get_SetBool_ne (c : Configuration) (f g : Field) (b : Bool) (h : f ≠ g) :
    (c.SetBool g b).get f = c.get f := by
  cases g <;> cases f <;> first | rfl | exact absurd rfl h

theorem get_Set_ne (c : Configuration) (f g : Field) (l : List GoString) (h : f ≠ g) :
    (c.Set g l).get f = c.get f := by
  cases g <;> cases f <;> first | rfl | exact absurd rfl h

theorem credhubAssign_get_ne (w : World) (key : GoString) (f g : Field)
    (latest : Option credhub.Credential) (c c2 : Configuration) (h : f ≠ g)
    (hok : credhubAssign w key g latest c = Except.ok c2) : c2.get f = c.get f := by
  unfold credhubAssign at hok
  cases latest with
  | none =>
    simp only [Except.ok.injEq] at hok
    rw [← hok]
  | some cred =>
    obtain ⟨val⟩ := cred
    cases val with
    | other t => simp at hok
    | string sv =>
      simp only at hok
      by_cases hsv : sv = []
      · rw [if_pos hsv, Except.ok.injEq] at hok
        rw [← hok]
      · rw [if_neg hsv] at hok
        cases hk : g.kind with
        | Bool =>
          rw [hk] at hok
          cases hb : strconv.ParseBool sv with
          | none => rw [hb] at hok; simp at hok
          | some b =>
            rw [hb] at hok
            simp only [Except.ok.injEq] at hok
            rw [← hok, get_SetBool_ne c f g b h]
        | String =>
          rw [hk] at hok
          simp only [Except.ok.injEq] at hok
          rw [← hok, get_SetString_ne c f g sv h]
        | Slice =>
          rw [hk] at hok
          simp only [Except.ok.injEq] at hok
          rw [← hok, get_Set_ne c f g _ h]

theorem credhubField_get_ne (w : World) (key : GoString) (f g : Field)
    (r : credhub.Result) (c c2 : Configuration) (h : f ≠ g)
    (hok : credhubField w key g r c = Except.ok c2) : c2.get f = c.get f := by
  unfold credhubField at hok
  cases he : r.err with
  | none =>
    rw [he] at hok
    exact credhubAssign_get_ne w key f g _ c c2 h hok
  | some err =>
    rw [he] at hok
    simp only at hok
    by_cases hnf : strings.Contains (strings.ToLower err) (str "not found") = false
    · rw [if_pos hnf] at hok; simp at hok
    · rw [if_neg hnf] at hok
      exact credhubAssign_get_ne w key f g _ c c2 h hok

theorem credhubLoop_get_of_not_mem (w : World) (client : GoString → credhub.Result)
    (pfx : GoString) (f : Field) :
    ∀ (fs : List Field) (c : Configuration) (q : List GoString), f ∉ fs →
      (credhubLoop w client pfx fs c q).config.get f = c.get f
  | [], _, _, _ => rfl
  | g :: fs, c, q, hf => by
    have hfg : f ≠ g := fun e => hf (e ▸ List.mem_cons_self _ _)
    have hfs : f ∉ fs := fun m => hf (List.mem_cons_of_mem _ m)
    unfold credhubLoop
    cases hs : credhubField w (pfx ++ strings.ToUpper g.tag) g
        (client (pfx ++ strings.ToUpper g.tag)) c with
    | error err => rfl
    | ok c2 =>
      simp only
      rw [credhubLoop_get_of_not_mem w client pfx f fs c2 _ hfs]
      exact credhubField_get_ne w _ f g _ c c2 hfg hs

/-- The coercion of a non-empty override value to the kind of the field. -/
theorem credhubField_found (w : World) (key : GoString) (f : Field) (v : GoString)
    (c c2 : Configuration) (hv : v ≠ [])
    (hok : credhubField w key f ⟨some ⟨credhub.Value.string v⟩, none⟩ c = Except.ok c2) :
    (f.kind = reflect.Kind.String ∧ c2 = c.SetString f v) ∨
    (f.kind = reflect.Kind.Slice ∧ c2 = c.Set f (strings.Split v 44)) ∨
    (f.kind = reflect.Kind.Bool ∧ ∃ b, strconv.ParseBool v = some b ∧ c2 = c.SetBool f b) := by
  simp only [credhubField, credhubAssign, if_neg hv] at hok
  cases hk : f.kind with
  | Bool =>
    rw [hk] at hok
    cases hb : strconv.ParseBool v with
    | none => rw [hb] at hok; simp at hok
    | some b =>
      rw [hb] at hok
      simp only [Except.ok.injEq] at hok
      exact Or.inr (Or.inr ⟨rfl, b, rfl, hok.symm⟩)
  | String =>
    rw [hk] at hok
    simp only [Except.ok.injEq] at hok
    exact Or.inl ⟨rfl, hok.symm⟩
  | Slice =>
    rw [hk] at hok
    simp only [Except.ok.injEq] at hok
    exact Or.inr (Or.inl ⟨rfl, hok.symm⟩)

theorem credhubField_found_get (w : World) (key : GoString) (f : Field) (v : GoString)
    (c c2 : Configuration) (hv : v ≠ [])
    (hok : credhubField w key f ⟨some ⟨credhub.Value.string v⟩, none⟩ c = Except.ok c2) :
    some (c2.get f) = coercedOverride f v := by
  rcases credhubField_found w key f v c c2 hv hok with ⟨hk, rfl⟩ | ⟨hk, rfl⟩ | ⟨hk, b, hb, rfl⟩
  · cases f <;> first | rfl | exact reflect.Kind.noConfusion hk
  · cases f <;> first | rfl | exact reflect.Kind.noConfusion hk
  · cases f
    all_goals first
      | exact reflect.Kind.noConfusion hk
      | (simp only [coercedOverride, Field.kind, hb]; rfl)

theorem credhubLoop_get_of_found (w : World) (client : GoString → credhub.Result)
    (pfx : GoString) (f : Field) (v : GoString) (hv : v ≠ [])
    (hlook : client (pfx ++ strings.ToUpper f.tag) = ⟨some ⟨credhub.Value.string v⟩, none⟩) :
    ∀ (fs : List Field) (c : Configuration) (q : List GoString), f ∈ fs → fs.Nodup →
      (credhubLoop w client pfx fs c q).err = none →
      some ((credhubLoop w client pfx fs c q).config.get f) = coercedOverride f v
  | [], _, _, hf, _, _ => absurd hf (List.not_mem_nil _)
  | g :: fs, c, q, hf, hnd, herr => by
    rw [List.nodup_cons] at hnd
    unfold credhubLoop at herr ⊢
    cases hs : credhubField w (pfx ++ strings.ToUpper g.tag) g
        (client (pfx ++ strings.ToUpper g.tag)) c with
    | error err => rw [hs] at herr; simp at herr
    | ok c2 =>
      rw [hs] at herr
      simp only at herr ⊢
      by_cases hfg : f = g
      · subst hfg
        rw [credhubLoop_get_of_not_mem w client pfx f fs c2 _ hnd.1]
        rw [hlook] at hs
        exact credhubField_found_get w _ f v c c2 hv hs
      · have hf2 : f ∈ fs := by
          rcases List.mem_cons.1 hf with e | m
          · exact absurd e hfg
          · exact m
        exact credhubLoop_get_of_found w client pfx f v hv hlook fs c2 _ hf2 hnd.2 herr

theorem Field.mem_all (f : Field) : f ∈ Field.all := by
  cases f <;> decide

theorem Field.all_nodup : Field.all.Nodup := by decide

theorem Validate_get (c c2 : Configuration) (f : Field) (v : GoString) (hv : v ≠ [])
    (hval : c.Validate = (c2, none)) (hget : some (c.get f) = coercedOverride f v) :
    some (c2.get f) = resolvedOverride f v := by
  unfold Configuration.Validate at hval
  by_cases h1 : c.SecurityUserName = []
  · rw [if_pos h1] at hval; simp at hval
  · by_cases h2 : c.SecurityUserPassword = []
    · rw [if_neg h1, if_pos h2] at hval; simp at hval
    · by_cases h3 : c.VaultToken = []
      · rw [if_neg h1, if_neg h2, if_pos h3] at hval; simp at hval
      · rw [if_neg h1, if_neg h2, if_neg h3] at hval
        simp only [Prod.mk.injEq, and_true] at hval
        subst hval
        cases f with
        | VaultAdvertiseAddr =>
          simp only [coercedOverride, Field.kind, Configuration.get, Option.some.injEq,
            FieldValue.string.injEq] at hget
          by_cases hp : (str ":").isPrefixOf c.Port = false
          · simp [Configuration.get, resolvedOverride, hp, hget, hv]
          · simp [Configuration.get, resolvedOverride, hp, hget, hv]
        | _ =>
          simp only [coercedOverride, Field.kind, Configuration.get, Option.some.injEq,
            FieldValue.string.injEq] at hget
          by_cases hp : (str ":").isPrefixOf c.Port = false <;>
          by_cases ha : c.VaultAdvertiseAddr = [] <;>
          simp [Configuration.get, resolvedOverride, hp, ha, ← hget]


/-- C9: override always wins.  When the override store is in use (the
environment sets a non-empty `CredhubURL`) and returns a non-empty string `v`
for the key of a field, then in the configuration that `parseConfig` returns
that field holds the value determined by `v` alone: `v` coerced to the kind of
the field and passed through the fix-ups of `Validate` (port prefix, address
normalisation), whatever the environment had set. -/
theorem parseConfig_override_wins (w : World) (e cfg : Configuration) (f : Field) (v : GoString)
    (henv : w.envconfig = Except.ok e) (hurl : e.CredhubURL ≠ [])
    (hlook : w.GetLatestByName e.CredhubURL
      (str "VAULT_SERVICE_BROKER_" ++ strings.ToUpper f.tag) =
        ⟨some ⟨credhub.Value.string v⟩, none⟩)
    (hv : v ≠ []) (hok : parseConfig w = Except.ok cfg) :
    some (cfg.get f) = resolvedOverride f v := by
  unfold parseConfig at hok
  rw [henv] at hok
  simp only [if_pos hurl] at hok
  cases herr : (credhubProcess w (str "VAULT_SERVICE_BROKER_") e).err with
  | some err => rw [herr] at hok; simp at hok
  | none =>
    rw [herr] at hok
    simp only at hok
    cases hval : (credhubProcess w (str "VAULT_SERVICE_BROKER_") e).config.Validate with
    | mk c2 verr =>
      rw [hval] at hok
      cases verr with
      | some err => simp at hok
      | none =>
        simp only [Except.ok.injEq] at hok
        subst hok
        have hget := credhubLoop_get_of_found w (w.GetLatestByName e.CredhubURL)
          (str "VAULT_SERVICE_BROKER_") f v hv hlook Field.all e [] (Field.mem_all f)
          Field.all_nodup herr
        exact Validate_get _ _ f v hv hval hget

set_option maxRecDepth 1000000 in
/-- Witness for C9: the scenario of `TestCredhubConfigOverridesEnvConfig`.  The
override port `8080` resolves to `:8080` although the environment also sets a
port, and the override address `vaultAddr` resolves to `https://vaultAddr/`. -/
theorem parseConfig_override_wins_witness :
    parseConfig testWorld = Except.ok testResolved ∧
    some (testResolved.get Field.Port) = some (FieldValue.string (str ":8080")) ∧
    resolvedOverride Field.VaultAddr (str "vaultAddr") =
      some (FieldValue.string (str "https://vaultAddr/")) ∧
    some (testResolved.get Field.Port) = resolvedOverride Field.Port (str "8080") :=
  ⟨by decide!, rfl, by decide!,
    parseConfig_override_wins testWorld testEnvironment testResolved Field.Port (str "8080")
      rfl (by decide) (by decide!) (by decide) (by decide!)⟩

theorem toLower_not_found : strings.ToLower (str "not found") = str "not found" := by decide

theorem contains_toLower_not_found (err : GoString)
    (h : strings.Contains err (str "not found") = true) :
    strings.Contains (strings.ToLower err) (str "not found") = true := by
  rw [contains_iff_subslice] at h ⊢
  obtain ⟨a, b, rfl⟩ := h
  refine ⟨strings.ToLower a, strings.ToLower b, ?_⟩
  unfold strings.ToLower
  rw [List.map_append, List.map_append]
  have := toLower_not_found
  unfold strings.ToLower at this
  rw [this]

theorem credhubLoop_get_of_skip (w : World) (client : GoString → credhub.Result)
    (pfx : GoString) (f : Field)
    (hskip : ∀ c, credhubField w (pfx ++ strings.ToUpper f.tag) f
      (client (pfx ++ strings.ToUpper f.tag)) c = Except.ok c) :
    ∀ (fs : List Field) (c : Configuration) (q : List GoString),
      (credhubLoop w client pfx fs c q).config.get f = c.get f
  | [], _, _ => rfl
  | g :: fs, c, q => by
    unfold credhubLoop
    by_cases hfg : f = g
    · subst hfg
      rw [hskip c]
      exact credhubLoop_get_of_skip w client pfx f hskip fs c _
    · cases hs : credhubField w (pfx ++ strings.ToUpper g.tag) g
          (client (pfx ++ strings.ToUpper g.tag)) c with
      | error err => rfl
      | ok c2 =>
        simp only
        rw [credhubLoop_get_of_skip w client pfx f hskip fs c2 _]
        exact credhubField_get_ne w _ f g _ c c2 hfg hs

/-- C10: in `credhubProcess`, when the lookup for a setting reports not-found
(no result, and an error whose message contains `not found`) or returns the
empty string, the iteration for that setting leaves the configuration as it is
and returns no error, the loop goes on with the next setting, and after the
call the field still has the value it had before. -/
theorem credhubProcess_skips (w : World) (pfx : GoString) (config : Configuration) (f : Field)
    (h : (∃ err, w.GetLatestByName config.CredhubURL (pfx ++ strings.ToUpper f.tag) =
            ⟨none, some err⟩ ∧ strings.Contains err (str "not found") = true) ∨
         w.GetLatestByName config.CredhubURL (pfx ++ strings.ToUpper f.tag) =
            ⟨some ⟨credhub.Value.string []⟩, none⟩) :
    (credhubProcess w pfx config).config.get f = config.get f ∧
    (∀ c, credhubField w (pfx ++ strings.ToUpper f.tag) f
      (w.GetLatestByName config.CredhubURL (pfx ++ strings.ToUpper f.tag)) c = Except.ok c) ∧
    (∀ fs c q, credhubLoop w (w.GetLatestByName config.CredhubURL) pfx (f :: fs) c q =
      credhubLoop w (w.GetLatestByName config.CredhubURL) pfx fs c
        (q ++ [pfx ++ strings.ToUpper f.tag])) := by
  have hskip : ∀ c, credhubField w (pfx ++ strings.ToUpper f.tag) f
      (w.GetLatestByName config.CredhubURL (pfx ++ strings.ToUpper f.tag)) c = Except.ok c := by
    intro c
    rcases h with ⟨err, hr, hnf⟩ | hr
    · rw [hr]
      have := contains_toLower_not_found err hnf
      simp [credhubField, credhubAssign, this]
    · rw [hr]
      simp [credhubField, credhubAssign]
  refine ⟨credhubLoop_get_of_skip w _ pfx f hskip Field.all config [], hskip, ?_⟩
  intro fs c q
  conv_lhs => unfold credhubLoop
  rw [hskip c]

set_option maxRecDepth 1000000 in
/-- Witness for C10: in the scenario of the test the store has no value under
`VAULT_SERVICE_BROKER_CREDHUB_URL`; the field keeps the value of the
environment. -/
theorem credhubProcess_skips_witness :
    (credhubProcess testWorld (str "VAULT_SERVICE_BROKER_") testEnvironment).config.get
      Field.CredhubURL = FieldValue.string (str "http://127.0.0.1:8844") :=
  (credhubProcess_skips testWorld (str "VAULT_SERVICE_BROKER_") testEnvironment Field.CredhubURL
    (Or.inl ⟨str "credential not found", by decide!, by decide!⟩)).1

/-! ## The run of `credhubProcess` up to a given setting -/

theorem credhubLoop_cons_ok (w : World) (client : GoString → credhub.Result) (pfx : GoString)
    (g : Field) (fs : List Field) (c c2 : Configuration) (q : List GoString)
    (h : credhubField w (pfx ++ strings.ToUpper g.tag) g
      (client (pfx ++ strings.ToUpper g.tag)) c = Except.ok c2) :
    credhubLoop w client pfx (g :: fs) c q =
      credhubLoop w client pfx fs c2 (q ++ [pfx ++ strings.ToUpper g.tag]) := by
  conv_lhs => unfold credhubLoop
  rw [h]

theorem credhubLoop_cons_error (w : World) (client : GoString → credhub.Result) (pfx : GoString)
    (g : Field) (fs : List Field) (c : Configuration) (q : List GoString) (err : GoError)
    (h : credhubField w (pfx ++ strings.ToUpper g.tag) g
      (client (pfx ++ strings.ToUpper g.tag)) c = Except.error err) :
    credhubLoop w client pfx (g :: fs) c q =
      ⟨c, q ++ [pfx ++ strings.ToUpper g.tag], some err⟩ := by
  conv_lhs => unfold credhubLoop
  rw [h]

/-- The loop over `pre ++ post` is the loop over `pre` followed, when that ends
without an error, by the loop over `post`. -/
theorem credhubLoop_append (w : World) (client : GoString → credhub.Result) (pfx : GoString)
    (post : List Field) :
    ∀ (pre : List Field) (c : Configuration) (q : List GoString),
      credhubLoop w client pfx (pre ++ post) c q =
        if (credhubLoop w client pfx pre c q).err = none then
          credhubLoop w client pfx post (credhubLoop w client pfx pre c q).config
            (credhubLoop w client pfx pre c q).queried
        else credhubLoop w client pfx pre c q
  | [], c, q => by
    have e : credhubLoop w client pfx [] c q = ⟨c, q, none⟩ := rfl
    rw [List.nil_append, e]
    simp only [if_true]
  | g :: pre, c, q => by
    cases hs : credhubField w (pfx ++ strings.ToUpper g.tag) g
        (client (pfx ++ strings.ToUpper g.tag)) c with
    | error err =>
      rw [credhubLoop_cons_error w client pfx g pre c q err hs]
      show credhubLoop w client pfx (g :: (pre ++ post)) c q = _
      rw [credhubLoop_cons_error w client pfx g (pre ++ post) c q err hs]
      simp
    | ok c2 =>
      rw [credhubLoop_cons_ok w client pfx g pre c c2 q hs]
      show credhubLoop w client pfx (g :: (pre ++ post)) c q = _
      rw [credhubLoop_cons_ok w client pfx g (pre ++ post) c c2 q hs]
      exact credhubLoop_append w client pfx post pre c2 _

/-- The names looked up by a loop that ends without an error: those of all its
fields, in order. -/
theorem credhubLoop_queried (w : World) (client : GoString → credhub.Result) (pfx : GoString) :
    ∀ (fs : List Field) (c : Configuration) (q : List GoString),
      (credhubLoop w client pfx fs c q).err = none →
      (credhubLoop w client pfx fs c q).queried =
        q ++ fs.map (fun g => pfx ++ strings.ToUpper g.tag)
  | [], c, q, _ => by simp [credhubLoop]
  | g :: fs, c, q, h => by
    unfold credhubLoop at h ⊢
    cases hs : credhubField w (pfx ++ strings.ToUpper g.tag) g
        (client (pfx ++ strings.ToUpper g.tag)) c with
    | error err => rw [hs] at h; simp at h
    | ok c2 =>
      rw [hs] at h
      simp only at h ⊢
      rw [credhubLoop_queried w client pfx fs c2 _ h]
      simp

/-- The run of `credhubProcess` when the loop reaches the setting `f` without an
error: the iteration for `f` starts from the configuration the earlier
settings have left; when it fails, the run ends there with its error, and
otherwise the loop goes on with the later settings. -/
theorem credhubProcess_at (w : World) (pfx : GoString) (config : Configuration)
    (pre post : List Field) (f : Field) (hall : Field.all = pre ++ f :: post)
    (hpre : (credhubLoop w (w.GetLatestByName config.CredhubURL) pfx pre config []).err = none) :
    (∀ err, credhubField w (pfx ++ strings.ToUpper f.tag) f
        (w.GetLatestByName config.CredhubURL (pfx ++ strings.ToUpper f.tag))
        (credhubLoop w (w.GetLatestByName config.CredhubURL) pfx pre config []).config =
          Except.error err →
      credhubProcess w pfx config =
        ⟨(credhubLoop w (w.GetLatestByName config.CredhubURL) pfx pre config []).config,
          (pre ++ [f]).map (fun g => pfx ++ strings.ToUpper g.tag), some err⟩) ∧
    (∀ c2, credhubField w (pfx ++ strings.ToUpper f.tag) f
        (w.GetLatestByName config.CredhubURL (pfx ++ strings.ToUpper f.tag))
        (credhubLoop w (w.GetLatestByName config.CredhubURL) pfx pre config []).config =
          Except.ok c2 →
      credhubProcess w pfx config =
        credhubLoop w (w.GetLatestByName config.CredhubURL) pfx post c2
          ((pre ++ [f]).map (fun g => pfx ++ strings.ToUpper g.tag))) := by
  have e : credhubProcess w pfx config =
      credhubLoop w (w.GetLatestByName config.CredhubURL) pfx (f :: post)
        (credhubLoop w (w.GetLatestByName config.CredhubURL) pfx pre config []).config
        (pre.map (fun g => pfx ++ strings.ToUpper g.tag)) := by
    unfold credhubProcess
    rw [hall, credhubLoop_append, if_pos hpre, credhubLoop_queried _ _ _ _ _ _ hpre]
    rfl
  constructor
  · intro err h
    rw [e, credhubLoop_cons_error _ _ _ _ _ _ _ err h]
    simp only [List.map_append, List.map_cons, List.map_nil]
  · intro c2 h
    rw [e, credhubLoop_cons_ok _ _ _ _ _ _ c2 _ h]
    simp only [List.map_append, List.map_cons, List.map_nil]

theorem Field.tag_injective : ∀ f g : Field,
    strings.ToUpper f.tag = strings.ToUpper g.tag → f = g := by
  intro f g
  cases f <;> cases g <;> decide

/-- A key of a later setting is not among the keys of the earlier ones. -/
theorem lookup_key_not_mem (pfx : GoString) (pre post : List Field) (f g : Field)
    (hall : Field.all = pre ++ f :: post) (hg : g ∈ post) :
    pfx ++ strings.ToUpper g.tag ∉ (pre ++ [f]).map (fun x => pfx ++ strings.ToUpper x.tag) := by
  intro hm
  rw [List.mem_map] at hm
  obtain ⟨x, hx, he⟩ := hm
  have hxg : x = g := Field.tag_injective x g (List.append_cancel_left he)
  subst hxg
  have hnd := Field.all_nodup
  rw [hall] at hnd
  have e : pre ++ f :: post = (pre ++ [f]) ++ post := by simp
  rw [e] at hnd
  exact (List.nodup_append.1 hnd).2.2 hx hg

theorem nodup_of_all_split (pre post : List Field) (f : Field)
    (hall : Field.all = pre ++ f :: post) : pre.Nodup ∧ f ∉ pre ∧ f ∉ post ∧ post.Nodup := by
  have hnd := Field.all_nodup
  rw [hall] at hnd
  rw [List.nodup_append] at hnd
  obtain ⟨h1, h2, h3⟩ := hnd
  rw [List.nodup_cons] at h2
  refine ⟨h1, ?_, h2.1, h2.2⟩
  intro m
  exact h3 m (List.mem_cons_self _ _)

/-- C11: when the loop of `credhubProcess` reaches a setting (no earlier
setting raised an error) and the lookup for it fails with an error whose
lower-cased message does not contain `not found`, `credhubProcess` returns that
error, the names looked up are those of the settings up to this one and no
later name, the configuration is as the earlier settings left it (a setting
overridden before keeps the override), and `parseConfig` returns that error and
no configuration. -/
theorem credhubProcess_lookup_error (w : World) (pfx : GoString) (config : Configuration)
    (pre post : List Field) (f : Field) (latest : Option credhub.Credential) (err : GoError)
    (hall : Field.all = pre ++ f :: post)
    (hpre : (credhubLoop w (w.GetLatestByName config.CredhubURL) pfx pre config []).err = none)
    (hlook : w.GetLatestByName config.CredhubURL (pfx ++ strings.ToUpper f.tag) =
      ⟨latest, some err⟩)
    (hnf : strings.Contains (strings.ToLower err) (str "not found") = false) :
    (credhubProcess w pfx config).err = some err ∧
    (credhubProcess w pfx config).queried =
      (pre ++ [f]).map (fun g => pfx ++ strings.ToUpper g.tag) ∧
    (∀ g ∈ post, pfx ++ strings.ToUpper g.tag ∉ (credhubProcess w pfx config).queried) ∧
    (credhubProcess w pfx config).config =
      (credhubLoop w (w.GetLatestByName config.CredhubURL) pfx pre config []).config ∧
    (∀ g ∈ pre, ∀ v, v ≠ [] →
      w.GetLatestByName config.CredhubURL (pfx ++ strings.ToUpper g.tag) =
        ⟨some ⟨credhub.Value.string v⟩, none⟩ →
      some ((credhubProcess w pfx config).config.get g) = coercedOverride g v) ∧
    (w.envconfig = Except.ok config → config.CredhubURL ≠ [] →
      pfx = str "VAULT_SERVICE_BROKER_" → parseConfig w = Except.error err) := by
  have hfield : ∀ c, credhubField w (pfx ++ strings.ToUpper f.tag) f
      (w.GetLatestByName config.CredhubURL (pfx ++ strings.ToUpper f.tag)) c =
        Except.error err := by
    intro c
    rw [hlook]
    simp only [credhubField, if_pos hnf]
  have hrun := (credhubProcess_at w pfx config pre post f hall hpre).1 err (hfield _)
  have hnd := nodup_of_all_split pre post f hall
  refine ⟨?_, ?_, ?_, ?_, ?_, ?_⟩
  · rw [hrun]
  · rw [hrun]
  · intro g hg
    rw [hrun]
    exact lookup_key_not_mem pfx pre post f g hall hg
  · rw [hrun]
  · intro g hg v hv hl
    rw [hrun]
    exact credhubLoop_get_of_found w _ pfx g v hv hl pre config [] hg hnd.1 hpre
  · intro henv hurl hpfx
    subst hpfx
    unfold parseConfig
    rw [henv]
    simp only [if_pos hurl]
    rw [hrun]

set_option maxRecDepth 1000000 in
/-- Witness for C11: the scenario of `TestCredhubConfigOverridesEnvConfig` with an
outage at the lookup of the port.  The three required values and the store
address have been looked up before, the port is the fifth and last name looked
up, and `parseConfig` returns the error of the lookup. -/
theorem credhubProcess_lookup_error_witness :
    strings.Contains (strings.ToLower (str "connection refused")) (str "not found") = false ∧
    parseConfig (overrideWorld (str "VAULT_SERVICE_BROKER_PORT")
      ⟨none, some (str "connection refused")⟩) = Except.error (str "connection refused") ∧
    (credhubProcess (overrideWorld (str "VAULT_SERVICE_BROKER_PORT")
      ⟨none, some (str "connection refused")⟩) (str "VAULT_SERVICE_BROKER_")
      testEnvironment).queried =
      [str "VAULT_SERVICE_BROKER_SECURITY_USER_NAME",
       str "VAULT_SERVICE_BROKER_SECURITY_USER_PASSWORD",
       str "VAULT_SERVICE_BROKER_VAULT_TOKEN", str "VAULT_SERVICE_BROKER_CREDHUB_URL",
       str "VAULT_SERVICE_BROKER_PORT"] :=
  have h := credhubProcess_lookup_error
    (overrideWorld (str "VAULT_SERVICE_BROKER_PORT") ⟨none, some (str "connection refused")⟩)
    (str "VAULT_SERVICE_BROKER_") testEnvironment
    [Field.SecurityUserName, Field.SecurityUserPassword, Field.VaultToken, Field.CredhubURL]
    [Field.ServiceID, Field.VaultAddr, Field.VaultAdvertiseAddr, Field.ServiceName,
      Field.ServiceDescription, Field.PlanName, Field.PlanDescription, Field.ServiceTags,
      Field.VaultRenew]
    Field.Port none (str "connection refused") rfl (by decide!) (by decide!) (by decide!)
  ⟨by decide!, h.2.2.2.2.2 rfl (by decide) rfl, h.2.1.trans (by decide!)⟩

theorem contains_middle (a s b : GoString) : strings.Contains (a ++ s ++ b) s = true :=
  contains_append_right b (contains_suffix a s)

theorem toUpper_tag_VaultRenew : strings.ToUpper Field.VaultRenew.tag = str "VAULT_RENEW" := by
  decide

theorem toUpper_tag_ServiceTags : strings.ToUpper Field.ServiceTags.tag = str "SERVICE_TAGS" := by
  decide

/-- C12, as stated, fails in both directions.  In the scenario of the test with
the value `tRuE` for `VAULT_SERVICE_BROKER_VAULT_RENEW`, a case variant of `true`,
`credhubProcess` returns an error and the field keeps its value `false`; with the
value `t`, which is neither a case variant of `true` or `false` nor `1` or `0`,
`credhubProcess` returns no error and sets the field to `true`. -/
theorem credhubProcess_rejects_case_variant :
    boolLiteral (str "tRuE") = some true ∧
    (credhubProcess (overrideWorld (str "VAULT_SERVICE_BROKER_VAULT_RENEW")
      ⟨some ⟨credhub.Value.string (str "tRuE")⟩, none⟩) (str "VAULT_SERVICE_BROKER_")
      testEnvironment).err ≠ none ∧
    (credhubProcess (overrideWorld (str "VAULT_SERVICE_BROKER_VAULT_RENEW")
      ⟨some ⟨credhub.Value.string (str "tRuE")⟩, none⟩) (str "VAULT_SERVICE_BROKER_")
      testEnvironment).config.VaultRenew = false ∧
    boolLiteral (str "t") = none ∧
    (credhubProcess (overrideWorld (str "VAULT_SERVICE_BROKER_VAULT_RENEW")
      ⟨some ⟨credhub.Value.string (str "t")⟩, none⟩) (str "VAULT_SERVICE_BROKER_")
      testEnvironment).err = none ∧
    (credhubProcess (overrideWorld (str "VAULT_SERVICE_BROKER_VAULT_RENEW")
      ⟨some ⟨credhub.Value.string (str "t")⟩, none⟩) (str "VAULT_SERVICE_BROKER_")
      testEnvironment).config.VaultRenew = true := by
  decide!

/-- C12, amended: when the loop of `credhubProcess` reaches `VaultRenew`, the
only setting of kind `bool`, and the store returns a non-empty string `v` for
it, then `credhubProcess` returns no error and the field holds `true` when `v`
is one of `1`, `t`, `T`, `TRUE`, `true`, `True`, and `false` when `v` is one of
`0`, `f`, `F`, `FALSE`, `false`, `False`; for every other `v` it returns an
error whose message contains the name looked up, and the field keeps the value
it had before the call. -/
theorem credhubProcess_bool_literal (w : World) (pfx : GoString) (config : Configuration)
    (pre : List Field) (v : GoString) (hall : Field.all = pre ++ [Field.VaultRenew])
    (hpre : (credhubLoop w (w.GetLatestByName config.CredhubURL) pfx pre config []).err = none)
    (hlook : w.GetLatestByName config.CredhubURL (pfx ++ str "VAULT_RENEW") =
      ⟨some ⟨credhub.Value.string v⟩, none⟩)
    (hv : v ≠ []) :
    (v ∈ [str "1", str "t", str "T", str "TRUE", str "true", str "True"] →
      (credhubProcess w pfx config).err = none ∧
      (credhubProcess w pfx config).config.VaultRenew = true) ∧
    (v ∈ [str "0", str "f", str "F", str "FALSE", str "false", str "False"] →
      (credhubProcess w pfx config).err = none ∧
      (credhubProcess w pfx config).config.VaultRenew = false) ∧
    (v ∉ [str "1", str "t", str "T", str "TRUE", str "true", str "True"] →
      v ∉ [str "0", str "f", str "F", str "FALSE", str "false", str "False"] →
      (∃ msg, (credhubProcess w pfx config).err = some msg ∧
        strings.Contains msg (pfx ++ str "VAULT_RENEW") = true) ∧
      (credhubProcess w pfx config).config.VaultRenew = config.VaultRenew) := by
  have hat := credhubProcess_at w pfx config pre [] Field.VaultRenew hall hpre
  rw [toUpper_tag_VaultRenew, hlook] at hat
  have hnd := nodup_of_all_split pre [] Field.VaultRenew hall
  have hkeep : (credhubLoop w (w.GetLatestByName config.CredhubURL) pfx pre config
      []).config.VaultRenew = config.VaultRenew := by
    have := credhubLoop_get_of_not_mem w (w.GetLatestByName config.CredhubURL) pfx
      Field.VaultRenew pre config [] hnd.2.1
    simpa [Configuration.get] using this
  have hsome : ∀ b c, strconv.ParseBool v = some b →
      credhubField w (pfx ++ str "VAULT_RENEW") Field.VaultRenew
        ⟨some ⟨credhub.Value.string v⟩, none⟩ c = Except.ok (c.SetBool Field.VaultRenew b) := by
    intro b c hb
    simp only [credhubField, credhubAssign, if_neg hv, Field.kind, hb]
  have hnone : ∀ c, strconv.ParseBool v = none →
      credhubField w (pfx ++ str "VAULT_RENEW") Field.VaultRenew
        ⟨some ⟨credhub.Value.string v⟩, none⟩ c =
      Except.error (str "error parsing bool " ++ (pfx ++ str "VAULT_RENEW") ++
          str ": " ++ (str "strconv.ParseBool: parsing " ++ w.Quote v ++
            str ": invalid syntax")) := by
    intro c hb
    simp only [credhubField, credhubAssign, if_neg hv, Field.kind, hb]
  refine ⟨?_, ?_, ?_⟩
  · intro hm
    have hb : strconv.ParseBool v = some true := by
      unfold strconv.ParseBool
      rw [if_pos hm]
    rw [hat.2 _ (hsome true _ hb)]
    exact ⟨rfl, rfl⟩
  · intro hm
    have hb : strconv.ParseBool v = some false := by
      unfold strconv.ParseBool
      have hn : v ∉ [str "1", str "t", str "T", str "TRUE", str "true", str "True"] := by
        intro h1
        revert hm
        simp only [List.mem_cons, List.mem_singleton, List.not_mem_nil, or_false] at h1 ⊢
        rcases h1 with e | e | e | e | e | e <;> subst e <;> decide
      rw [if_neg hn, if_pos hm]
    rw [hat.2 _ (hsome false _ hb)]
    exact ⟨rfl, rfl⟩
  · intro h1 h2
    have hb : strconv.ParseBool v = none := by
      unfold strconv.ParseBool
      rw [if_neg h1, if_neg h2]
    rw [hat.1 _ (hnone _ hb)]
    refine ⟨⟨_, rfl, ?_⟩, hkeep⟩
    have e : str "error parsing bool " ++ (pfx ++ str "VAULT_RENEW") ++ str ": " ++
        (str "strconv.ParseBool: parsing " ++ w.Quote v ++ str ": invalid syntax") =
        str "error parsing bool " ++ (pfx ++ str "VAULT_RENEW") ++ (str ": " ++
        (str "strconv.ParseBool: parsing " ++ w.Quote v ++ str ": invalid syntax")) := by
      simp only [List.append_assoc]
    rw [e]
    exact contains_middle _ _ _

set_option maxRecDepth 1000000 in
/-- Witness for C12: the scenario of the test with the value `tRuE`; the error
names `VAULT_SERVICE_BROKER_VAULT_RENEW` and the field keeps the value `false` of
the environment. -/
theorem credhubProcess_bool_literal_witness :
    (∃ msg, (credhubProcess (overrideWorld (str "VAULT_SERVICE_BROKER_VAULT_RENEW")
        ⟨some ⟨credhub.Value.string (str "tRuE")⟩, none⟩) (str "VAULT_SERVICE_BROKER_")
        testEnvironment).err = some msg ∧
      strings.Contains msg (str "VAULT_SERVICE_BROKER_" ++ str "VAULT_RENEW") = true) ∧
    (credhubProcess (overrideWorld (str "VAULT_SERVICE_BROKER_VAULT_RENEW")
      ⟨some ⟨credhub.Value.string (str "tRuE")⟩, none⟩) (str "VAULT_SERVICE_BROKER_")
      testEnvironment).config.VaultRenew = testEnvironment.VaultRenew :=
  (credhubProcess_bool_literal
    (overrideWorld (str "VAULT_SERVICE_BROKER_VAULT_RENEW")
      ⟨some ⟨credhub.Value.string (str "tRuE")⟩, none⟩)
    (str "VAULT_SERVICE_BROKER_") testEnvironment
    [Field.SecurityUserName, Field.SecurityUserPassword, Field.VaultToken, Field.CredhubURL,
      Field.Port, Field.ServiceID, Field.VaultAddr, Field.VaultAdvertiseAddr, Field.ServiceName,
      Field.ServiceDescription, Field.PlanName, Field.PlanDescription, Field.ServiceTags]
    (str "tRuE") rfl (by decide!) (by decide!) (by decide)).2.2 (by decide) (by decide)

/-! ## `strings.Split` -/

theorem split_ne_nil (sep : Byte) : ∀ s : GoString, strings.Split s sep ≠ []
  | [] => by simp [strings.Split]
  | c :: cs => by
    unfold strings.Split
    by_cases h : c = sep
    · rw [if_pos h]; simp
    · rw [if_neg h]
      cases strings.Split cs sep <;> simp

theorem split_cons_sep (sep : Byte) (cs : GoString) :
    strings.Split (sep :: cs) sep = [] :: strings.Split cs sep := by
  conv_lhs => unfold strings.Split
  rw [if_pos rfl]

theorem split_cons_ne (sep c : Byte) (cs : GoString) (h : c ≠ sep) :
    ∃ seg segs, strings.Split cs sep = seg :: segs ∧
      strings.Split (c :: cs) sep = (c :: seg) :: segs := by
  cases hs : strings.Split cs sep with
  | nil => exact absurd hs (split_ne_nil sep cs)
  | cons seg segs =>
    refine ⟨seg, segs, rfl, ?_⟩
    conv_lhs => unfold strings.Split
    rw [if_neg h, hs]

theorem split_length (sep : Byte) : ∀ s : GoString,
    (strings.Split s sep).length = s.count sep + 1
  | [] => by simp [strings.Split]
  | c :: cs => by
    have ih := split_length sep cs
    by_cases h : c = sep
    · subst h
      rw [split_cons_sep, List.length_cons, ih, List.count_cons_self]
    · obtain ⟨seg, segs, e1, e2⟩ := split_cons_ne sep c cs h
      rw [e2, List.count_cons_of_ne (fun e => h e.symm)]
      rw [e1] at ih
      simpa using ih

theorem split_no_sep (sep : Byte) : ∀ s : GoString, ∀ seg ∈ strings.Split s sep, sep ∉ seg
  | [], seg, hm => by
    simp only [strings.Split, List.mem_singleton] at hm
    subst hm
    exact List.not_mem_nil _
  | c :: cs, seg, hm => by
    have ih := split_no_sep sep cs
    by_cases h : c = sep
    · subst h
      rw [split_cons_sep] at hm
      rcases List.mem_cons.1 hm with e | m
      · subst e; exact List.not_mem_nil _
      · exact ih seg m
    · obtain ⟨sg, segs, e1, e2⟩ := split_cons_ne sep c cs h
      rw [e2] at hm
      rw [e1] at ih
      rcases List.mem_cons.1 hm with e | m
      · subst e
        intro hc
        rcases List.mem_cons.1 hc with e | m
        · exact h e.symm
        · exact ih sg (List.mem_cons_self _ _) m
      · exact ih seg (List.mem_cons_of_mem _ m)

theorem intercalate_cons_cons (sep : GoString) (a b : GoString) (l : List GoString) :
    sep.intercalate (a :: b :: l) = a ++ sep ++ sep.intercalate (b :: l) := by
  simp [List.intercalate, List.intersperse]

theorem intercalate_cons_head (sep : GoString) (c : Byte) (seg : GoString)
    (segs : List GoString) :
    sep.intercalate ((c :: seg) :: segs) = c :: sep.intercalate (seg :: segs) := by
  cases segs with
  | nil => simp [List.intercalate, List.intersperse]
  | cons b l => rw [intercalate_cons_cons, intercalate_cons_cons]; rfl

theorem split_join (sep : Byte) : ∀ s : GoString, [sep].intercalate (strings.Split s sep) = s
  | [] => by simp [strings.Split, List.intercalate, List.intersperse]
  | c :: cs => by
    have ih := split_join sep cs
    by_cases h : c = sep
    · subst h
      rw [split_cons_sep]
      cases hs : strings.Split cs c with
      | nil => exact absurd hs (split_ne_nil c cs)
      | cons b l =>
        rw [intercalate_cons_cons, ← hs, ih]
        rfl
    · obtain ⟨seg, segs, e1, e2⟩ := split_cons_ne sep c cs h
      rw [e2, intercalate_cons_head, ← e1, ih]

/-- C13: when the loop of `credhubProcess` reaches `ServiceTags`, the only
setting of kind `[]string`, and the store returns a non-empty string `v` for
it, then after the call the field is `strings.Split(v, ",")`, the segments of
`v` between commas in order and untrimmed (`a, b` gives `a` and ` b`): the list
is not empty, it has one element more than `v` has commas, no element contains
a comma, and the elements joined with `,` give `v`. -/
theorem credhubProcess_string_list (w : World) (pfx : GoString) (config : Configuration)
    (pre : List Field) (v : GoString)
    (hall : Field.all = pre ++ [Field.ServiceTags, Field.VaultRenew])
    (hpre : (credhubLoop w (w.GetLatestByName config.CredhubURL) pfx pre config []).err = none)
    (hlook : w.GetLatestByName config.CredhubURL (pfx ++ str "SERVICE_TAGS") =
      ⟨some ⟨credhub.Value.string v⟩, none⟩)
    (hv : v ≠ []) :
    (credhubProcess w pfx config).config.ServiceTags = strings.Split v 44 ∧
    strings.Split v 44 ≠ [] ∧
    (strings.Split v 44).length = v.count 44 + 1 ∧
    (∀ seg ∈ strings.Split v 44, (44 : Byte) ∉ seg) ∧
    (str ",").intercalate (strings.Split v 44) = v ∧
    strings.Split (str "a, b") 44 = [str "a", str " b"] := by
  refine ⟨?_, split_ne_nil 44 v, split_length 44 v, split_no_sep 44 v, split_join 44 v,
    by decide⟩
  have hat := credhubProcess_at w pfx config pre [Field.VaultRenew] Field.ServiceTags hall hpre
  rw [toUpper_tag_ServiceTags, hlook] at hat
  have hfield : ∀ c, credhubField w (pfx ++ str "SERVICE_TAGS") Field.ServiceTags
      ⟨some ⟨credhub.Value.string v⟩, none⟩ c =
      Except.ok (c.Set Field.ServiceTags (strings.Split v 44)) := by
    intro c
    simp only [credhubField, credhubAssign, if_neg hv, Field.kind]
  rw [hat.2 _ (hfield _)]
  have := credhubLoop_get_of_not_mem w (w.GetLatestByName config.CredhubURL) pfx
    Field.ServiceTags [Field.VaultRenew]
    ((credhubLoop w (w.GetLatestByName config.CredhubURL) pfx pre config []).config.Set
      Field.ServiceTags (strings.Split v 44))
    ((pre ++ [Field.ServiceTags]).map (fun g => pfx ++ strings.ToUpper g.tag)) (by decide)
  simpa [Configuration.get, Configuration.Set] using this

set_option maxRecDepth 1000000 in
/-- Witness for C13: the scenario of the test with the value `a, b` for
`VAULT_SERVICE_BROKER_SERVICE_TAGS`. -/
theorem credhubProcess_string_list_witness :
    (credhubProcess (overrideWorld (str "VAULT_SERVICE_BROKER_SERVICE_TAGS")
      ⟨some ⟨credhub.Value.string (str "a, b")⟩, none⟩) (str "VAULT_SERVICE_BROKER_")
      testEnvironment).config.ServiceTags = [str "a", str " b"] :=
  have h := credhubProcess_string_list
    (overrideWorld (str "VAULT_SERVICE_BROKER_SERVICE_TAGS")
      ⟨some ⟨credhub.Value.string (str "a, b")⟩, none⟩)
    (str "VAULT_SERVICE_BROKER_") testEnvironment
    [Field.SecurityUserName, Field.SecurityUserPassword, Field.VaultToken, Field.CredhubURL,
      Field.Port, Field.ServiceID, Field.VaultAddr, Field.VaultAdvertiseAddr, Field.ServiceName,
      Field.ServiceDescription, Field.PlanName, Field.PlanDescription]
    (str "a, b") rfl (by decide!) (by decide!) (by decide)
  h.1.trans h.2.2.2.2.2

/-- C14: when the loop of `credhubProcess` reaches a setting, of whatever kind,
and the store returns for it a value that is not a string (and no error, or a
not-found error), `credhubProcess` returns an error whose message contains the
name looked up, and the field keeps the value it had before the call. -/
theorem credhubProcess_non_string (w : World) (pfx : GoString) (config : Configuration)
    (pre post : List Field) (f : Field) (typeName : GoString) (e : Option GoError)
    (hall : Field.all = pre ++ f :: post)
    (hpre : (credhubLoop w (w.GetLatestByName config.CredhubURL) pfx pre config []).err = none)
    (hlook : w.GetLatestByName config.CredhubURL (pfx ++ strings.ToUpper f.tag) =
      ⟨some ⟨credhub.Value.other typeName⟩, e⟩)
    (herr : ∀ err, e = some err →
      strings.Contains (strings.ToLower err) (str "not found") = true) :
    (credhubProcess w pfx config).err =
      some (str "we only support credhub values as bash-like string values, but received " ++
        (pfx ++ strings.ToUpper f.tag) ++ str " as a " ++ typeName) ∧
    strings.Contains
      (str "we only support credhub values as bash-like string values, but received " ++
        (pfx ++ strings.ToUpper f.tag) ++ str " as a " ++ typeName)
      (pfx ++ strings.ToUpper f.tag) = true ∧
    (credhubProcess w pfx config).config.get f = config.get f := by
  have hfield : ∀ c, credhubField w (pfx ++ strings.ToUpper f.tag) f
      (w.GetLatestByName config.CredhubURL (pfx ++ strings.ToUpper f.tag)) c =
        Except.error
          (str "we only support credhub values as bash-like string values, but received " ++
            (pfx ++ strings.ToUpper f.tag) ++ str " as a " ++ typeName) := by
    intro c
    rw [hlook]
    cases e with
    | none => simp only [credhubField, credhubAssign]
    | some err =>
      have := herr err rfl
      simp only [credhubField, credhubAssign, this, Bool.true_eq_false, if_false]
  have hrun := (credhubProcess_at w pfx config pre post f hall hpre).1 _ (hfield _)
  have hnd := nodup_of_all_split pre post f hall
  refine ⟨?_, ?_, ?_⟩
  · rw [hrun]
  · have e2 : str "we only support credhub values as bash-like string values, but received " ++
        (pfx ++ strings.ToUpper f.tag) ++ str " as a " ++ typeName =
        str "we only support credhub values as bash-like string values, but received " ++
        (pfx ++ strings.ToUpper f.tag) ++ (str " as a " ++ typeName) := by
      simp only [List.append_assoc]
    rw [e2]
    exact contains_middle _ _ _
  · rw [hrun]
    exact credhubLoop_get_of_not_mem w _ pfx f pre config [] hnd.2.1

set_option maxRecDepth 1000000 in
/-- Witness for C14: the scenario of the test with a number returned for
`VAULT_SERVICE_BROKER_VAULT_RENEW`, the setting of kind `bool`; the field keeps
the value `false` of the environment. -/
theorem credhubProcess_non_string_witness :
    (credhubProcess (overrideWorld (str "VAULT_SERVICE_BROKER_VAULT_RENEW")
      ⟨some ⟨credhub.Value.other (str "float64")⟩, none⟩) (str "VAULT_SERVICE_BROKER_")
      testEnvironment).err =
      some (str ("we only support credhub values as bash-like string values, but received " ++
        "VAULT_SERVICE_BROKER_VAULT_RENEW as a float64")) ∧
    (credhubProcess (overrideWorld (str "VAULT_SERVICE_BROKER_VAULT_RENEW")
      ⟨some ⟨credhub.Value.other (str "float64")⟩, none⟩) (str "VAULT_SERVICE_BROKER_")
      testEnvironment).config.get Field.VaultRenew = FieldValue.bool false :=
  have h := credhubProcess_non_string
    (overrideWorld (str "VAULT_SERVICE_BROKER_VAULT_RENEW")
      ⟨some ⟨credhub.Value.other (str "float64")⟩, none⟩)
    (str "VAULT_SERVICE_BROKER_") testEnvironment
    [Field.SecurityUserName, Field.SecurityUserPassword, Field.VaultToken, Field.CredhubURL,
      Field.Port, Field.ServiceID, Field.VaultAddr, Field.VaultAdvertiseAddr, Field.ServiceName,
      Field.ServiceDescription, Field.PlanName, Field.PlanDescription, Field.ServiceTags] []
    Field.VaultRenew (str "float64") none rfl (by decide!) (by decide!)
    (fun _ h => Option.noConfusion h)
  ⟨h.1.trans (by decide!), h.2.2⟩

/-! ## Population from the environment -/

theorem envconfig_loop_set (quote : GoString → GoString) (env : Environ) (f : Field)
    (fs : List Field) (c : Configuration) (value : GoString) (hk : f.kind = reflect.Kind.String)
    (h : env (strings.ToUpper f.tag) = some value) :
    envconfig.loop quote env (f :: fs) c = envconfig.loop quote env fs (c.SetString f value) := by
  conv_lhs => unfold envconfig.loop
  simp only [h, envconfig.processField, hk]

theorem envconfig_loop_default (quote : GoString → GoString) (env : Environ) (f : Field)
    (fs : List Field) (c : Configuration) (hk : f.kind = reflect.Kind.String)
    (h : env (strings.ToUpper f.tag) = none) (hd : f.defaultTag ≠ []) :
    envconfig.loop quote env (f :: fs) c =
      envconfig.loop quote env fs (c.SetString f f.defaultTag) := by
  conv_lhs => unfold envconfig.loop
  simp only [h, if_pos hd, envconfig.processField, hk]

theorem envconfig_loop_skip (quote : GoString → GoString) (env : Environ) (f : Field)
    (fs : List Field) (c : Configuration)
    (h : env (strings.ToUpper f.tag) = none) (hd : f.defaultTag = []) :
    envconfig.loop quote env (f :: fs) c = envconfig.loop quote env fs c := by
  conv_lhs => unfold envconfig.loop
  simp only [h, hd, ne_eq, not_true_eq_false, if_false]

theorem envconfig_loop_renew_default (quote : GoString → GoString) (env : Environ)
    (fs : List Field) (c : Configuration)
    (h : env (strings.ToUpper Field.VaultRenew.tag) = none) :
    envconfig.loop quote env (Field.VaultRenew :: fs) c =
      envconfig.loop quote env fs (c.SetBool Field.VaultRenew true) := by
  have hd : Field.VaultRenew.defaultTag ≠ [] := by decide
  have hb : strconv.ParseBool Field.VaultRenew.defaultTag = some true := by decide
  conv_lhs => unfold envconfig.loop
  simp only [h, if_pos hd, envconfig.processField, Field.kind, hb]

set_option maxRecDepth 1000000 in
theorem normalizeAddr_default :
    normalizeAddr (str "https://127.0.0.1:8200") = str "https://127.0.0.1:8200/" := by
  decide!

/-- What `envconfig.Process` yields in an environment that sets only the three
required variables: their values and the declared defaults. -/
theorem envconfig_Process_defaults (quote : GoString → GoString) (env : Environ)
    (n p t : GoString)
    (hn : env (str "SECURITY_USER_NAME") = some n)
    (hp : env (str "SECURITY_USER_PASSWORD") = some p)
    (ht : env (str "VAULT_TOKEN") = some t)
    (hrest : ∀ f : Field, f ≠ Field.SecurityUserName → f ≠ Field.SecurityUserPassword →
      f ≠ Field.VaultToken → env (strings.ToUpper f.tag) = none) :
    envconfig.Process quote env = Except.ok
      { SecurityUserName := n, SecurityUserPassword := p, VaultToken := t, CredhubURL := [],
        Port := str ":8000", ServiceID := str "0654695e-0760-a1d4-1cad-5dd87b75ed99",
        VaultAddr := str "https://127.0.0.1:8200", VaultAdvertiseAddr := [],
        ServiceName := str "hashicorp-vault",
        ServiceDescription := str "HashiCorp Vault Service Broker", PlanName := str "shared",
        PlanDescription := str "Secure access to Vault's storage and transit backends",
        ServiceTags := [], VaultRenew := true } := by
  have k1 : strings.ToUpper Field.SecurityUserName.tag = str "SECURITY_USER_NAME" := by decide
  have k2 : strings.ToUpper Field.SecurityUserPassword.tag = str "SECURITY_USER_PASSWORD" := by
    decide
  have k3 : strings.ToUpper Field.VaultToken.tag = str "VAULT_TOKEN" := by decide
  unfold envconfig.Process Field.all
  rw [envconfig_loop_set quote env Field.SecurityUserName _ _ n rfl (k1 ▸ hn),
    envconfig_loop_set quote env Field.SecurityUserPassword _ _ p rfl (k2 ▸ hp),
    envconfig_loop_set quote env Field.VaultToken _ _ t rfl (k3 ▸ ht),
    envconfig_loop_skip quote env Field.CredhubURL _ _
      (hrest _ (by decide) (by decide) (by decide)) rfl,
    envconfig_loop_default quote env Field.Port _ _ rfl
      (hrest _ (by decide) (by decide) (by decide)) (by decide),
    envconfig_loop_default quote env Field.ServiceID _ _ rfl
      (hrest _ (by decide) (by decide) (by decide)) (by decide),
    envconfig_loop_default quote env Field.VaultAddr _ _ rfl
      (hrest _ (by decide) (by decide) (by decide)) (by decide),
    envconfig_loop_skip quote env Field.VaultAdvertiseAddr _ _
      (hrest _ (by decide) (by decide) (by decide)) rfl,
    envconfig_loop_default quote env Field.ServiceName _ _ rfl
      (hrest _ (by decide) (by decide) (by decide)) (by decide),
    envconfig_loop_default quote env Field.ServiceDescription _ _ rfl
      (hrest _ (by decide) (by decide) (by decide)) (by decide),
    envconfig_loop_default quote env Field.PlanName _ _ rfl
      (hrest _ (by decide) (by decide) (by decide)) (by decide),
    envconfig_loop_default quote env Field.PlanDescription _ _ rfl
      (hrest _ (by decide) (by decide) (by decide)) (by decide),
    envconfig_loop_skip quote env Field.ServiceTags _ _
      (hrest _ (by decide) (by decide) (by decide)) rfl,
    envconfig_loop_renew_default quote env _ _ (hrest _ (by decide) (by decide) (by decide))]
  rfl

/-- C15: in every environment that sets only `SECURITY_USER_NAME`,
`SECURITY_USER_PASSWORD` and `VAULT_TOKEN`, to non-empty values,
`parseConfig` succeeds and returns these three values and the declared
defaults: no override-store address, port `:8000`, the fixed service
identifier, name and description, the plan name and description, no service
tags, renewal on, and for both addresses the normalised default
`https://127.0.0.1:8200/`. -/
theorem parseConfig_defaults (w : World) (env : Environ) (n p t : GoString)
    (hw : w.envconfig = envconfig.Process w.Quote env)
    (hn : env (str "SECURITY_USER_NAME") = some n)
    (hp : env (str "SECURITY_USER_PASSWORD") = some p)
    (ht : env (str "VAULT_TOKEN") = some t)
    (hn0 : n ≠ []) (hp0 : p ≠ []) (ht0 : t ≠ [])
    (hrest : ∀ f : Field, f ≠ Field.SecurityUserName → f ≠ Field.SecurityUserPassword →
      f ≠ Field.VaultToken → env (strings.ToUpper f.tag) = none) :
    parseConfig w = Except.ok (defaultsResolved n p t) ∧
    (defaultsResolved n p t).VaultAdvertiseAddr = (defaultsResolved n p t).VaultAddr ∧
    (defaultsResolved n p t).VaultAddr = normalizeAddr (str "https://127.0.0.1:8200") ∧
    normalizeAddr (str "https://127.0.0.1:8200") = str "https://127.0.0.1:8200/" := by
  refine ⟨?_, rfl, normalizeAddr_default.symm, normalizeAddr_default⟩
  have hport : (str ":").isPrefixOf (str ":8000") = true := by decide
  unfold parseConfig
  rw [hw, envconfig_Process_defaults w.Quote env n p t hn hp ht hrest]
  simp only [ne_eq, not_true_eq_false, if_false, Configuration.Validate, if_neg hn0, if_neg hp0,
    if_neg ht0, hport, Bool.true_eq_false, if_true, normalizeAddr_default]
  rfl

set_option maxRecDepth 1000000 in
/-- Witness for C15: the scenario of `TestParseConfigDefaults`. -/
theorem parseConfig_defaults_witness :
    parseConfig defaultsWorld = Except.ok (defaultsResolved (str "fizz") (str "buzz") (str "bang")) :=
  (parseConfig_defaults defaultsWorld defaultsEnviron (str "fizz") (str "buzz") (str "bang")
    rfl (by decide) (by decide) (by decide) (by decide) (by decide) (by decide)
    (by
      intro f h1 h2 h3
      cases f
      all_goals first
        | exact absurd rfl h1
        | exact absurd rfl h2
        | exact absurd rfl h3
        | decide!)).1

/-! ## The URL that `normalizeAddr` writes out -/

theorem normalizeAddr_eq (s : GoString) (u : url.URL) (hs : s ≠ [])
    (hp : url.Parse s = some u) : normalizeAddr s = (normalizedURL u).String := by
  unfold normalizeAddr
  rw [if_neg hs, hp]
  rfl

theorem normalizeAddr_of_parse_none (s : GoString) (hp : url.Parse s = none) :
    normalizeAddr s = s := by
  unfold normalizeAddr
  by_cases hs : s = []
  · rw [if_pos hs]
  · rw [if_neg hs, hp]

theorem str_at : str "@" = [64] := rfl

/-- The text of a URL that has a scheme and a host and no opaque part. -/
theorem String_of_host (u : url.URL) (hsc : u.Scheme ≠ []) (hop : u.Opaque = [])
    (hh : u.Host ≠ []) :
    u.String = u.Scheme ++ 58 :: 47 :: 47 ::
      (userText u.User ++ url.escape u.Host url.encoding.encodeHost ++ pathText u) ++
      queryText u.ForceQuery u.RawQuery ++ fragmentText u := by
  unfold url.URL.String pathText queryText fragmentText userText
  simp only [hsc, hop, hh, ne_eq, not_false_eq_true, not_true_eq_false, if_true, if_false,
    true_or, or_true, and_false, false_and, and_true, str_colon, str_slash2, str_slash,
    str_question, str_hash, str_at]
  cases hu : u.User with
  | none =>
    by_cases hp : ¬ u.EscapedPath = [] ∧ ¬ u.EscapedPath.head? = some 47
    · simp [hp, hsc, List.append_assoc]
    · simp [hp, hsc, List.append_assoc]
  | some ui =>
    by_cases hp : ¬ u.EscapedPath = [] ∧ ¬ u.EscapedPath.head? = some 47
    · simp [hp, hsc, List.append_assoc]
    · simp [hp, hsc, List.append_assoc]

/-! ## What `url.Parse` guarantees -/

/-- The two outcomes of cutting at a byte. -/
theorem cut_cases (c : Byte) : ∀ s : GoString,
    (c ∉ s ∧ strings.Cut s [c] = (s, [], false)) ∨
    (∃ a b, c ∉ a ∧ s = a ++ c :: b ∧ strings.Cut s [c] = (a, b, true))
  | [] => Or.inl ⟨List.not_mem_nil _, rfl⟩
  | x :: xs => by
    by_cases hx : x = c
    · subst hx
      exact Or.inr ⟨[], xs, List.not_mem_nil _, rfl, cut_at x xs [] (List.not_mem_nil _)⟩
    · rcases cut_cases c xs with ⟨hn, _⟩ | ⟨a, b, ha, e, _⟩
      · have hm : c ∉ x :: xs := by
          intro m
          rcases List.mem_cons.1 m with e | m
          · exact hx e.symm
          · exact hn m
        exact Or.inl ⟨hm, cut_of_not_mem c _ hm⟩
      · have hm : c ∉ x :: a := by
          intro m
          rcases List.mem_cons.1 m with e | m
          · exact hx e.symm
          · exact ha m
        refine Or.inr ⟨x :: a, b, hm, ?_, ?_⟩
        · rw [e]; rfl
        · rw [e]; exact cut_at c b (x :: a) hm

theorem cut_fst_mem (c : Byte) (s : GoString) : ∀ d ∈ (strings.Cut s [c]).1, d ∈ s := by
  intro d hd
  rcases cut_cases c s with ⟨_, e⟩ | ⟨a, b, _, e1, e⟩
  · rw [e] at hd; exact hd
  · rw [e] at hd; rw [e1]; exact List.mem_append_left _ hd

theorem cut_snd_mem (c : Byte) (s : GoString) : ∀ d ∈ (strings.Cut s [c]).2.1, d ∈ s := by
  intro d hd
  rcases cut_cases c s with ⟨_, e⟩ | ⟨a, b, _, e1, e⟩
  · rw [e] at hd; exact absurd hd (List.not_mem_nil _)
  · rw [e] at hd; rw [e1]; exact List.mem_append_right _ (List.mem_cons_of_mem _ hd)

theorem cut_fst_not_mem (c : Byte) (s : GoString) : c ∉ (strings.Cut s [c]).1 := by
  rcases cut_cases c s with ⟨h, e⟩ | ⟨a, b, h, _, e⟩
  · rw [e]; exact h
  · rw [e]; exact h

theorem cut_drop (c : Byte) (s : GoString) :
    s.drop (strings.Cut s [c]).1.length = [] ∨
    (s.drop (strings.Cut s [c]).1.length).head? = some c := by
  rcases cut_cases c s with ⟨_, e⟩ | ⟨a, b, _, e1, e⟩
  · left; rw [e]; simp
  · right
    rw [e]
    show (List.drop a.length s).head? = some c
    rw [e1, List.drop_left]
    rfl

theorem isPrefixOf_singleton (c : Byte) (l : GoString) :
    List.isPrefixOf [c] l = true ↔ l.head? = some c := by
  cases l with
  | nil => simp [List.isPrefixOf]
  | cons x xs =>
    simp only [List.isPrefixOf, Bool.and_true, beq_iff_eq, List.head?_cons, Option.some.injEq]
    exact eq_comm

set_option maxRecDepth 100000 in
theorem schemeLetter_facts : ∀ c : Byte, (isLower c || isUpper c) = true →
    isLower (if isUpper c = true then c + 32 else c) = true ∧
    (isLower c || isUpper c || isDigit c || c = 43 || c = 45 || c = 46) = true := by
  decide

set_option maxRecDepth 100000 in
theorem schemeRest_facts : ∀ c : Byte,
    (isLower c || isUpper c || isDigit c || c = 43 || c = 45 || c = 46) = true →
    (isLower (if isUpper c = true then c + 32 else c) ||
      isDigit (if isUpper c = true then c + 32 else c) ||
      (if isUpper c = true then c + 32 else c) = 43 ||
      (if isUpper c = true then c + 32 else c) = 45 ||
      (if isUpper c = true then c + 32 else c) = 46) = true := by
  decide

/-- What `getScheme` returns: no scheme and the whole text, or a letter followed
by letters, digits, `+`, `-`, `.` and a rest taken from the text. -/
theorem getSchemeFrom_spec (rawURL : GoString) : ∀ (rest pre sc r : GoString),
    (pre = [] ∨ ∃ c cs, pre = c :: cs ∧ (isLower c || isUpper c) = true ∧
      ∀ d ∈ cs, (isLower d || isUpper d || isDigit d || d = 43 || d = 45 || d = 46) = true) →
    url.getSchemeFrom rawURL pre rest = some (sc, r) →
    (sc = [] ∧ r = rawURL) ∨
    ((∃ c cs, sc = c :: cs ∧ (isLower c || isUpper c) = true ∧
      ∀ d ∈ cs, (isLower d || isUpper d || isDigit d || d = 43 || d = 45 || d = 46) = true) ∧
      ∀ d ∈ r, d ∈ rest)
  | [], pre, sc, r, _, h => by
    simp only [url.getSchemeFrom, Option.some.injEq, Prod.mk.injEq] at h
    exact Or.inl ⟨h.1.symm, h.2.symm⟩
  | x :: xs, pre, sc, r, hpre, h => by
    have hsnoc : ∀ (hx : (isLower x || isUpper x || isDigit x || x = 43 || x = 45 || x = 46) = true)
        (hl : pre = [] → (isLower x || isUpper x) = true),
        (pre ++ [x] = [] ∨ ∃ c cs, pre ++ [x] = c :: cs ∧ (isLower c || isUpper c) = true ∧
          ∀ d ∈ cs, (isLower d || isUpper d || isDigit d || d = 43 || d = 45 || d = 46) = true) := by
      intro hx hl
      right
      rcases hpre with e | ⟨c, cs, e, hc, hcs⟩
      · subst e
        exact ⟨x, [], rfl, hl rfl, fun d hd => absurd hd (List.not_mem_nil _)⟩
      · subst e
        refine ⟨c, cs ++ [x], rfl, hc, ?_⟩
        intro d hd
        rcases List.mem_append.1 hd with m | m
        · exact hcs d m
        · simp only [List.mem_singleton] at m
          subst m; exact hx
    unfold url.getSchemeFrom at h
    by_cases h1 : (isLower x || isUpper x) = true
    · rw [if_pos h1] at h
      rcases getSchemeFrom_spec rawURL xs (pre ++ [x]) sc r
        (hsnoc (schemeLetter_facts x h1).2 (fun _ => h1)) h with l | ⟨a, b⟩
      · exact Or.inl l
      · exact Or.inr ⟨a, fun d hd => List.mem_cons_of_mem _ (b d hd)⟩
    · rw [if_neg h1] at h
      by_cases h2 : (isDigit x || decide (x = 43) || decide (x = 45) || decide (x = 46)) = true
      · rw [if_pos h2] at h
        by_cases hp : pre = []
        · rw [if_pos hp] at h
          simp only [Option.some.injEq, Prod.mk.injEq] at h
          exact Or.inl ⟨h.1.symm, h.2.symm⟩
        · rw [if_neg hp] at h
          have hx : (isLower x || isUpper x || isDigit x || x = 43 || x = 45 || x = 46) = true := by
            simp only [Bool.or_eq_true, decide_eq_true_eq] at h2 ⊢
            tauto
          rcases getSchemeFrom_spec rawURL xs (pre ++ [x]) sc r
            (hsnoc hx (fun e => absurd e hp)) h with l | ⟨a, b⟩
          · exact Or.inl l
          · exact Or.inr ⟨a, fun d hd => List.mem_cons_of_mem _ (b d hd)⟩
      · rw [if_neg h2] at h
        by_cases h3 : x = 58
        · rw [if_pos h3] at h
          by_cases hp : pre = []
          · rw [if_pos hp] at h
            exact absurd h (by simp)
          · rw [if_neg hp] at h
            simp only [Option.some.injEq, Prod.mk.injEq] at h
            obtain ⟨rfl, rfl⟩ := h
            rcases hpre with e | hs
            · exact absurd e hp
            · exact Or.inr ⟨hs, fun d hd => List.mem_cons_of_mem _ hd⟩
        · rw [if_neg h3] at h
          simp only [Option.some.injEq, Prod.mk.injEq] at h
          exact Or.inl ⟨h.1.symm, h.2.symm⟩

theorem toLower_scheme (sc : GoString)
    (h : ∃ c cs, sc = c :: cs ∧ (isLower c || isUpper c) = true ∧
      ∀ d ∈ cs, (isLower d || isUpper d || isDigit d || d = 43 || d = 45 || d = 46) = true) :
    ∃ c cs, strings.ToLower sc = c :: cs ∧ isLower c = true ∧
      ∀ d ∈ cs, (isLower d || isDigit d || d = 43 || d = 45 || d = 46) = true := by
  obtain ⟨c, cs, rfl, hc, hcs⟩ := h
  refine ⟨_, _, rfl, (schemeLetter_facts c hc).1, ?_⟩
  intro d hd
  rw [List.mem_map] at hd
  obtain ⟨e, he, rfl⟩ := hd
  exact schemeRest_facts e (hcs e he)

theorem parsed_of_setPath (v w : url.URL) (p : GoString) (h : v.setPath p = some w)
    (hs : v.Scheme = [] ∨ ∃ c cs, v.Scheme = c :: cs ∧ isLower c = true ∧
      ∀ d ∈ cs, (isLower d || isDigit d || d = 43 || d = 45 || d = 46) = true)
    (hop : v.Opaque = [])
    (hq : ∀ c ∈ v.RawQuery, c ≠ 35 ∧ (c < 32 || c = 127) = false)
    (hfq : v.ForceQuery = true → v.RawQuery = [])
    (hpw : ∀ ui, v.User = some ui → ui.passwordSet = false → ui.password = [])
    (hp : v.Scheme ≠ [] ∨ v.Host ≠ [] → p = [] ∨ p.head? = some 47) : w.Parsed := by
  unfold url.URL.setPath at h
  cases hun : url.unescape url.encoding.encodePath p with
  | none => rw [hun] at h; exact absurd h (by simp)
  | some path =>
    rw [hun] at h
    simp only [Option.some.injEq] at h
    subst h
    refine ⟨hs, ?_, hq, hfq, ?_, ?_, hpw⟩
    · intro ho
      exact absurd hop ho
    · intro hc
      show (if p = url.escape path url.encoding.encodePath then [] else p) = [] ∨
        (if p = url.escape path url.encoding.encodePath then [] else p).head? = some 47
      by_cases he : p = url.escape path url.encoding.encodePath
      · left; rw [if_pos he]
      · rw [if_neg he]; exact hp hc
    · intro hr
      show url.unescape url.encoding.encodePath
        (if p = url.escape path url.encoding.encodePath then [] else p) = some path
      have hr2 : (if p = url.escape path url.encoding.encodePath then [] else p) ≠ [] := hr
      by_cases he : p = url.escape path url.encoding.encodePath
      · rw [if_pos he] at hr2; exact absurd rfl hr2
      · rw [if_neg he]; exact hun

theorem parseAuthority_password (A : GoString) (user : Option url.Userinfo) (host : GoString)
    (h : url.parseAuthority A = some (user, host)) :
    ∀ ui, user = some ui → ui.passwordSet = false → ui.password = [] := by
  unfold url.parseAuthority at h
  cases hl : strings.LastCut A 64 with
  | none =>
    rw [hl] at h
    simp only [Option.map_eq_some', Prod.mk.injEq] at h
    obtain ⟨_, _, e, _⟩ := h
    intro ui hu
    rw [← e] at hu
    exact absurd hu (by simp)
  | some pr =>
    obtain ⟨userinfo, hostpart⟩ := pr
    rw [hl] at h
    simp only [] at h
    cases hph : url.parseHost hostpart with
    | none => rw [hph] at h; exact absurd h (by simp)
    | some hst =>
      rw [hph] at h
      simp only [] at h
      by_cases hv : url.validUserinfo userinfo = false
      · rw [if_pos hv] at h; exact absurd h (by simp)
      · rw [if_neg hv] at h
        cases hc : strings.Cut userinfo (str ":") with
        | mk a r =>
          obtain ⟨b, found⟩ := r
          rw [hc] at h
          cases found with
          | false =>
            simp only [Option.map_eq_some', Prod.mk.injEq] at h
            obtain ⟨x, _, e, _⟩ := h
            intro ui hu _
            rw [← e] at hu
            simp only [Option.some.injEq] at hu
            rw [← hu]
          | true =>
            simp only [] at h
            cases h1 : url.unescape url.encoding.encodeUserPassword a with
            | none => rw [h1] at h; exact absurd h (by simp)
            | some x =>
              cases h2 : url.unescape url.encoding.encodeUserPassword b with
              | none => rw [h1, h2] at h; exact absurd h (by simp)
              | some y =>
                rw [h1, h2] at h
                simp only [Option.some.injEq, Prod.mk.injEq] at h
                intro ui hu hset
                rw [← h.1] at hu
                simp only [Option.some.injEq] at hu
                rw [← hu] at hset
                exact absurd hset (by simp)

theorem ctl_of_contains (r : GoString) (h : ¬ url.stringContainsCTLByte r = true) :
    ∀ c ∈ r, (c < 32 || c = 127) = false := by
  intro c hc
  unfold url.stringContainsCTLByte at h
  rw [Bool.not_eq_true, List.any_eq_false] at h
  have := h c hc
  simpa using this

/-- What `parse` guarantees of the URL it returns, for a text without `#`. -/
theorem parse_parsed (r : GoString) (u : url.URL) (h35 : (35 : Byte) ∉ r)
    (h : url.parse r = some u) : u.Parsed := by
  unfold url.parse at h
  by_cases hctl : url.stringContainsCTLByte r = true
  · rw [if_pos hctl] at h; exact absurd h (by simp)
  · rw [if_neg hctl] at h
    have hnc := ctl_of_contains r hctl
    by_cases hstar : r = str "*"
    · rw [if_pos hstar] at h
      simp only [Option.some.injEq] at h
      subst h
      refine ⟨Or.inl rfl, ?_, ?_, ?_, ?_, ?_, ?_⟩
      · intro ho; exact absurd rfl ho
      · intro c hc; exact absurd hc (List.not_mem_nil _)
      · intro _; rfl
      · intro _; exact Or.inl rfl
      · intro hr; exact absurd rfl hr
      · intro ui hu; exact absurd hu (by simp [url.URL.zero])
    · rw [if_neg hstar] at h
      cases hgs : url.getScheme r with
      | none => rw [hgs] at h; exact absurd h (by simp)
      | some pr =>
        obtain ⟨scheme0, rest0⟩ := pr
        rw [hgs] at h
        simp only [str_slash, str_slash2, str_slash3, str_question, str_colon] at h
        have hspec := getSchemeFrom_spec r r [] scheme0 rest0 (Or.inl rfl) hgs
        have hrest : ∀ d ∈ rest0, d ∈ r := by
          rcases hspec with ⟨_, e⟩ | ⟨_, m⟩
          · rw [e]; exact fun d hd => hd
          · exact m
        have hsch : strings.ToLower scheme0 = [] ∨
            ∃ c cs, strings.ToLower scheme0 = c :: cs ∧ isLower c = true ∧
              ∀ d ∈ cs, (isLower d || isDigit d || d = 43 || d = 45 || d = 46) = true := by
          rcases hspec with ⟨e, _⟩ | ⟨s, _⟩
          · left; rw [e]; rfl
          · right; exact toLower_scheme _ s
        generalize strings.ToLower scheme0 = scheme at h hsch
        generalize hfqd : (decide (rest0.getLast? = some 63) && decide (rest0.count 63 = 1)) = fq
          at h
        have hq : ∀ c ∈ (if fq = true then [] else (strings.Cut rest0 [63]).2.1),
            c ≠ 35 ∧ (c < 32 || c = 127) = false := by
          intro c hc
          by_cases hf : fq = true
          · rw [if_pos hf] at hc; exact absurd hc (List.not_mem_nil _)
          · rw [if_neg hf] at hc
            have hm := hrest c (cut_snd_mem 63 rest0 c hc)
            exact ⟨fun e => h35 (e ▸ hm), hnc c hm⟩
        have hfq : fq = true → (if fq = true then [] else (strings.Cut rest0 [63]).2.1) = [] := by
          intro hf; rw [if_pos hf]
        generalize (if fq = true then [] else (strings.Cut rest0 [63]).2.1) = rawQuery
          at h hq hfq
        generalize (if fq = true then rest0.dropLast else (strings.Cut rest0 [63]).1) = rest1 at h
        by_cases c1 : ¬ List.isPrefixOf [47] rest1 = true ∧ scheme ≠ []
        · rw [if_pos c1] at h
          simp only [Option.some.injEq] at h
          subst h
          refine ⟨hsch, ?_, hq, hfq, ?_, ?_, ?_⟩
          · intro _; exact ⟨rfl, rfl, rfl⟩
          · intro _; exact Or.inl rfl
          · intro hr; exact absurd rfl hr
          · intro ui hu; exact absurd hu (by simp [url.URL.zero])
        · rw [if_neg c1] at h
          by_cases c2 : ¬ List.isPrefixOf [47] rest1 = true ∧
              strings.Contains (strings.Cut rest1 [47]).1 [58] = true
          · rw [if_pos c2] at h; exact absurd h (by simp)
          · rw [if_neg c2] at h
            by_cases c3 : (scheme ≠ [] ∨ ¬ List.isPrefixOf [47, 47, 47] rest1 = true) ∧
                List.isPrefixOf [47, 47] rest1 = true
            · rw [if_pos c3] at h
              cases hpa : url.parseAuthority (strings.Cut (rest1.drop 2) [47]).1 with
              | none => rw [hpa] at h; exact absurd h (by simp)
              | some pr =>
                obtain ⟨user, host⟩ := pr
                rw [hpa] at h
                simp only [] at h
                refine parsed_of_setPath _ _ _ h hsch rfl hq hfq ?_ ?_
                · exact parseAuthority_password _ _ _ hpa
                · intro _
                  exact cut_drop 47 (rest1.drop 2)
            · rw [if_neg c3] at h
              by_cases c4 : scheme ≠ [] ∧ List.isPrefixOf [47] rest1 = true
              · rw [if_pos c4] at h
                refine parsed_of_setPath _ _ _ h hsch rfl hq hfq ?_ ?_
                · intro ui hu; exact absurd hu (by simp [url.URL.zero])
                · intro _
                  exact Or.inr ((isPrefixOf_singleton 47 rest1).1 c4.2)
              · rw [if_neg c4] at h
                have hs0 : scheme = [] := by
                  by_contra hne
                  by_cases hp : List.isPrefixOf [47] rest1 = true
                  · exact c4 ⟨hne, hp⟩
                  · exact c1 ⟨hp, hne⟩
                refine parsed_of_setPath _ _ _ h hsch rfl hq hfq ?_ ?_
                · intro ui hu; exact absurd hu (by simp [url.URL.zero])
                · intro hc
                  rcases hc with hc | hc
                  · exact absurd hs0 hc
                  · exact absurd rfl hc

/-- What `url.Parse` guarantees of the URL it returns. -/
theorem Parse_parsed (s : GoString) (u : url.URL) (h : url.Parse s = some u) : u.Parsed := by
  unfold url.Parse at h
  rw [str_hash] at h
  have h35 := cut_fst_not_mem 35 s
  cases hp : url.parse (strings.Cut s [35]).1 with
  | none => rw [hp] at h; exact absurd h (by simp)
  | some w =>
    have hw := parse_parsed _ w h35 hp
    rw [hp] at h
    simp only [] at h
    by_cases hf : (strings.Cut s [35]).2.1 = []
    · rw [if_pos hf] at h
      simp only [Option.some.injEq] at h
      rw [← h]; exact hw
    · rw [if_neg hf] at h
      unfold url.URL.setFragment at h
      cases hun : url.unescape url.encoding.encodeFragment (strings.Cut s [35]).2.1 with
      | none => rw [hun] at h; exact absurd h (by simp)
      | some frag =>
        rw [hun] at h
        simp only [Option.some.injEq] at h
        rw [← h]
        exact ⟨hw.scheme, hw.bare, hw.query, hw.forced, hw.rooted, hw.raw, hw.password⟩

theorem splitN_two (s : GoString) (c : Byte) :
    (c ∉ s ∧ strings.SplitN s [c] 2 = [s]) ∨
    (∃ a b, s = a ++ c :: b ∧ strings.SplitN s [c] 2 = [a, b]) := by
  rcases cut_cases c s with ⟨hn, e⟩ | ⟨a, b, _, e1, e⟩
  · left
    refine ⟨hn, ?_⟩
    show (match strings.Cut s [c] with
      | (a, b, true) => a :: strings.SplitN b [c] 1
      | (_, _, false) => [s]) = [s]
    rw [e]
  · right
    refine ⟨a, b, e1, ?_⟩
    show (match strings.Cut s [c] with
      | (a, b, true) => a :: strings.SplitN b [c] 1
      | (_, _, false) => [s]) = [a, b]
    rw [e]
    rfl

/-! ## Trailing slashes -/

theorem dropWhile_replicate_append (q : Byte → Bool) (a : Byte) (ha : q a = true) (l : GoString) :
    ∀ n : Nat, List.dropWhile q (List.replicate n a ++ l) = List.dropWhile q l
  | 0 => rfl
  | n + 1 => by
    show List.dropWhile q (a :: (List.replicate n a ++ l)) = _
    rw [List.dropWhile_cons_of_pos ha]
    exact dropWhile_replicate_append q a ha l n

theorem dropWhile_append_of_ne_nil (q : Byte → Bool) (m : GoString) :
    ∀ l : GoString, List.dropWhile q l ≠ [] → List.dropWhile q (l ++ m) = List.dropWhile q l ++ m
  | [], h => absurd rfl h
  | x :: l, h => by
    by_cases hx : q x = true
    · rw [List.dropWhile_cons_of_pos hx] at h
      show List.dropWhile q (x :: (l ++ m)) = _
      rw [List.dropWhile_cons_of_pos hx, List.dropWhile_cons_of_pos hx]
      exact dropWhile_append_of_ne_nil q m l h
    · show List.dropWhile q (x :: (l ++ m)) = _
      rw [List.dropWhile_cons_of_neg hx, List.dropWhile_cons_of_neg hx]
      rfl

/-- Trimming after slashes have been added at the end. -/
theorem trimRight_append_slashes (x : GoString) (n : Nat) (hx : x.getLast? ≠ some 47) :
    strings.TrimRight (x ++ slashes n) (str "/") = x := by
  have h47 : (str "/").contains (47 : Byte) = true := by decide
  unfold strings.TrimRight slashes
  rw [List.reverse_append, List.reverse_replicate,
    dropWhile_replicate_append (fun c => (str "/").contains c) 47 h47]
  have hd : List.dropWhile (fun c => (str "/").contains c) x.reverse = x.reverse := by
    cases hr : x.reverse with
    | nil => rfl
    | cons y r =>
      have hy : x.getLast? = some y := by
        rw [← List.head?_reverse, hr]; rfl
      have hy47 : y ≠ 47 := by
        intro e; subst e; exact hx hy
      have hc : ¬ ((str "/").contains y = true) := by
        rw [str_slash]; simp [hy47]
      rw [List.dropWhile_cons_of_neg hc]
  rw [hd, List.reverse_reverse]

theorem trimRight_append_of_ne_nil (a q : GoString)
    (h : strings.TrimRight q (str "/") ≠ []) :
    strings.TrimRight (a ++ q) (str "/") = a ++ strings.TrimRight q (str "/") := by
  unfold strings.TrimRight at h ⊢
  have h2 : List.dropWhile (fun c => (str "/").contains c) q.reverse ≠ [] := by
    intro e
    rw [e] at h
    exact h rfl
  rw [List.reverse_append, dropWhile_append_of_ne_nil _ _ _ h2, List.reverse_append,
    List.reverse_reverse]

theorem trimRight_eq_nil (q : GoString) (h : strings.TrimRight q (str "/") = []) :
    ∀ c ∈ q, c = 47 := by
  have h2 : List.rdropWhile (fun c => (str "/").contains c) q = [] := h
  rw [List.rdropWhile_eq_nil_iff] at h2
  intro c hc
  have := h2 c hc
  rw [str_slash] at this
  simpa using this

theorem endsInOneSlash_trimRight (q : GoString) :
    endsInOneSlash (strings.TrimRight q (str "/") ++ str "/") = true := by
  have hd : (strings.TrimRight q (str "/") ++ str "/").dropLast = strings.TrimRight q (str "/") := by
    rw [str_slash, List.dropLast_concat]
  have hl : (strings.TrimRight q (str "/") ++ str "/").getLast? = some 47 := by
    rw [str_slash, List.getLast?_concat]
  unfold endsInOneSlash
  rw [hd, hl]
  simp only [decide_True, Bool.true_and, ne_eq, decide_eq_true_eq]
  intro h
  have hne : List.rdropWhile (fun c => (str "/").contains c) q ≠ [] := by
    intro e
    have : strings.TrimRight q (str "/") = [] := e
    rw [this] at h
    simp at h
  have hlast := List.rdropWhile_last_not (fun c => (str "/").contains c) q hne
  have h2 : (List.rdropWhile (fun c => (str "/").contains c) q).getLast? = some 47 := h
  rw [List.getLast?_eq_getLast _ hne] at h2
  simp only [Option.some.injEq] at h2
  rw [h2] at hlast
  exact hlast (by decide)

theorem endsInOneSlash_cons (c : Byte) (X : GoString) (h : endsInOneSlash X = true)
    (hhead : X.head? ≠ some 47) : endsInOneSlash (c :: X) = true := by
  simp only [endsInOneSlash, Bool.and_eq_true, decide_eq_true_eq] at h ⊢
  obtain ⟨h1, h2⟩ := h
  cases X with
  | nil => simp at h1
  | cons x Y =>
    cases Y with
    | nil =>
      simp only [List.getLast?_singleton, Option.some.injEq] at h1
      subst h1
      exact absurd rfl hhead
    | cons y Z =>
      constructor
      · rw [List.getLast?_cons_cons]; exact h1
      · rw [List.dropLast_cons₂, List.dropLast_cons₂] at *
        rw [List.getLast?_cons_cons]
        cases hZ : (y :: Z).dropLast with
        | nil =>
          rw [hZ] at h2
          simpa using h2
        | cons a b =>
          rw [hZ] at h2
          rw [List.getLast?_cons_cons] at h2
          exact h2

theorem endsInOneSlash_ne_star (p : GoString) (h : endsInOneSlash p = true) : p ≠ str "*" := by
  intro e
  subst e
  revert h
  decide

theorem endsInOneSlash_ne_nil (p : GoString) (h : endsInOneSlash p = true) : p ≠ [] := by
  intro e
  subst e
  revert h
  decide

theorem slash_unescaped : url.shouldEscape 47 url.encoding.encodePath = false := by decide

/-! ## `normalizeAddr` on input it cannot parse -/

/-- C20: `normalizeAddr` is a total function that passes through what it cannot
handle: the empty input gives the empty output, and an input that `url.Parse`
rejects is returned unchanged. -/
theorem normalizeAddr_passthrough :
    normalizeAddr [] = [] ∧ ∀ s : GoString, url.Parse s = none → normalizeAddr s = s :=
  ⟨rfl, normalizeAddr_of_parse_none⟩

set_option maxRecDepth 1000000 in
/-- Witness for C20: `url.Parse` rejects `127.0.0.1:8200` (the first path segment
of a URL without a scheme cannot contain a colon), and the text is returned as
it is. -/
theorem normalizeAddr_passthrough_witness :
    url.Parse (str "127.0.0.1:8200") = none ∧
    normalizeAddr (str "127.0.0.1:8200") = str "127.0.0.1:8200" :=
  ⟨by decide!, normalizeAddr_passthrough.2 (str "127.0.0.1:8200") (by decide!)⟩

/-! ## `normalizeAddr` on absolute URLs -/

set_option maxRecDepth 1000000 in
/-- C18, as stated, fails for the empty path `p`: for `ftp://foo.com/` followed
by no slash the result is `ftp://foo.com/` (what the test `no-overwrite-scheme`
expects), not `ftp://foo.com//`.  It also fails for a scheme with a dot, which
is taken for a host (`x.y://host/foo` gives `https://x.y/foo/`), for a scheme
with an upper-case letter, which is written in lower case (`HTTP://host/foo`
gives `http://host/foo/`), for an authority that the parser rejects (`a b`: the
input is returned as it is) and for an authority that is written back in
another form (`%41@host` is written `A@host`). -/
theorem normalizeAddr_empty_path :
    isPlainScheme (str "ftp") = true ∧ isPlainHost (str "foo.com") = true ∧
    isUnescapedPath [] = true ∧ ([] : GoString).getLast? ≠ some 47 ∧
    normalizeAddr (str "ftp" ++ str "://" ++ str "foo.com" ++ str "/" ++ [] ++ slashes 0) =
      str "ftp://foo.com/" ∧
    normalizeAddr (str "ftp" ++ str "://" ++ str "foo.com" ++ str "/" ++ [] ++ slashes 0) ≠
      str "ftp" ++ str "://" ++ str "foo.com" ++ str "/" ++ [] ++ str "/" ∧
    normalizeAddr (str "x.y://host/foo") = str "https://x.y/foo/" ∧
    normalizeAddr (str "HTTP://host/foo") = str "http://host/foo/" ∧
    normalizeAddr (str "http://a b/foo") = str "http://a b/foo" ∧
    normalizeAddr (str "http://%41@host/foo") = str "http://A@host/foo/" := by
  decide!

/-- For an absolute URL `scheme://host[:port]/p` with a plain
scheme and host and a non-empty path text `p` that holds no escape, query or
fragment and does not end in a slash, `normalizeAddr` maps the URL followed by
any number of slashes to the URL followed by exactly one. -/
theorem normalizeAddr_trailing_slashes (sc h port p : GoString) (n : Nat)
    (hsc : isPlainScheme sc = true) (hh : isPlainHost h = true)
    (hport : url.validOptionalPort port = true) (hp : isUnescapedPath p = true)
    (hne : p ≠ []) (hend : p.getLast? ≠ some 47) :
    normalizeAddr (sc ++ str "://" ++ h ++ port ++ str "/" ++ p ++ slashes n) =
      sc ++ str "://" ++ h ++ port ++ str "/" ++ p ++ str "/" := by
  have hall : ∀ c ∈ p, url.shouldEscape c url.encoding.encodePath = false := by
    intro c hc
    unfold isUnescapedPath at hp
    rw [List.all_eq_true] at hp
    simpa using hp c hc
  have hplain : isPlainPath (str "/" ++ p ++ slashes n) = true := by
    rw [isPlainPath_iff]
    refine ⟨Or.inr rfl, ?_⟩
    intro c hc
    rcases List.mem_append.1 hc with m | m
    · rcases List.mem_append.1 m with m | m
      · rw [str_slash, List.mem_singleton] at m
        subst m; exact slash_unescaped
      · exact hall c m
    · unfold slashes at m
      rw [List.eq_of_mem_replicate m]
      exact slash_unescaped
  have hlast : (str "/" ++ p).getLast? ≠ some 47 := by
    rw [List.getLast?_append_of_ne_nil _ hne]
    exact hend
  have e : sc ++ str "://" ++ h ++ port ++ str "/" ++ p ++ slashes n =
      sc ++ str "://" ++ h ++ port ++ (str "/" ++ p ++ slashes n) := by
    simp only [List.append_assoc]
  rw [e, normalizeAddr_absolute sc h port _ hsc hh hport hplain,
    trimRight_append_slashes _ n hlast]
  simp only [List.append_assoc]

set_option maxRecDepth 1000000 in
/-- An instance: `https://www.example.com/foo` followed by no slash and by
seven slashes. -/
theorem normalizeAddr_trailing_slashes_witness :
    str "https" ++ str "://" ++ str "www.example.com" ++ [] ++ str "/" ++ str "foo" ++ slashes 7 =
      str "https://www.example.com/foo///////" ∧
    normalizeAddr (str "https://www.example.com/foo") = str "https://www.example.com/foo/" ∧
    normalizeAddr (str "https" ++ str "://" ++ str "www.example.com" ++ [] ++ str "/" ++
      str "foo" ++ slashes 7) =
      str "https" ++ str "://" ++ str "www.example.com" ++ [] ++ str "/" ++ str "foo" ++ str "/" :=
  ⟨by decide, by decide!,
    normalizeAddr_trailing_slashes (str "https") (str "www.example.com") [] (str "foo") 7
      (by decide) (by decide) (by decide) (by decide) (by decide) (by decide)⟩

/-! ## `normalizeAddr` on a URL with a scheme and a host -/

theorem escape_ne_nil (m : url.encoding) (c : Byte) (x : GoString) : url.escape (c :: x) m ≠ [] := by
  unfold url.escape
  rw [List.flatMap_cons]
  intro e
  have h := (List.append_eq_nil.1 e).1
  split at h
  · exact absurd h (by simp)
  · split at h
    · exact absurd h (by simp)
    · exact absurd h (by simp)

theorem escapedPath_ne_nil (u : url.URL) (h : u.Path ≠ []) : u.EscapedPath ≠ [] := by
  unfold url.URL.EscapedPath
  split
  · rename_i hr
    exact hr.1
  · split
    · decide
    · obtain ⟨c, x, e⟩ := List.exists_cons_of_ne_nil h
      rw [e]
      exact escape_ne_nil _ c x

/-- The path part of the text of a URL with a non-empty path starts with a
slash. -/
theorem pathText_head (u : url.URL) (h : u.Path ≠ []) : (pathText u).head? = some 47 := by
  have hne := escapedPath_ne_nil u h
  unfold pathText
  by_cases hh : u.EscapedPath.head? = some 47
  · rw [if_neg (fun c => c.2 hh), List.nil_append]
    exact hh
  · rw [if_pos ⟨hne, hh⟩]
    rfl

theorem trimRight_slash_ne_nil (q : GoString) : strings.TrimRight q (str "/") ++ str "/" ≠ [] := by
  rw [str_slash]
  simp

/-- The URL written out for a URL with a scheme without a dot and a host: only
the path changes. -/
theorem normalizedURL_of_scheme_host (u0 : url.URL) (hsc : u0.Scheme ≠ [])
    (hdot : strings.Contains u0.Scheme (str ".") = false) (hh : u0.Host ≠ []) :
    normalizedURL u0 = { u0 with Path := strings.TrimRight u0.Path (str "/") ++ str "/" } := by
  unfold normalizedURL
  simp only [if_neg hsc, hdot, Bool.false_eq_true, if_false, if_neg hh]

set_option maxRecDepth 1000000 in
/-- C19, as stated, fails for a scheme that contains a dot: `x.y://host/p` parses
with the scheme `x.y` and the host `host`, and `normalizeAddr` writes the scheme
`https` and the host `x.y`. -/
theorem normalizeAddr_overwrites_dotted_scheme :
    ∃ u0, url.Parse (str "x.y://host/p") = some u0 ∧ u0.Scheme = str "x.y" ∧
      u0.Host = str "host" ∧ normalizeAddr (str "x.y://host/p") = str "https://x.y/p/" :=
  ⟨{ url.URL.zero with Scheme := str "x.y", Host := str "host", Path := str "/p" },
    by decide!, rfl, rfl, by decide!⟩

/-- C19, amended: a scheme without a dot is never overwritten.  For every input
that `url.Parse` accepts with a non-empty scheme that contains no dot and a
non-empty host, the text that `normalizeAddr` returns is the parsed scheme,
`://`, the user information if any, the host as `net/url` writes it (the host
itself when it needs no escape), and a rest that starts with `/`; it is the
text of a URL with the same scheme and host. -/
theorem normalizeAddr_keeps_scheme (s : GoString) (u0 : url.URL)
    (hp : url.Parse s = some u0) (hsc : u0.Scheme ≠ [])
    (hdot : strings.Contains u0.Scheme (str ".") = false) (hh : u0.Host ≠ []) :
    (∃ rest, normalizeAddr s = u0.Scheme ++ str "://" ++ userText u0.User ++
        url.escape u0.Host url.encoding.encodeHost ++ rest ∧ rest.head? = some 47) ∧
    ((∀ c ∈ u0.Host, url.shouldEscape c url.encoding.encodeHost = false) →
      url.escape u0.Host url.encoding.encodeHost = u0.Host) ∧
    normalizeAddr s = (normalizedURL u0).String ∧
    (normalizedURL u0).Scheme = u0.Scheme ∧ (normalizedURL u0).Host = u0.Host := by
  have hs : s ≠ [] := by
    intro e
    subst e
    have : url.Parse [] = some url.URL.zero := by decide
    rw [this] at hp
    simp only [Option.some.injEq] at hp
    rw [← hp] at hsc
    exact hsc rfl
  have hop : u0.Opaque = [] := by
    by_contra ho
    exact hh ((Parse_parsed s u0 hp).bare ho).1
  have hn := normalizedURL_of_scheme_host u0 hsc hdot hh
  have he := normalizeAddr_eq s u0 hs hp
  refine ⟨?_, escape_of_plain _ (by decide) _, he, by rw [hn], by rw [hn]⟩
  refine ⟨pathText (normalizedURL u0) ++ queryText u0.ForceQuery u0.RawQuery ++
    fragmentText (normalizedURL u0), ?_, ?_⟩
  · rw [he, String_of_host (normalizedURL u0) (by rw [hn]; exact hsc) (by rw [hn]; exact hop)
      (by rw [hn]; exact hh)]
    rw [hn]
    simp only [str_scheme_sep, List.append_assoc, List.cons_append, List.nil_append]
  · have hpne : (normalizedURL u0).Path ≠ [] := by
      rw [hn]
      exact trimRight_slash_ne_nil _
    have hhead := pathText_head (normalizedURL u0) hpne
    cases hpt : pathText (normalizedURL u0) with
    | nil => rw [hpt] at hhead; simp at hhead
    | cons x r =>
      rw [hpt] at hhead
      simpa using hhead

set_option maxRecDepth 1000000 in
/-- Witness for C19: `ftp://foo.com/` is returned as it is, and
`http://www.example.com:8200` gets the path `/`. -/
theorem normalizeAddr_keeps_scheme_witness :
    normalizeAddr (str "ftp://foo.com/") = str "ftp://foo.com/" ∧
    normalizeAddr (str "http://www.example.com:8200") = str "http://www.example.com:8200/" ∧
    (normalizedURL { url.URL.zero with
      Scheme := str "ftp", Host := str "foo.com", Path := str "/" }).Scheme = str "ftp" :=
  ⟨by decide!, by decide!,
    (normalizeAddr_keeps_scheme (str "ftp://foo.com/")
      { url.URL.zero with Scheme := str "ftp", Host := str "foo.com", Path := str "/" }
      (by decide!) (by decide) (by decide) (by decide)).2.2.2.1⟩

/-! ## `normalizeAddr` on a bare host name -/

set_option maxRecDepth 100000 in
theorem hostNameByte_facts : ∀ c : Byte,
    (isLower c || isUpper c || isDigit c || c = 46 || c = 45) = true →
    url.shouldEscape c url.encoding.encodeHost = false ∧
    url.shouldEscape c url.encoding.encodePath = false ∧
    c ≠ 47 ∧ c ≠ 58 ∧ c ≠ 42 ∧
    ((isLower c || isUpper c) = true ∨ (isDigit c || c = 43 || c = 45 || c = 46) = true) ∧
    (isLower c || isUpper c || isDigit c || c = 43 || c = 45 || c = 46) = true := by
  decide

theorem isHostName_iff (h : GoString) : isHostName h = true ↔
    h ≠ [] ∧ ∀ c ∈ h, (isLower c || isUpper c || isDigit c || c = 46 || c = 45) = true := by
  unfold isHostName
  rw [Bool.and_eq_true, List.all_eq_true, decide_eq_true_eq]

theorem isUnescapedPath_iff (p : GoString) : isUnescapedPath p = true ↔
    ∀ c ∈ p, url.shouldEscape c url.encoding.encodePath = false := by
  unfold isUnescapedPath
  rw [List.all_eq_true]
  constructor
  · intro h c hc
    simpa using h c hc
  · intro h c hc
    simpa using h c hc

/-- No scheme is found in a text that starts with the bytes of a host name and
goes on, if at all, with a slash. -/
theorem getSchemeFrom_bare (rawURL rest : GoString) (hrest : rest = [] ∨ rest.head? = some 47) :
    ∀ (h pre : GoString),
      (∀ c ∈ h, (isLower c || isUpper c || isDigit c || c = 46 || c = 45) = true) →
      url.getSchemeFrom rawURL pre (h ++ rest) = some ([], rawURL)
  | [], pre, _ => by
    rcases hrest with e | e
    · subst e; rfl
    · cases rest with
      | nil => simp at e
      | cons x r =>
        simp only [List.head?_cons, Option.some.injEq] at e
        subst e
        have h1 : (isLower (47 : Byte) || isUpper (47 : Byte)) = false := by decide
        have h2 : (isDigit (47 : Byte) || decide ((47 : Byte) = 43) || decide ((47 : Byte) = 45) ||
          decide ((47 : Byte) = 46)) = false := by decide
        have h3 : ¬ ((47 : Byte) = 58) := by decide
        simp only [List.nil_append, url.getSchemeFrom, h1, h2, h3, Bool.false_eq_true, if_false]
  | c :: h, pre, hb => by
    have ih := fun pre2 => getSchemeFrom_bare rawURL rest hrest h pre2
      (fun d hd => hb d (List.mem_cons_of_mem _ hd))
    have hc := (hostNameByte_facts c (hb c (List.mem_cons_self _ _))).2.2.2.2.2.1
    show url.getSchemeFrom rawURL pre (c :: (h ++ rest)) = _
    unfold url.getSchemeFrom
    by_cases h1 : (isLower c || isUpper c) = true
    · rw [if_pos h1]; exact ih _
    · rw [if_neg h1]
      rcases hc with h0 | h2
      · exact absurd h0 h1
      · rw [if_pos h2]
        by_cases hp : pre = []
        · rw [if_pos hp]
        · rw [if_neg hp]; exact ih _

/-- Parsing a bare text: a host name, followed by nothing or by a slash and a
text that a path holds without escapes.  The whole text is the path. -/
theorem parse_bare (h rest : GoString) (hh : isHostName h = true)
    (hrest : rest = [] ∨ rest.head? = some 47) (hp : isUnescapedPath rest = true) :
    url.Parse (h ++ rest) = some (url.URL.ofPath (h ++ rest)) := by
  rw [isHostName_iff] at hh
  obtain ⟨hne, hb⟩ := hh
  rw [isUnescapedPath_iff] at hp
  have hall : ∀ c ∈ h ++ rest, url.shouldEscape c url.encoding.encodePath = false := by
    intro c hc
    rcases List.mem_append.1 hc with m | m
    · exact (hostNameByte_facts c (hb c m)).2.1
    · exact hp c m
  have h35 : (35 : Byte) ∉ h ++ rest := fun m => (pathByte_facts 35 (hall 35 m)).2.2.1 rfl
  have h63 : (63 : Byte) ∉ h ++ rest := fun m => (pathByte_facts 63 (hall 63 m)).2.1 rfl
  have h47 : (47 : Byte) ∉ h := fun m => (hostNameByte_facts 47 (hb 47 m)).2.2.1 rfl
  have h58 : (58 : Byte) ∉ h := fun m => (hostNameByte_facts 58 (hb 58 m)).2.2.2.1 rfl
  obtain ⟨c0, h0, rfl⟩ := List.exists_cons_of_ne_nil hne
  have hc0 := hostNameByte_facts c0 (hb c0 (List.mem_cons_self _ _))
  have hctl : url.stringContainsCTLByte (c0 :: h0 ++ rest) = false := by
    unfold url.stringContainsCTLByte
    rw [List.any_eq_false]
    intro c hc
    rw [(pathByte_facts c (hall c hc)).2.2.2]
    exact Bool.false_ne_true
  have hstar : c0 :: h0 ++ rest ≠ str "*" := by
    intro e
    have h1 : str "*" = [42] := rfl
    rw [h1] at e
    simp only [List.cons_append, List.cons.injEq] at e
    exact hc0.2.2.2.2.1 e.1
  have hgs : url.getScheme (c0 :: h0 ++ rest) = some ([], c0 :: h0 ++ rest) :=
    getSchemeFrom_bare _ rest hrest (c0 :: h0) [] hb
  have hfq : (decide ((c0 :: h0 ++ rest).getLast? = some 63) &&
      decide ((c0 :: h0 ++ rest).count 63 = 1)) = false := by
    rw [Bool.and_eq_false_iff]
    right
    rw [List.count_eq_zero.2 h63]
    decide
  have hpre : List.isPrefixOf [47] (c0 :: h0 ++ rest) = false := by
    simp [List.isPrefixOf, Ne.symm hc0.2.2.1]
  have hpre2 : List.isPrefixOf [47, 47] (c0 :: h0 ++ rest) = false := by
    simp [List.isPrefixOf, Ne.symm hc0.2.2.1]
  have hcut : (strings.Cut (c0 :: h0 ++ rest) [47]).1 = c0 :: h0 :=
    cut_fst_authority (c0 :: h0) rest h47 hrest
  have hcol : strings.Contains (c0 :: h0) [58] = false := by
    rw [contains_singleton]
    exact decide_eq_false h58
  have hun : url.unescape url.encoding.encodePath (c0 :: h0 ++ rest) = some (c0 :: h0 ++ rest) :=
    unescape_of_plain _ (by decide) _
      (Or.inr (fun c hc => ⟨(pathByte_facts c (hall c hc)).1, rfl⟩))
  have hesc : url.escape (c0 :: h0 ++ rest) url.encoding.encodePath = c0 :: h0 ++ rest :=
    escape_of_plain _ (by decide) _ hall
  have hlow : strings.ToLower [] = ([] : GoString) := rfl
  unfold url.Parse
  rw [str_hash, cut_of_not_mem 35 _ h35]
  simp only [if_true]
  unfold url.parse
  rw [hctl, if_neg Bool.false_ne_true, if_neg hstar, hgs]
  simp only [str_slash, str_slash2, str_slash3, str_question, str_colon, hlow, hfq,
    Bool.false_eq_true, if_false, cut_of_not_mem 63 _ h63, hpre, hpre2, hcut, hcol,
    ne_eq, not_true_eq_false, and_false, false_and, not_false_eq_true, and_true, false_or,
    or_false, url.URL.setPath, hun, hesc, if_true, url.URL.zero, url.URL.ofPath]

theorem splitN_of_not_mem (s : GoString) (c : Byte) (h : c ∉ s) :
    strings.SplitN s [c] 2 = [s] := by
  show (match strings.Cut s [c] with
    | (a, b, true) => a :: strings.SplitN b [c] 1
    | (_, _, false) => [s]) = [s]
  rw [cut_of_not_mem c s h]

theorem splitN_at (a b : GoString) (c : Byte) (h : c ∉ a) :
    strings.SplitN (a ++ c :: b) [c] 2 = [a, b] := by
  show (match strings.Cut (a ++ c :: b) [c] with
    | (a, b, true) => a :: strings.SplitN b [c] 1
    | (_, _, false) => [a ++ c :: b]) = [a, b]
  rw [cut_at c b a h]
  rfl

theorem https_ne_nil : str "https" ≠ [] := by decide

theorem https_no_dot : strings.Contains (str "https") (str ".") = false := by decide

/-- The URL written out for a bare host name. -/
theorem normalizedURL_bare_host (h : GoString) (h47 : (47 : Byte) ∉ h) :
    normalizedURL (url.URL.ofPath h) = url.URL.https h (str "/") := by
  have e : strings.TrimRight (str "/") (str "/") ++ str "/" = str "/" := by decide
  unfold normalizedURL url.URL.ofPath url.URL.https
  simp only [url.URL.zero, if_true, https_no_dot, Bool.false_eq_true, if_false, str_slash,
    splitN_of_not_mem h 47 h47]
  rw [← str_slash, e]

/-- The URL written out for a bare host name followed by a slash and a path. -/
theorem normalizedURL_bare_path (h p : GoString) (h47 : (47 : Byte) ∉ h) :
    normalizedURL (url.URL.ofPath (h ++ 47 :: p)) =
      url.URL.https h (strings.TrimRight p (str "/") ++ str "/") := by
  unfold normalizedURL url.URL.ofPath url.URL.https
  simp only [url.URL.zero, if_true, https_no_dot, Bool.false_eq_true, if_false, str_slash,
    splitN_at h p 47 h47]

/-- The text of an `https` URL with a host and a path, both written without
escapes. -/
theorem String_of_https (a P : GoString) (hane : a ≠ [])
    (ha : ∀ c ∈ a, url.shouldEscape c url.encoding.encodeHost = false)
    (hP : isUnescapedPath P = true) (hne : P ≠ []) (hstar : P ≠ str "*") :
    (url.URL.https a P).String =
      str "https://" ++ a ++ (if P.head? ≠ some 47 then [47] else []) ++ P := by
  rw [isUnescapedPath_iff] at hP
  have hesc : url.escape a url.encoding.encodeHost = a := escape_of_plain _ (by decide) _ ha
  have hep : url.escape P url.encoding.encodePath = P := escape_of_plain _ (by decide) _ hP
  have hE : (url.URL.https a P).EscapedPath = P := by
    unfold url.URL.EscapedPath url.URL.https
    simp only [url.URL.zero, ne_eq, not_true_eq_false, false_and, if_false, if_neg hstar, hep]
  have hpt : pathText (url.URL.https a P) = (if P.head? ≠ some 47 then [47] else []) ++ P := by
    unfold pathText
    rw [hE]
    by_cases hh : P.head? = some 47
    · rw [if_neg (fun c => c.2 hh), if_neg (fun c => c hh)]
    · rw [if_pos ⟨hne, hh⟩, if_pos hh]
  rw [String_of_host (url.URL.https a P) https_ne_nil rfl hane, hpt]
  have h1 : str "https://" = str "https" ++ [58, 47, 47] := by decide
  rw [h1]
  simp only [url.URL.https, url.URL.zero, userText, queryText, fragmentText, hesc,
    Bool.false_eq_true, ne_eq, not_true_eq_false, or_self, if_false, List.append_nil,
    List.nil_append, List.append_assoc, List.cons_append]

/-- The text of an `https` URL with a host name and a path written without
escapes. -/
theorem String_of_bare (a P : GoString) (ha : isHostName a = true)
    (hP : isUnescapedPath P = true) (hne : P ≠ []) (hstar : P ≠ str "*") :
    (url.URL.https a P).String =
      str "https://" ++ a ++ (if P.head? ≠ some 47 then [47] else []) ++ P := by
  rw [isHostName_iff] at ha
  exact String_of_https a P ha.1 (fun c hc => (hostNameByte_facts c (ha.2 c hc)).1) hP hne hstar

theorem hostName_getLast (x h : GoString) (hh : isHostName h = true) :
    (x ++ h).getLast? ≠ some 47 := by
  rw [isHostName_iff] at hh
  rw [List.getLast?_append_of_ne_nil _ hh.1]
  intro e
  have hm : (47 : Byte) ∈ h := List.mem_of_getLast?_eq_some e
  exact (hostNameByte_facts 47 (hh.2 47 hm)).2.2.1 rfl

theorem trimRight_head (p : GoString) (y : Byte) (r : GoString)
    (h : strings.TrimRight p (str "/") = y :: r) : p.head? = some y := by
  have hpre : strings.TrimRight p (str "/") <+: p := by
    show List.rdropWhile (fun c => (str "/").contains c) p <+: p
    exact List.rdropWhile_prefix _ _
  rw [h] at hpre
  obtain ⟨t, ht⟩ := hpre
  rw [← ht]
  rfl

set_option maxRecDepth 1000000 in
/-- C17, as stated, fails for a path that begins with a slash: for the bare
`www.example.com` followed by `/` and the path `/foo` the result is
`https://www.example.com/foo/`, with one slash before `foo`, while
`https://www.example.com/` followed by `/foo`, stripped of trailing slashes and
with one slash appended, is `https://www.example.com//foo/`. -/
theorem normalizeAddr_bare_double_slash :
    isHostName (str "www.example.com") = true ∧ isUnescapedPath (str "/foo") = true ∧
    normalizeAddr (str "www.example.com" ++ str "/" ++ str "/foo") =
      str "https://www.example.com/foo/" ∧
    strings.TrimRight (str "https://" ++ str "www.example.com" ++ str "/" ++ str "/foo")
      (str "/") ++ str "/" = str "https://www.example.com//foo/" ∧
    str "https://www.example.com/foo/" ≠ str "https://www.example.com//foo/" := by
  decide!

/-- C17, amended: for a bare host name `h` (not empty; letters, digits, `.` and
`-` only) `normalizeAddr` returns `https://`, `h` and `/`; and for `h`, `/` and a
path text `p` that holds no escape, query or fragment and does not begin with a
slash it returns `https://`, `h`, `/` and `p` with the trailing slashes
stripped and one slash appended. -/
theorem normalizeAddr_bare_host (h p : GoString) (hh : isHostName h = true)
    (hp : isUnescapedPath p = true) (hhead : p.head? ≠ some 47) :
    normalizeAddr h = str "https://" ++ h ++ str "/" ∧
    normalizeAddr (h ++ str "/" ++ p) =
      strings.TrimRight (str "https://" ++ h ++ str "/" ++ p) (str "/") ++ str "/" := by
  have hh2 := (isHostName_iff h).1 hh
  have hp2 := (isUnescapedPath_iff p).1 hp
  have h47 : (47 : Byte) ∉ h := fun m => (hostNameByte_facts 47 (hh2.2 47 m)).2.2.1 rfl
  constructor
  · have hparse := parse_bare h [] hh (Or.inl rfl) (by decide)
    rw [List.append_nil] at hparse
    rw [normalizeAddr_eq h _ hh2.1 hparse, normalizedURL_bare_host h h47,
      String_of_bare h (str "/") hh (by decide) (by decide) (by decide)]
    have e0 : (str "/").head? = some 47 := rfl
    rw [if_neg (fun c => c e0), List.append_nil]
  · have hplain : isUnescapedPath (47 :: p) = true := by
      rw [isUnescapedPath_iff]
      intro c hc
      rcases List.mem_cons.1 hc with e | m
      · subst e; exact slash_unescaped
      · exact hp2 c m
    have hparse := parse_bare h (47 :: p) hh (Or.inr rfl) hplain
    have hx : h ++ str "/" ++ p = h ++ 47 :: p := by
      rw [str_slash]; simp
    have hxne : h ++ 47 :: p ≠ [] := by simp
    have hPplain : isUnescapedPath (strings.TrimRight p (str "/") ++ str "/") = true := by
      rw [isUnescapedPath_iff]
      intro c hc
      rcases List.mem_append.1 hc with m | m
      · exact hp2 c (mem_of_mem_trimRight m)
      · rw [str_slash, List.mem_singleton] at m
        subst m; exact slash_unescaped
    rw [hx, normalizeAddr_eq _ _ hxne hparse, normalizedURL_bare_path h p h47,
      String_of_bare h _ hh hPplain (trimRight_slash_ne_nil p)
        (endsInOneSlash_ne_star _ (endsInOneSlash_trimRight p))]
    by_cases hT : strings.TrimRight p (str "/") = []
    · have hpnil : p = [] := by
        cases p with
        | nil => rfl
        | cons c r =>
          have := trimRight_eq_nil _ hT c (List.mem_cons_self _ _)
          subst this
          exact absurd rfl hhead
      subst hpnil
      have e1 : str "https://" ++ h ++ str "/" ++ [] = (str "https://" ++ h) ++ slashes 1 := by
        simp [slashes, str_slash]
      have e0 : (([] : GoString) ++ str "/").head? = some 47 := rfl
      rw [hT, e1, trimRight_append_slashes _ 1 (hostName_getLast _ h hh),
        if_neg (fun c => c e0)]
      simp only [List.append_nil, List.nil_append]
    · obtain ⟨y, r, hyr⟩ := List.exists_cons_of_ne_nil hT
      have hy : p.head? = some y := trimRight_head p y r hyr
      have hy47 : y ≠ 47 := by
        intro e
        subst e
        exact hhead hy
      rw [trimRight_append_of_ne_nil (str "https://" ++ h ++ str "/") p hT, hyr]
      have hhd : (y :: r ++ str "/").head? ≠ some 47 := by
        simpa using hy47
      rw [if_pos hhd]
      simp only [str_slash, List.append_assoc, List.cons_append, List.nil_append]

set_option maxRecDepth 1000000 in
/-- Witness for C17: `www.example.com`, alone and followed by `/foo//`. -/
theorem normalizeAddr_bare_host_witness :
    normalizeAddr (str "www.example.com") = str "https://www.example.com/" ∧
    normalizeAddr (str "www.example.com/foo//") = str "https://www.example.com/foo/" ∧
    normalizeAddr (str "www.example.com") = str "https://" ++ str "www.example.com" ++ str "/" :=
  ⟨by decide!, by decide!,
    (normalizeAddr_bare_host (str "www.example.com") (str "foo//") (by decide) (by decide)
      (by decide)).1⟩

/-! ## `normalizeAddr` on a bare host name with a port -/

/-- A scheme is read up to the first colon: here a text of letters, digits,
`+`, `-` and `.` after a non-empty start. -/
theorem getSchemeFrom_letters (rawURL rest : GoString) :
    ∀ (sc pre : GoString), pre ≠ [] →
      (∀ c ∈ sc, (isLower c || isUpper c || isDigit c || c = 43 || c = 45 || c = 46) = true) →
      url.getSchemeFrom rawURL pre (sc ++ 58 :: rest) = some (pre ++ sc, rest)
  | [], pre, hpre, _ => by
    have h1 : (isLower (58 : Byte) || isUpper (58 : Byte)) = false := by decide
    have h2 : (isDigit (58 : Byte) || decide ((58 : Byte) = 43) || decide ((58 : Byte) = 45) ||
      decide ((58 : Byte) = 46)) = false := by decide
    simp only [List.nil_append, url.getSchemeFrom, h1, h2, List.append_nil]
    simp [hpre]
  | c :: cs, pre, hpre, h => by
    have ih := getSchemeFrom_letters rawURL rest cs (pre ++ [c]) (by simp)
      (fun d hd => h d (List.mem_cons_of_mem _ hd))
    have hc := h c (List.mem_cons_self _ _)
    show url.getSchemeFrom rawURL pre (c :: (cs ++ 58 :: rest)) = _
    simp only [url.getSchemeFrom]
    by_cases h0 : (isLower c || isUpper c) = true
    · rw [if_pos h0, ih]; simp
    · have h1 : (isDigit c || decide (c = 43) || decide (c = 45) || decide (c = 46)) = true := by
        simp only [Bool.or_eq_true, decide_eq_true_eq] at hc h0 ⊢
        tauto
      rw [if_neg h0, if_pos h1, if_neg hpre, ih]; simp

set_option maxRecDepth 100000 in
theorem toLower_hostNameByte : ∀ c : Byte,
    (isLower c || isUpper c || isDigit c || c = 46 || c = 45) = true →
    url.shouldEscape (if isUpper c = true then c + 32 else c) url.encoding.encodeHost = false := by
  decide

theorem isDottedHostName_iff (h : GoString) : isDottedHostName h = true ↔
    isHostName h = true ∧ (∃ c cs, h = c :: cs ∧ (isLower c || isUpper c) = true) ∧
      (46 : Byte) ∈ h := by
  unfold isDottedHostName
  rw [Bool.and_eq_true, Bool.and_eq_true]
  have hc : h.contains 46 = true ↔ (46 : Byte) ∈ h := by simp
  rw [hc]
  constructor
  · rintro ⟨⟨h1, h2⟩, h3⟩
    refine ⟨h1, ?_, h3⟩
    cases h with
    | nil => simp at h2
    | cons c cs => exact ⟨c, cs, rfl, h2⟩
  · rintro ⟨h1, ⟨c, cs, rfl, h2⟩, h3⟩
    exact ⟨⟨h1, h2⟩, h3⟩

theorem isDecimal_iff (p : GoString) : isDecimal p = true ↔
    p ≠ [] ∧ ∀ d ∈ p, isDigit d = true := by
  unfold isDecimal
  rw [Bool.and_eq_true, List.all_eq_true, decide_eq_true_eq]

set_option maxRecDepth 100000 in
theorem digitByte_facts : ∀ c : Byte, isDigit c = true →
    c ≠ 47 ∧ c ≠ 63 ∧ c ≠ 35 ∧ (c < 32 || c = 127) = false := by
  decide

/-- Parsing a bare host name with a port: the host name, in lower case, is
taken for the scheme and the port for the opaque part. -/
theorem parse_host_port (h p : GoString) (hh : isDottedHostName h = true)
    (hp : isDecimal p = true) :
    url.Parse (h ++ 58 :: p) =
      some ⟨strings.ToLower h, p, none, [], [], [], false, false, [], [], []⟩ := by
  rw [isDottedHostName_iff] at hh
  obtain ⟨hn, ⟨c0, h0, rfl, hc0⟩, _⟩ := hh
  rw [isHostName_iff] at hn
  rw [isDecimal_iff] at hp
  obtain ⟨hpne, hpd⟩ := hp
  have hb := hn.2
  have h35 : (35 : Byte) ∉ c0 :: h0 ++ 58 :: p := by
    intro m
    rcases List.mem_append.1 m with m | m
    · exact (pathByte_facts 35 (hostNameByte_facts 35 (hb 35 m)).2.1).2.2.1 rfl
    · rcases List.mem_cons.1 m with e | m
      · exact absurd e (by decide)
      · exact (digitByte_facts 35 (hpd 35 m)).2.2.1 rfl
  have h63 : (63 : Byte) ∉ p := fun m => (digitByte_facts 63 (hpd 63 m)).2.1 rfl
  have hctl : url.stringContainsCTLByte (c0 :: h0 ++ 58 :: p) = false := by
    unfold url.stringContainsCTLByte
    rw [List.any_eq_false]
    intro c hc
    have : (c < 32 || c = 127) = false := by
      rcases List.mem_append.1 hc with m | m
      · exact (pathByte_facts c (hostNameByte_facts c (hb c m)).2.1).2.2.2
      · rcases List.mem_cons.1 m with e | m
        · subst e; decide
        · exact (digitByte_facts c (hpd c m)).2.2.2
    rw [this]
    exact Bool.false_ne_true
  have hstar : c0 :: h0 ++ 58 :: p ≠ str "*" := by
    intro e
    have := congrArg List.length e
    have h1 : (str "*").length = 1 := rfl
    simp [h1] at this
  have hgs : url.getScheme (c0 :: h0 ++ 58 :: p) = some (c0 :: h0, p) := by
    unfold url.getScheme
    show url.getSchemeFrom _ [] (c0 :: (h0 ++ 58 :: p)) = _
    simp only [url.getSchemeFrom, hc0, if_true, List.nil_append]
    rw [getSchemeFrom_letters _ _ h0 [c0] (by simp)
      (fun d hd => (hostNameByte_facts d (hb d (List.mem_cons_of_mem _ hd))).2.2.2.2.2.2)]
    rfl
  have hfq : (decide (p.getLast? = some 63) && decide (p.count 63 = 1)) = false := by
    rw [Bool.and_eq_false_iff]
    right
    rw [List.count_eq_zero.2 h63]
    decide
  obtain ⟨d0, p0, rfl⟩ := List.exists_cons_of_ne_nil hpne
  have hd0 : d0 ≠ 47 := (digitByte_facts d0 (hpd d0 (List.mem_cons_self _ _))).1
  have hpre : List.isPrefixOf [47] (d0 :: p0) = false := by
    simp [List.isPrefixOf, Ne.symm hd0]
  have hlow : strings.ToLower (c0 :: h0) ≠ [] := by
    unfold strings.ToLower
    simp
  unfold url.Parse
  rw [str_hash, cut_of_not_mem 35 _ h35]
  simp only [if_true]
  unfold url.parse
  rw [hctl, if_neg Bool.false_ne_true, if_neg hstar, hgs]
  simp only [str_slash, str_question, hfq, Bool.false_eq_true, if_false,
    cut_of_not_mem 63 _ h63, hpre, hlow, ne_eq, not_false_eq_true, and_self, if_true,
    url.URL.zero]

set_option maxRecDepth 1000000 in
/-- C16 at the input `host:8200`: the parser takes `host` for a scheme and `8200`
for an opaque part, `normalizeAddr` reinterprets a scheme as a host only when
it contains a dot, the slash it appends to the path is not written because
the opaque part is still set, and the text is returned as it is: without
`https://` and without a trailing slash.  The bare host name `host` alone
becomes `https://host/`, and the host name with a dot and the same port
becomes `https://www.example.com:8200/`.  (A host name that starts with a digit
is not taken for a scheme, the parser rejects the text, and it is returned as
it is; upper-case letters of a host name with a dot are written in lower
case.) -/
theorem normalizeAddr_dotless_host_port :
    isHostName (str "host") = true ∧ isDecimal (str "8200") = true ∧
    normalizeAddr (str "host" ++ str ":" ++ str "8200") = str "host:8200" ∧
    str "host:8200" ≠ str "https://" ++ str "host" ++ str ":" ++ str "8200" ++ str "/" ∧
    normalizeAddr (str "127.0.0.1" ++ str ":" ++ str "8200") = str "127.0.0.1:8200" ∧
    normalizeAddr (str "WWW.example.com" ++ str ":" ++ str "8200") =
      str "https://www.example.com:8200/" ∧
    normalizeAddr (str "host") = str "https://host/" ∧
    normalizeAddr (str "www.example.com:8200") = str "https://www.example.com:8200/" ∧
    (∃ u0, url.Parse (str "host:8200") = some u0 ∧ u0.Scheme = str "host" ∧
      u0.Opaque = str "8200" ∧ (normalizedURL u0).Path = str "/" ∧
      (normalizedURL u0).Opaque = str "8200") := by
  refine ⟨by decide, by decide, by decide!, by decide, by decide!, by decide!, by decide!,
    by decide!, ⟨{ url.URL.zero with Scheme := str "host", Opaque := str "8200" },
      by decide!, rfl, rfl, by decide!, by decide!⟩⟩

/-- For a bare host name `h` that starts with a letter and
contains a dot (letters, digits, `.` and `-` only), followed by `:` and a
decimal port `p`, `normalizeAddr` returns `https://`, `h` in lower case, `:`,
`p` and `/`; so for a host name in lower case it returns
`https://h:p/`. -/
theorem normalizeAddr_host_port (h p : GoString) (hh : isDottedHostName h = true)
    (hp : isDecimal p = true) :
    normalizeAddr (h ++ str ":" ++ p) =
      str "https://" ++ strings.ToLower h ++ str ":" ++ p ++ str "/" ∧
    ((∀ c ∈ h, isUpper c = false) →
      normalizeAddr (h ++ str ":" ++ p) = str "https://" ++ h ++ str ":" ++ p ++ str "/") := by
  have key : normalizeAddr (h ++ str ":" ++ p) =
      str "https://" ++ strings.ToLower h ++ str ":" ++ p ++ str "/" := by
    have hparse := parse_host_port h p hh hp
    have hh2 := (isDottedHostName_iff h).1 hh
    obtain ⟨hn, _, hdot⟩ := hh2
    rw [isHostName_iff] at hn
    have hp2 := (isDecimal_iff p).1 hp
    have hx : h ++ str ":" ++ p = h ++ 58 :: p := by
      rw [str_colon]; simp
    have hxne : h ++ 58 :: p ≠ [] := by simp
    have hlne : strings.ToLower h ≠ [] := by
      unfold strings.ToLower
      intro e
      exact hn.1 (List.map_eq_nil_iff.1 e)
    have hldot : strings.Contains (strings.ToLower h) (str ".") = true := by
      rw [str_dot, contains_singleton, decide_eq_true_eq]
      unfold strings.ToLower
      rw [List.mem_map]
      exact ⟨46, hdot, by decide⟩
    have hnorm : normalizedURL
        ⟨strings.ToLower h, p, none, [], [], [], false, false, [], [], []⟩ =
        url.URL.https (strings.ToLower h ++ str ":" ++ p) (str "/") := by
      have e : strings.TrimRight [] (str "/") ++ str "/" = str "/" := by decide
      unfold normalizedURL url.URL.https
      simp only [if_neg hlne, hldot, if_true, hp2.1, ne_eq, not_false_eq_true, url.URL.zero]
      have hhost : strings.ToLower h ++ str ":" ++ p ≠ [] := by
        rw [str_colon]; simp
      simp only [if_neg hhost, e]
    have hhostne : strings.ToLower h ++ str ":" ++ p ≠ [] := by
      rw [str_colon]; simp
    have hhostb : ∀ c ∈ strings.ToLower h ++ str ":" ++ p,
        url.shouldEscape c url.encoding.encodeHost = false := by
      intro c hc
      rcases List.mem_append.1 hc with m | m
      · rcases List.mem_append.1 m with m | m
        · unfold strings.ToLower at m
          rw [List.mem_map] at m
          obtain ⟨d, hd, rfl⟩ := m
          exact toLower_hostNameByte d (hn.2 d hd)
        · rw [str_colon, List.mem_singleton] at m
          subst m; decide
      · exact (digit_facts c (hp2.2 c m)).1
    rw [hx, normalizeAddr_eq _ _ hxne hparse, hnorm,
      String_of_https _ (str "/") hhostne hhostb (by decide) (by decide) (by decide)]
    have e0 : (str "/").head? = some 47 := rfl
    rw [if_neg (fun c => c e0), List.append_nil]
    simp only [List.append_assoc]
  refine ⟨key, fun hlow => ?_⟩
  rw [key, toLower_of_no_upper h hlow]

set_option maxRecDepth 1000000 in
/-- An instance: `www.example.com:8200`, the input of the test `port`. -/
theorem normalizeAddr_host_port_witness :
    normalizeAddr (str "www.example.com:8200") = str "https://www.example.com:8200/" ∧
    normalizeAddr (str "www.example.com" ++ str ":" ++ str "8200") =
      str "https://" ++ str "www.example.com" ++ str ":" ++ str "8200" ++ str "/" :=
  ⟨by decide!,
    (normalizeAddr_host_port (str "www.example.com") (str "8200") (by decide) (by decide)).2
      (by decide)⟩

/-! ## Percent-encoding round trips -/

theorem decode_cons_of_ne (c : Byte) (rest : GoString) (hc : c ≠ 37) :
    url.decode (c :: rest) = c :: url.decode rest := by
  match rest with
  | [] => rfl
  | [a] =>
    show [c, a] = c :: url.decode [a]
    rfl
  | a :: b :: r2 =>
    rw [url.decode, if_neg (fun h => hc h.1)]

theorem decode_escaped (a b : Byte) (rest : GoString) (ha : url.ishex a = true)
    (hb : url.ishex b = true) :
    url.decode (37 :: a :: b :: rest) = (url.unhex a * 16 + url.unhex b) :: url.decode rest := by
  rw [url.decode, if_pos ⟨rfl, ha, hb⟩]

/-- What a successful `unescape` does to the first bytes of its input. -/
theorem unescape_cons_some (m : url.encoding) (hm : m ≠ url.encoding.encodeQueryComponent)
    (c : Byte) (rest y : GoString) (h : url.unescape m (c :: rest) = some y) :
    (c ≠ 37 ∧ ∃ t, url.unescape m rest = some t ∧ y = c :: t) ∨
    (c = 37 ∧ ∃ a b rest2 t, rest = a :: b :: rest2 ∧ url.ishex a = true ∧ url.ishex b = true ∧
      url.unescape m rest2 = some t ∧ y = (url.unhex a * 16 + url.unhex b) :: t) := by
  unfold url.unescape at h
  by_cases hc : c = 37
  · right
    rw [if_pos hc] at h
    match rest, h with
    | [], h => simp at h
    | [a], h => simp at h
    | a :: b :: rest2, h =>
      simp only at h
      by_cases hx : url.ishex a = false ∨ url.ishex b = false
      · rw [if_pos hx] at h; simp at h
      · rw [if_neg hx] at h
        have ha : url.ishex a = true := by
          cases ha : url.ishex a with
          | true => rfl
          | false => exact absurd (Or.inl ha) hx
        have hb : url.ishex b = true := by
          cases hb : url.ishex b with
          | true => rfl
          | false => exact absurd (Or.inr hb) hx
        split at h
        · simp at h
        · split at h
          · simp at h
          · cases hr : url.unescape m rest2 with
            | none => rw [hr] at h; simp at h
            | some t =>
              rw [hr] at h
              simp only [Option.map_some', Option.some.injEq] at h
              exact ⟨hc, a, b, rest2, t, rfl, ha, hb, hr, h.symm⟩
  · left
    rw [if_neg hc] at h
    split at h
    · simp at h
    · rw [if_neg (fun hh => hm hh.2)] at h
      cases hr : url.unescape m rest with
      | none => rw [hr] at h; simp at h
      | some t =>
        rw [hr] at h
        simp only [Option.map_some', Option.some.injEq] at h
        exact ⟨hc, t, rfl, h.symm⟩

theorem decode_of_unescape (m : url.encoding) (hm : m ≠ url.encoding.encodeQueryComponent) :
    ∀ (n : Nat) (x y : GoString), x.length ≤ n → url.unescape m x = some y → y = url.decode x
  | _, [], y, _, h => by
    simp only [url.unescape, Option.some.injEq] at h
    rw [← h]; rfl
  | 0, c :: rest, _, hl, _ => by simp at hl
  | n + 1, c :: rest, y, hl, h => by
    have hl2 : rest.length ≤ n := by simpa using hl
    rcases unescape_cons_some m hm c rest y h with ⟨hc, t, ht, rfl⟩ |
      ⟨hc, a, b, rest2, t, rfl, ha, hb, ht, rfl⟩
    · rw [decode_cons_of_ne c rest hc, decode_of_unescape m hm n rest t hl2 ht]
    · subst hc
      have hl3 : rest2.length ≤ n := by simp at hl2; omega
      rw [decode_escaped a b rest2 ha hb, decode_of_unescape m hm n rest2 t hl3 ht]

theorem decode_append_of_unescape (m : url.encoding)
    (hm : m ≠ url.encoding.encodeQueryComponent) (z : GoString) :
    ∀ (n : Nat) (x y : GoString), x.length ≤ n → url.unescape m x = some y →
      url.decode (x ++ z) = url.decode x ++ url.decode z
  | _, [], _, _, _ => rfl
  | 0, c :: rest, _, hl, _ => by simp at hl
  | n + 1, c :: rest, y, hl, h => by
    have hl2 : rest.length ≤ n := by simpa using hl
    rcases unescape_cons_some m hm c rest y h with ⟨hc, t, ht, rfl⟩ |
      ⟨hc, a, b, rest2, t, rfl, ha, hb, ht, rfl⟩
    · rw [List.cons_append, decode_cons_of_ne c _ hc, decode_cons_of_ne c rest hc,
        decode_append_of_unescape m hm z n rest t hl2 ht, List.cons_append]
    · subst hc
      have hl3 : rest2.length ≤ n := by simp at hl2; omega
      show url.decode (37 :: a :: b :: (rest2 ++ z)) = _
      rw [decode_escaped a b _ ha hb, decode_escaped a b rest2 ha hb,
        decode_append_of_unescape m hm z n rest2 t hl3 ht, List.cons_append]

set_option maxRecDepth 100000 in
theorem upperhex_facts : ∀ c : Byte,
    url.ishex (url.upperhex (c.val / 16)) = true ∧ url.ishex (url.upperhex (c.val % 16)) = true ∧
    url.unhex (url.upperhex (c.val / 16)) * 16 + url.unhex (url.upperhex (c.val % 16)) = c := by
  decide

set_option maxRecDepth 100000 in
theorem shouldEscape_percent (m : url.encoding) : url.shouldEscape 37 m = true := by
  cases m <;> decide

/-- The three forms of the image of one byte under `escape`. -/
theorem escape_cons (c : Byte) (x : GoString) (m : url.encoding)
    (hm : m ≠ url.encoding.encodeQueryComponent) :
    (url.shouldEscape c m = true ∧ url.escape (c :: x) m =
      37 :: url.upperhex (c.val / 16) :: url.upperhex (c.val % 16) :: url.escape x m) ∨
    (url.shouldEscape c m = false ∧ c ≠ 37 ∧ url.escape (c :: x) m = c :: url.escape x m) := by
  unfold url.escape
  rw [List.flatMap_cons, if_neg (fun hh => hm hh.2)]
  cases hs : url.shouldEscape c m with
  | true => left; exact ⟨rfl, rfl⟩
  | false =>
    right
    refine ⟨rfl, ?_, rfl⟩
    intro e; subst e
    rw [shouldEscape_percent m] at hs
    exact Bool.noConfusion hs

theorem decode_escape (m : url.encoding) (hm : m ≠ url.encoding.encodeQueryComponent) :
    ∀ x : GoString, url.decode (url.escape x m) = x
  | [] => rfl
  | c :: x => by
    have ih := decode_escape m hm x
    rcases escape_cons c x m hm with ⟨_, e⟩ | ⟨_, hc, e⟩
    · have hf := upperhex_facts c
      rw [e, decode_escaped _ _ _ hf.1 hf.2.1, hf.2.2, ih]
    · rw [e, decode_cons_of_ne c _ hc, ih]

/-- Outside the host, escaping and then unescaping in the same mode succeeds
and gives the text back. -/
theorem unescape_escape (m : url.encoding)
    (hm : m = url.encoding.encodePath ∨ m = url.encoding.encodeUserPassword ∨
      m = url.encoding.encodeFragment) :
    ∀ x : GoString, url.unescape m (url.escape x m) = some x
  | [] => rfl
  | c :: x => by
    have hq : m ≠ url.encoding.encodeQueryComponent := by
      rcases hm with h | h | h <;> rw [h] <;> decide
    have hh : ¬ (m = url.encoding.encodeHost ∨ m = url.encoding.encodeZone) := by
      rcases hm with h | h | h <;> rw [h] <;> decide
    have ih := unescape_escape m hm x
    rcases escape_cons c x m hq with ⟨_, e⟩ | ⟨_, hc, e⟩
    · have hf := upperhex_facts c
      rw [e]
      unfold url.unescape
      rw [if_pos rfl]
      simp only
      rw [if_neg (by simp [hf.1, hf.2.1]), if_neg (fun h => hh (Or.inl h.1)),
        if_neg (fun h => hh (Or.inr h.1)), ih, hf.2.2]
      rfl
    · rw [e]
      unfold url.unescape
      rw [if_neg hc, if_neg (fun h => hh h.1), if_neg (fun h => hq h.2), ih]
      rfl

/-- In any mode: if unescaping an escaped text succeeds, it gives the text back. -/
theorem unescape_escape_some (m m2 : url.encoding)
    (hm : m ≠ url.encoding.encodeQueryComponent) (hm2 : m2 ≠ url.encoding.encodeQueryComponent)
    (x y : GoString) (h : url.unescape m2 (url.escape x m) = some y) : y = x := by
  rw [decode_of_unescape m2 hm2 _ _ y (le_refl _) h, decode_escape m hm]

/-! ## Bytes of escaped text -/

/-- The bytes that can occur in `escape x m`. -/
theorem mem_escape (m : url.encoding) (hm : m ≠ url.encoding.encodeQueryComponent) (d : Byte) :
    ∀ x : GoString, d ∈ url.escape x m →
      d = 37 ∨ url.ishex d = true ∨ url.shouldEscape d m = false
  | [], h => by simp [url.escape] at h
  | c :: x, h => by
    have hf := upperhex_facts c
    rcases escape_cons c x m hm with ⟨_, e⟩ | ⟨hs, _, e⟩
    · rw [e] at h
      rcases List.mem_cons.1 h with e1 | h
      · exact Or.inl e1
      · rcases List.mem_cons.1 h with e1 | h
        · exact Or.inr (Or.inl (e1 ▸ hf.1))
        · rcases List.mem_cons.1 h with e1 | h
          · exact Or.inr (Or.inl (e1 ▸ hf.2.1))
          · exact mem_escape m hm d x h
    · rw [e] at h
      rcases List.mem_cons.1 h with e1 | h
      · exact Or.inr (Or.inr (e1 ▸ hs))
      · exact mem_escape m hm d x h

set_option maxRecDepth 100000 in
theorem escaped_host_byte : ∀ d : Byte,
    (d = 37 ∨ url.ishex d = true ∨ url.shouldEscape d url.encoding.encodeHost = false) →
    d ≠ 35 ∧ d ≠ 63 ∧ d ≠ 47 ∧ d ≠ 64 ∧ (d < 32 || d = 127) = false := by
  decide

set_option maxRecDepth 100000 in
theorem escaped_user_byte : ∀ d : Byte,
    (d = 37 ∨ url.ishex d = true ∨ url.shouldEscape d url.encoding.encodeUserPassword = false) →
    d ≠ 35 ∧ d ≠ 63 ∧ d ≠ 47 ∧ d ≠ 64 ∧ d ≠ 58 ∧ (d < 32 || d = 127) = false ∧
    (isUpper d || isLower d || isDigit d || d ∈ str "-._:~!$&'()*+,;=%@") = true := by
  decide

set_option maxRecDepth 100000 in
theorem escaped_path_byte : ∀ d : Byte,
    (d = 37 ∨ url.ishex d = true ∨ url.shouldEscape d url.encoding.encodePath = false ∨
      (d ∈ str "!$&'()*+,;=:@[]%" || !url.shouldEscape d url.encoding.encodePath) = true) →
    d ≠ 35 ∧ d ≠ 63 ∧ (d < 32 || d = 127) = false := by
  decide

set_option maxRecDepth 100000 in
theorem escaped_fragment_byte : ∀ d : Byte,
    (d = 37 ∨ url.ishex d = true ∨ url.shouldEscape d url.encoding.encodeFragment = false ∨
      (d ∈ str "!$&'()*+,;=:@[]%" || !url.shouldEscape d url.encoding.encodeFragment) = true) →
    True := by
  decide

theorem escape_eq_nil (m : url.encoding) (hm : m ≠ url.encoding.encodeQueryComponent)
    (x : GoString) (h : url.escape x m = []) : x = [] := by
  cases x with
  | nil => rfl
  | cons c x =>
    rcases escape_cons c x m hm with ⟨_, e⟩ | ⟨_, _, e⟩ <;> rw [e] at h <;> simp at h

theorem escape_head_slash (x : GoString) :
    (url.escape x url.encoding.encodePath).head? = some 47 ↔ x.head? = some 47 := by
  cases x with
  | nil => simp [url.escape]
  | cons c x =>
    rcases escape_cons c x url.encoding.encodePath (by decide) with ⟨hs, e⟩ | ⟨hs, _, e⟩
    · rw [e]
      simp only [List.head?_cons, Option.some.injEq]
      constructor
      · intro h; exact absurd h (by decide)
      · intro h; subst h; revert hs; decide
    · rw [e]; simp

theorem escape_slash_cons (x : GoString) :
    url.escape (47 :: x) url.encoding.encodePath = 47 :: url.escape x url.encoding.encodePath := by
  rcases escape_cons 47 x url.encoding.encodePath (by decide) with ⟨hs, _⟩ | ⟨_, _, e⟩
  · exact absurd hs (by decide)
  · exact e

/-! ## Parsing a URL text of the form `scheme://authority/path?query` -/

theorem query_split (B RQ : GoString) (fq : Bool) (hB : (63 : Byte) ∉ B)
    (hfq : fq = true → RQ = []) :
    (decide ((B ++ queryText fq RQ).getLast? = some 63) &&
      decide ((B ++ queryText fq RQ).count 63 = 1)) = fq ∧
    (if fq = true then (B ++ queryText fq RQ).dropLast
      else (strings.Cut (B ++ queryText fq RQ) [63]).1) = B ∧
    (if fq = true then [] else (strings.Cut (B ++ queryText fq RQ) [63]).2.1) = RQ := by
  have hcB : B.count 63 = 0 := List.count_eq_zero.2 hB
  cases fq with
  | true =>
    have hRQ := hfq rfl
    subst hRQ
    have hq : queryText true [] = [63] := rfl
    rw [hq]
    refine ⟨?_, ?_, ?_⟩
    · simp [List.count_append, hcB]
    · simp
    · simp
  | false =>
    by_cases hRQ : RQ = []
    · subst hRQ
      have hq : queryText false [] = [] := rfl
      rw [hq, List.append_nil, cut_of_not_mem 63 B hB]
      refine ⟨?_, ?_, ?_⟩
      · simp [hcB]
      · simp
      · simp
    · have hq : queryText false RQ = 63 :: RQ := by
        unfold queryText
        rw [if_pos (Or.inr hRQ)]
      rw [hq, cut_at 63 RQ B hB]
      refine ⟨?_, ?_, ?_⟩
      · rw [Bool.and_eq_false_iff]
        by_cases hl : (B ++ 63 :: RQ).getLast? = some 63
        · right
          have hl2 : RQ.getLast? = some 63 := by
            rw [List.getLast?_append] at hl
            rw [List.getLast?_cons] at hl
            cases hg : RQ.getLast? with
            | none =>
              exact absurd (List.getLast?_eq_none_iff.1 hg) hRQ
            | some x =>
              rw [hg] at hl
              simpa using hl
          have hm : (63 : Byte) ∈ RQ := List.mem_of_getLast?_eq_some hl2
          have hc : 0 < RQ.count 63 := List.count_pos_iff.2 hm
          simp only [List.count_append, hcB, List.count_cons_self, decide_eq_false_iff_not]
          omega
        · left
          exact decide_eq_false hl
      · simp
      · simp

theorem isPlainScheme_bytes (sc : GoString) (hsc : isPlainScheme sc = true) :
    ∀ d ∈ sc, (isLower d || isDigit d || d = 43 || d = 45) = true := by
  rw [isPlainScheme_iff] at hsc
  obtain ⟨c0, cs0, rfl, hc0, hcs0⟩ := hsc
  intro d hd
  rcases List.mem_cons.1 hd with e | m
  · subst e; simp [hc0]
  · exact hcs0 d m

theorem getScheme_of_plain (sc rest : GoString) (hsc : isPlainScheme sc = true) :
    url.getScheme (sc ++ 58 :: rest) = some (sc, rest) := by
  rw [isPlainScheme_iff] at hsc
  obtain ⟨c0, cs0, rfl, hc0, hcs0⟩ := hsc
  unfold url.getScheme
  show url.getSchemeFrom _ [] (c0 :: (cs0 ++ 58 :: rest)) = _
  have hl : (isLower c0 || isUpper c0) = true := by simp [hc0]
  simp only [url.getSchemeFrom, hl, if_true, List.nil_append]
  rw [getSchemeFrom_scheme _ _ cs0 [c0] (by simp) hcs0]
  rfl

/-- Parsing `scheme://authority path ?query` (without fragment): the scheme and
the query are split off, the authority goes to `parseAuthority`, the path to
`setPath`. -/
theorem parse_of_shape (sc A PP RQ : GoString) (fq : Bool)
    (hsc : isPlainScheme sc = true)
    (hA : ∀ c ∈ A, c ≠ 63 ∧ c ≠ 47 ∧ (c < 32 || c = 127) = false)
    (hhead : PP.head? = some 47)
    (hPP : ∀ c ∈ PP, c ≠ 63 ∧ (c < 32 || c = 127) = false)
    (hRQ : ∀ c ∈ RQ, (c < 32 || c = 127) = false) (hfq : fq = true → RQ = []) :
    url.parse (sc ++ 58 :: 47 :: 47 :: (A ++ PP) ++ queryText fq RQ) =
      match url.parseAuthority A with
      | none => none
      | some (user, host) =>
        url.URL.setPath { url.URL.zero with
          Scheme := sc, ForceQuery := fq, RawQuery := RQ, User := user, Host := host } PP := by
  have hscb := isPlainScheme_bytes sc hsc
  have hscne : sc ≠ [] := by
    intro e; subst e; simp [isPlainScheme] at hsc
  have hB : (63 : Byte) ∉ (47 : Byte) :: 47 :: (A ++ PP) := by
    intro m
    rcases List.mem_cons.1 m with e | m
    · exact absurd e (by decide)
    · rcases List.mem_cons.1 m with e | m
      · exact absurd e (by decide)
      · rcases List.mem_append.1 m with m | m
        · exact (hA 63 m).1 rfl
        · exact (hPP 63 m).1 rfl
  have hqs := query_split ((47 : Byte) :: 47 :: (A ++ PP)) RQ fq hB hfq
  have hqt : ∀ c ∈ queryText fq RQ, (c < 32 || c = 127) = false := by
    intro c hc
    unfold queryText at hc
    split at hc
    · rcases List.mem_cons.1 hc with e | m
      · subst e; decide
      · exact hRQ c m
    · exact absurd hc (List.not_mem_nil _)
  have e0 : sc ++ 58 :: 47 :: 47 :: (A ++ PP) ++ queryText fq RQ =
      sc ++ 58 :: ((47 : Byte) :: 47 :: (A ++ PP) ++ queryText fq RQ) := by simp
  have hctl : url.stringContainsCTLByte
      (sc ++ 58 :: ((47 : Byte) :: 47 :: (A ++ PP) ++ queryText fq RQ)) = false := by
    unfold url.stringContainsCTLByte
    rw [List.any_eq_false]
    intro c hc
    have : (c < 32 || c = 127) = false := by
      rcases List.mem_append.1 hc with m | m
      · exact (schemeByte_facts c (hscb c m)).2.2.2.2.2.1
      · rcases List.mem_cons.1 m with e | m
        · subst e; decide
        · rcases List.mem_append.1 m with m | m
          · rcases List.mem_cons.1 m with e | m
            · subst e; decide
            · rcases List.mem_cons.1 m with e | m
              · subst e; decide
              · rcases List.mem_append.1 m with m | m
                · exact (hA c m).2.2
                · exact (hPP c m).2
          · exact hqt c m
    rw [this]
    exact Bool.false_ne_true
  have hstar : sc ++ 58 :: ((47 : Byte) :: 47 :: (A ++ PP) ++ queryText fq RQ) ≠ str "*" := by
    intro e
    have := congrArg List.length e
    have h1 : (str "*").length = 1 := rfl
    simp [h1] at this
    omega
  have hgs := getScheme_of_plain sc ((47 : Byte) :: 47 :: (A ++ PP) ++ queryText fq RQ) hsc
  have hlow : strings.ToLower sc = sc :=
    toLower_of_no_upper _ (fun c hc => (schemeByte_facts c (hscb c hc)).2.2.2.2.1)
  have h47 : (47 : Byte) ∉ A := fun m => (hA 47 m).2.1 rfl
  have hcuta : (strings.Cut (A ++ PP) [47]).1 = A := cut_fst_authority A PP h47 (Or.inr hhead)
  rw [e0]
  unfold url.parse
  rw [hctl, if_neg Bool.false_ne_true, if_neg hstar, hgs]
  simp only [str_slash, str_slash2, str_slash3, str_question, hlow]
  rw [hqs.1, hqs.2.1, hqs.2.2]
  simp only [List.isPrefixOf, List.drop]
  simp only [hcuta, List.drop_left]
  simp only [hscne, url.URL.zero, ne_eq, not_false_eq_true, true_or, and_self, if_true,
    not_true_eq_false, false_and, if_false, and_true]
  cases url.parseAuthority A with
  | none => rfl
  | some p => rfl

/-! ## The authority of a written URL, parsed again -/

theorem cut_true : ∀ (s sep a b : GoString), strings.Cut s sep = (a, b, true) →
    s = a ++ sep ++ b
  | [], sep, a, b, h => by
    simp only [strings.Cut, Prod.mk.injEq, List.isEmpty_eq_true] at h
    obtain ⟨rfl, rfl, rfl⟩ := h
    rfl
  | x :: xs, sep, a, b, h => by
    unfold strings.Cut at h
    by_cases hp : sep.isPrefixOf (x :: xs) = true
    · rw [if_pos hp] at h
      simp only [Prod.mk.injEq, and_true] at h
      obtain ⟨rfl, rfl⟩ := h
      rw [List.isPrefixOf_iff_prefix] at hp
      obtain ⟨t, ht⟩ := hp
      rw [← ht]
      simp
    · rw [if_neg hp] at h
      cases hc : strings.Cut xs sep with
      | mk a2 r =>
        obtain ⟨b2, found⟩ := r
        rw [hc] at h
        cases found with
        | false => simp at h
        | true =>
          simp only [Prod.mk.injEq, and_true] at h
          obtain ⟨rfl, rfl⟩ := h
          rw [cut_true xs sep a2 b2 hc]
          simp

theorem lastCut_some (s : GoString) (c : Byte) (a b : GoString)
    (h : strings.LastCut s c = some (a, b)) : s = a ++ c :: b := by
  unfold strings.LastCut at h
  cases hc : strings.Cut s.reverse [c] with
  | mk a2 r =>
    obtain ⟨b2, found⟩ := r
    rw [hc] at h
    cases found with
    | false => simp at h
    | true =>
      simp only [Option.some.injEq, Prod.mk.injEq] at h
      obtain ⟨rfl, rfl⟩ := h
      have := cut_true _ _ _ _ hc
      have h2 := congrArg List.reverse this
      simpa using h2

/-- Parsing the escaped form of a host gives the host back, unless it fails. -/
theorem parseHost_escape (h : GoString) :
    url.parseHost (url.escape h url.encoding.encodeHost) = none ∨
    url.parseHost (url.escape h url.encoding.encodeHost) = some h := by
  have hu : ∀ y, url.unescape url.encoding.encodeHost
      (url.escape h url.encoding.encodeHost) = some y → y = h :=
    fun y hy => unescape_escape_some _ _ (by decide) (by decide) _ _ hy
  have hu2 : url.unescape url.encoding.encodeHost (url.escape h url.encoding.encodeHost) = none ∨
      url.unescape url.encoding.encodeHost (url.escape h url.encoding.encodeHost) = some h := by
    cases hr : url.unescape url.encoding.encodeHost (url.escape h url.encoding.encodeHost) with
    | none => exact Or.inl rfl
    | some y => rw [hu y hr]; exact Or.inr rfl
  generalize hE : url.escape h url.encoding.encodeHost = E at hu hu2
  unfold url.parseHost
  split
  · cases hl : strings.LastCut E 93 with
    | none => exact Or.inl rfl
    | some p =>
      obtain ⟨before, colonPort⟩ := p
      simp only
      split
      · exact Or.inl rfl
      · cases hz : strings.Cut before (str "%25") with
        | mk host1 r =>
          obtain ⟨z, found⟩ := r
          cases found with
          | false => exact hu2
          | true =>
            simp only
            cases h1 : url.unescape url.encoding.encodeHost host1 with
            | none => exact Or.inl rfl
            | some y1 =>
              cases h2 : url.unescape url.encoding.encodeZone (str "%25" ++ z) with
              | none => exact Or.inl rfl
              | some y2 =>
                cases h3 : url.unescape url.encoding.encodeHost (93 :: colonPort) with
                | none => exact Or.inl rfl
                | some y3 =>
                  right
                  simp only [Option.some.injEq]
                  have e1 := lastCut_some E 93 before colonPort hl
                  have e2 := cut_true before _ host1 z hz
                  have d1 := decode_of_unescape _ (by decide) _ _ _ (le_refl _) h1
                  have d2 := decode_of_unescape _ (by decide) _ _ _ (le_refl _) h2
                  have d3 := decode_of_unescape _ (by decide) _ _ _ (le_refl _) h3
                  have a1 := decode_append_of_unescape _ (by decide)
                    ((str "%25" ++ z) ++ 93 :: colonPort) _ _ _ (le_refl _) h1
                  have a2 := decode_append_of_unescape _ (by decide)
                    (93 :: colonPort) _ _ _ (le_refl _) h2
                  have hd : url.decode E = h := by
                    rw [← hE]; exact decode_escape _ (by decide) h
                  rw [e1, e2] at hd
                  have e3 : host1 ++ str "%25" ++ z ++ 93 :: colonPort =
                      host1 ++ ((str "%25" ++ z) ++ 93 :: colonPort) := by simp
                  rw [e3, a1, a2, ← d1, ← d2, ← d3] at hd
                  rw [← hd]; simp
  · cases hl : strings.LastCut E 58 with
    | none => exact hu2
    | some p =>
      simp only
      split
      · exact Or.inl rfl
      · exact hu2

theorem mem_escape_user (x : GoString) :
    ∀ d ∈ url.escape x url.encoding.encodeUserPassword,
      d ≠ 35 ∧ d ≠ 63 ∧ d ≠ 47 ∧ d ≠ 64 ∧ d ≠ 58 ∧ (d < 32 || d = 127) = false ∧
      (isUpper d || isLower d || isDigit d || d ∈ str "-._:~!$&'()*+,;=%@") = true :=
  fun d hd => escaped_user_byte d (mem_escape _ (by decide) d x hd)

theorem mem_escape_host (x : GoString) :
    ∀ d ∈ url.escape x url.encoding.encodeHost,
      d ≠ 35 ∧ d ≠ 63 ∧ d ≠ 47 ∧ d ≠ 64 ∧ (d < 32 || d = 127) = false :=
  fun d hd => escaped_host_byte d (mem_escape _ (by decide) d x hd)

/-- The bytes of the user information as written by `String`. -/
theorem mem_userinfo_string (ui : url.Userinfo) :
    ∀ d ∈ ui.String,
      d ≠ 35 ∧ d ≠ 63 ∧ d ≠ 47 ∧ d ≠ 64 ∧ (d < 32 || d = 127) = false ∧
      (isUpper d || isLower d || isDigit d || d ∈ str "-._:~!$&'()*+,;=%@") = true := by
  intro d hd
  unfold url.Userinfo.String at hd
  rcases List.mem_append.1 hd with m | m
  · have := mem_escape_user _ d m
    exact ⟨this.1, this.2.1, this.2.2.1, this.2.2.2.1, this.2.2.2.2.2.1, this.2.2.2.2.2.2⟩
  · split at m
    · rw [str_colon] at m
      rcases List.mem_append.1 m with m | m
      · rw [List.mem_singleton.1 m]; decide
      · have := mem_escape_user _ d m
        exact ⟨this.1, this.2.1, this.2.2.1, this.2.2.2.1, this.2.2.2.2.2.1, this.2.2.2.2.2.2⟩
    · exact absurd m (List.not_mem_nil _)

/-- Parsing the authority that `String` writes gives the user information and
the host back, unless it fails. -/
theorem parseAuthority_text (user : Option url.Userinfo) (host : GoString)
    (hpw : ∀ ui, user = some ui → ui.passwordSet = false → ui.password = []) :
    url.parseAuthority (userText user ++ url.escape host url.encoding.encodeHost) = none ∨
    url.parseAuthority (userText user ++ url.escape host url.encoding.encodeHost) =
      some (user, host) := by
  have h64 : (64 : Byte) ∉ url.escape host url.encoding.encodeHost :=
    fun m => (mem_escape_host host 64 m).2.2.2.1 rfl
  cases user with
  | none =>
    show url.parseAuthority ([] ++ _) = none ∨ url.parseAuthority ([] ++ _) = _
    rw [List.nil_append]
    unfold url.parseAuthority
    rw [lastCut_of_not_mem 64 _ h64]
    rcases parseHost_escape host with e | e
    · left; rw [e]; rfl
    · right; rw [e]; rfl
  | some ui =>
    show url.parseAuthority ((ui.String ++ [64]) ++ _) = none ∨
      url.parseAuthority ((ui.String ++ [64]) ++ _) = _
    have e0 : (ui.String ++ [64]) ++ url.escape host url.encoding.encodeHost =
        ui.String ++ 64 :: url.escape host url.encoding.encodeHost := by simp
    rw [e0]
    unfold url.parseAuthority
    rw [lastCut_at 64 _ _ h64]
    simp only
    rcases parseHost_escape host with e | e
    · left; rw [e]
    · rw [e]
      simp only
      have hv : url.validUserinfo ui.String = true := by
        unfold url.validUserinfo
        rw [List.all_eq_true]
        intro d hd
        exact (mem_userinfo_string ui d hd).2.2.2.2.2
      rw [hv]
      simp only [Bool.true_eq_false, if_false]
      have h58 : (58 : Byte) ∉ url.escape ui.username url.encoding.encodeUserPassword :=
        fun m => (mem_escape_user _ 58 m).2.2.2.2.1 rfl
      have hun := unescape_escape url.encoding.encodeUserPassword (Or.inr (Or.inl rfl))
        ui.username
      have hpn := unescape_escape url.encoding.encodeUserPassword (Or.inr (Or.inl rfl))
        ui.password
      obtain ⟨un, pw, ps⟩ := ui
      cases ps with
      | true =>
        right
        have es : url.Userinfo.String ⟨un, pw, true⟩ =
            url.escape un url.encoding.encodeUserPassword ++
              58 :: url.escape pw url.encoding.encodeUserPassword := by
          unfold url.Userinfo.String
          rw [str_colon]; simp
        rw [es, str_colon, cut_at 58 _ _ h58]
        simp only [hun, hpn]
      | false =>
        right
        have hpw0 : pw = [] := hpw ⟨un, pw, false⟩ rfl rfl
        subst hpw0
        have es : url.Userinfo.String ⟨un, [], false⟩ =
            url.escape un url.encoding.encodeUserPassword := by
          unfold url.Userinfo.String
          simp
        rw [es, str_colon, cut_of_not_mem 58 _ h58]
        simp only [hun, Option.map_some']

/-! ## The path and the fragment of a written URL, parsed again -/

theorem setPath_eq (v : url.URL) (PP Pth : GoString)
    (hun : url.unescape url.encoding.encodePath PP = some Pth) :
    v.setPath PP = some { v with
      Path := Pth,
      RawPath := if PP = url.escape Pth url.encoding.encodePath then [] else PP } := by
  unfold url.URL.setPath
  rw [hun]

theorem setFragment_eq (v : url.URL) (FF Frg : GoString)
    (hun : url.unescape url.encoding.encodeFragment FF = some Frg) :
    v.setFragment FF = some { v with
      Fragment := Frg,
      RawFragment := if FF = url.escape Frg url.encoding.encodeFragment then [] else FF } := by
  unfold url.URL.setFragment
  rw [hun]

/-- The escaped path of a URL whose path was set from the text `PP`. -/
theorem escapedPath_of_setPath (w : url.URL) (PP : GoString)
    (hun : url.unescape url.encoding.encodePath PP = some w.Path)
    (hform : PP = url.escape w.Path url.encoding.encodePath ∨
      url.validEncoded PP url.encoding.encodePath = true)
    (hstar : w.Path ≠ str "*")
    (hraw : w.RawPath = if PP = url.escape w.Path url.encoding.encodePath then [] else PP) :
    w.EscapedPath = PP := by
  unfold url.URL.EscapedPath
  by_cases he : PP = url.escape w.Path url.encoding.encodePath
  · rw [if_pos he] at hraw
    rw [hraw]
    simp [hstar, he]
  · rw [if_neg he] at hraw
    rcases hform with h | h
    · exact absurd h he
    · rw [hraw]
      have hne : PP ≠ [] := by
        intro e
        subst e
        simp only [url.unescape, Option.some.injEq] at hun
        rw [← hun] at he
        exact he rfl
      rw [if_pos ⟨hne, h, hun⟩]

/-- The escaped fragment of a URL whose fragment was set from the text `FF`. -/
theorem escapedFragment_of_setFragment (w : url.URL) (FF : GoString)
    (hun : url.unescape url.encoding.encodeFragment FF = some w.Fragment)
    (hform : FF = url.escape w.Fragment url.encoding.encodeFragment ∨
      url.validEncoded FF url.encoding.encodeFragment = true)
    (hraw : w.RawFragment =
      if FF = url.escape w.Fragment url.encoding.encodeFragment then [] else FF) :
    w.EscapedFragment = FF := by
  unfold url.URL.EscapedFragment
  by_cases he : FF = url.escape w.Fragment url.encoding.encodeFragment
  · rw [if_pos he] at hraw
    rw [hraw]
    simp [he]
  · rw [if_neg he] at hraw
    rcases hform with h | h
    · exact absurd h he
    · rw [hraw]
      have hne : FF ≠ [] := by
        intro e
        subst e
        simp only [url.unescape, Option.some.injEq] at hun
        rw [← hun] at he
        exact he rfl
      rw [if_pos ⟨hne, h, hun⟩]

/-- The escaped fragment of any URL unescapes to its fragment and is either the
escape of the fragment or validly encoded. -/
theorem escapedFragment_spec (u : url.URL) :
    url.unescape url.encoding.encodeFragment u.EscapedFragment = some u.Fragment ∧
    (u.EscapedFragment = url.escape u.Fragment url.encoding.encodeFragment ∨
      url.validEncoded u.EscapedFragment url.encoding.encodeFragment = true) := by
  unfold url.URL.EscapedFragment
  split
  · rename_i h
    exact ⟨h.2.2, Or.inr h.2.1⟩
  · exact ⟨unescape_escape _ (Or.inr (Or.inr rfl)) _, Or.inl rfl⟩

/-- The escaped path of any URL whose path is not `*` unescapes to its path and
is either the escape of the path or validly encoded. -/
theorem escapedPath_spec (u : url.URL) (hstar : u.Path ≠ str "*") :
    url.unescape url.encoding.encodePath u.EscapedPath = some u.Path ∧
    (u.EscapedPath = url.escape u.Path url.encoding.encodePath ∨
      (u.EscapedPath = u.RawPath ∧ u.RawPath ≠ [] ∧
        url.validEncoded u.RawPath url.encoding.encodePath = true ∧
        url.unescape url.encoding.encodePath u.RawPath = some u.Path)) := by
  unfold url.URL.EscapedPath
  split
  · rename_i h
    exact ⟨h.2.2, Or.inr ⟨rfl, h.1, h.2.1, h.2.2⟩⟩
  · exact ⟨unescape_escape _ (Or.inl rfl) _, Or.inl rfl⟩

theorem normalizedURL_fixed (w : url.URL) (hsc : w.Scheme ≠ [])
    (hdot : strings.Contains w.Scheme (str ".") = false) (hh : w.Host ≠ [])
    (hp : strings.TrimRight w.Path (str "/") ++ str "/" = w.Path) : normalizedURL w = w := by
  unfold normalizedURL
  simp only [if_neg hsc, hdot, Bool.false_eq_true, if_false, if_neg hh, hp]

/-! ## Parsing the text of a normalised URL -/

/-- The facts about a URL under which its text is a fixed point of
`normalizeAddr`. -/
theorem pathText_facts (u : url.URL) (hone : endsInOneSlash u.Path = true)
    (hraw : u.EscapedPath = url.escape u.Path url.encoding.encodePath ∨
      u.EscapedPath.head? = some 47) :
    (pathText u).head? = some 47 ∧
    (∀ c ∈ pathText u, c ≠ 35 ∧ c ≠ 63 ∧ (c < 32 || c = 127) = false) ∧
    ∃ Pw, endsInOneSlash Pw = true ∧
      url.unescape url.encoding.encodePath (pathText u) = some Pw ∧
      (pathText u = url.escape Pw url.encoding.encodePath ∨
        url.validEncoded (pathText u) url.encoding.encodePath = true) := by
  have hstar := endsInOneSlash_ne_star _ hone
  have hne := endsInOneSlash_ne_nil _ hone
  have hspec := escapedPath_spec u hstar
  have hbytes : ∀ c ∈ u.EscapedPath, c ≠ 35 ∧ c ≠ 63 ∧ (c < 32 || c = 127) = false := by
    intro c hc
    rcases hspec.2 with e | ⟨e, _, hv, _⟩
    · rw [e] at hc
      rcases mem_escape _ (by decide) c _ hc with h | h | h
      · exact escaped_path_byte c (Or.inl h)
      · exact escaped_path_byte c (Or.inr (Or.inl h))
      · exact escaped_path_byte c (Or.inr (Or.inr (Or.inl h)))
    · rw [e] at hc
      unfold url.validEncoded at hv
      rw [List.all_eq_true] at hv
      exact escaped_path_byte c (Or.inr (Or.inr (Or.inr (hv c hc))))
  have hEne : u.EscapedPath ≠ [] := by
    intro e
    rw [e] at hspec
    simp only [url.unescape, Option.some.injEq] at hspec
    exact hne hspec.1.symm
  by_cases hh : u.EscapedPath.head? = some 47
  · have hpt : pathText u = u.EscapedPath := by
      unfold pathText
      rw [if_neg (fun h => h.2 hh)]
      rfl
    rw [hpt]
    refine ⟨hh, hbytes, u.Path, hone, hspec.1, ?_⟩
    rcases hspec.2 with e | ⟨e, _, hv, _⟩
    · exact Or.inl e
    · right; rw [e]; exact hv
  · have hesc : u.EscapedPath = url.escape u.Path url.encoding.encodePath := by
      rcases hraw with e | e
      · exact e
      · exact absurd e hh
    have hpt : pathText u = 47 :: url.escape u.Path url.encoding.encodePath := by
      unfold pathText
      rw [if_pos ⟨hEne, hh⟩, hesc]
      rfl
    have hph : u.Path.head? ≠ some 47 := by
      intro h
      exact hh (by rw [hesc]; exact (escape_head_slash _).2 h)
    rw [hpt]
    refine ⟨rfl, ?_, 47 :: u.Path, endsInOneSlash_cons _ _ hone hph, ?_, ?_⟩
    · intro c hc
      rcases List.mem_cons.1 hc with e | m
      · subst e; decide
      · rw [← hesc] at m; exact hbytes c m
    · rw [← escape_slash_cons]
      exact unescape_escape _ (Or.inl rfl) _
    · left; exact (escape_slash_cons _).symm

theorem isPlainScheme_no_dot (sc : GoString) (hsc : isPlainScheme sc = true) :
    strings.Contains sc (str ".") = false := by
  rw [str_dot, contains_singleton]
  apply decide_eq_false
  intro m
  have := isPlainScheme_bytes sc hsc 46 m
  revert this
  decide

theorem isPlainScheme_ne_nil (sc : GoString) (hsc : isPlainScheme sc = true) : sc ≠ [] := by
  intro e; subst e; simp [isPlainScheme] at hsc

/-- Two URLs with a scheme and a host that agree on everything `String` writes
have the same text. -/
theorem String_congr (u w : url.URL) (hsc : u.Scheme ≠ []) (hop : u.Opaque = [])
    (hh : u.Host ≠ []) (h1 : w.Scheme = u.Scheme) (h2 : w.Opaque = []) (h3 : w.User = u.User)
    (h4 : w.Host = u.Host) (h5 : w.ForceQuery = u.ForceQuery) (h6 : w.RawQuery = u.RawQuery)
    (h7 : pathText w = pathText u) (h8 : fragmentText w = fragmentText u) :
    w.String = u.String := by
  rw [String_of_host u hsc hop hh, String_of_host w (h1 ▸ hsc) h2 (h4 ▸ hh), h1, h3, h4, h5, h6,
    h7, h8]

theorem parse_fragment_none (T0 F : GoString) (h35 : (35 : Byte) ∉ T0)
    (hF : F = [] ∨ F.head? = some 35) (hp : url.parse T0 = none) :
    url.Parse (T0 ++ F) = none := by
  have hc : (strings.Cut (T0 ++ F) (str "#")).1 = T0 := by
    rw [str_hash]
    rcases hF with e | e
    · subst e
      rw [List.append_nil, cut_of_not_mem 35 T0 h35]
    · cases F with
      | nil => simp at e
      | cons x F2 =>
        simp only [List.head?_cons, Option.some.injEq] at e
        subst e
        rw [cut_at 35 F2 T0 h35]
  unfold url.Parse
  rw [hc, hp]

theorem parse_fragment_nil (T0 : GoString) (w : url.URL) (h35 : (35 : Byte) ∉ T0)
    (hp : url.parse T0 = some w) : url.Parse T0 = some w := by
  unfold url.Parse
  rw [str_hash, cut_of_not_mem 35 T0 h35]
  simp only [hp, if_true]

theorem parse_fragment_cons (T0 F : GoString) (w : url.URL) (h35 : (35 : Byte) ∉ T0)
    (hF : F ≠ []) (hp : url.parse T0 = some w) :
    url.Parse (T0 ++ 35 :: F) = w.setFragment F := by
  unfold url.Parse
  rw [str_hash, cut_at 35 F T0 h35]
  simp only [hp, if_neg hF]

theorem escapedFragment_ne_nil (u : url.URL) (h : u.Fragment ≠ []) : u.EscapedFragment ≠ [] := by
  intro e
  have hs := (escapedFragment_spec u).1
  rw [e] at hs
  simp only [url.unescape, Option.some.injEq] at hs
  exact h hs.symm

/-- The text of a URL with a plain scheme, a host and a path that ends in
exactly one slash is a fixed point of `normalizeAddr`. -/
theorem normalizeAddr_text_fixed (u : url.URL)
    (hsc : isPlainScheme u.Scheme = true) (hop : u.Opaque = []) (hh : u.Host ≠ [])
    (hone : endsInOneSlash u.Path = true)
    (hraw : u.EscapedPath = url.escape u.Path url.encoding.encodePath ∨
      u.EscapedPath.head? = some 47)
    (hq : ∀ c ∈ u.RawQuery, c ≠ 35 ∧ (c < 32 || c = 127) = false)
    (hfq : u.ForceQuery = true → u.RawQuery = [])
    (hpw : ∀ ui, u.User = some ui → ui.passwordSet = false → ui.password = []) :
    normalizeAddr u.String = u.String := by
  have hscne := isPlainScheme_ne_nil _ hsc
  have hS := String_of_host u hscne hop hh
  obtain ⟨hhead, hbytes, Pw, hPw1, hun, hform⟩ := pathText_facts u hone hraw
  have hA : ∀ c ∈ userText u.User ++ url.escape u.Host url.encoding.encodeHost,
      c ≠ 35 ∧ c ≠ 63 ∧ c ≠ 47 ∧ (c < 32 || c = 127) = false := by
    intro c hc
    rcases List.mem_append.1 hc with m | m
    · unfold userText at m
      cases hu : u.User with
      | none => rw [hu] at m; exact absurd m (List.not_mem_nil _)
      | some ui =>
        rw [hu] at m
        rcases List.mem_append.1 m with m | m
        · have := mem_userinfo_string ui c m
          exact ⟨this.1, this.2.1, this.2.2.1, this.2.2.2.2.1⟩
        · simp only [List.mem_singleton] at m
          subst m; decide
    · have := mem_escape_host u.Host c m
      exact ⟨this.1, this.2.1, this.2.2.1, this.2.2.2.2⟩
  have hparse := parse_of_shape u.Scheme
    (userText u.User ++ url.escape u.Host url.encoding.encodeHost) (pathText u) u.RawQuery
    u.ForceQuery hsc (fun c hc => ⟨(hA c hc).2.1, (hA c hc).2.2.1, (hA c hc).2.2.2⟩) hhead
    (fun c hc => ⟨(hbytes c hc).2.1, (hbytes c hc).2.2⟩) (fun c hc => (hq c hc).2) hfq
  have h35 : (35 : Byte) ∉ u.Scheme ++ 58 :: 47 :: 47 ::
      (userText u.User ++ url.escape u.Host url.encoding.encodeHost ++ pathText u) ++
      queryText u.ForceQuery u.RawQuery := by
    intro m
    rcases List.mem_append.1 m with m | m
    · rcases List.mem_append.1 m with m | m
      · have := isPlainScheme_bytes _ hsc 35 m
        revert this; decide
      · rcases List.mem_cons.1 m with e | m
        · exact absurd e (by decide)
        · rcases List.mem_cons.1 m with e | m
          · exact absurd e (by decide)
          · rcases List.mem_cons.1 m with e | m
            · exact absurd e (by decide)
            · rcases List.mem_append.1 m with m | m
              · exact (hA 35 m).1 rfl
              · exact (hbytes 35 m).1 rfl
    · unfold queryText at m
      split at m
      · rcases List.mem_cons.1 m with e | m
        · exact absurd e (by decide)
        · exact (hq 35 m).1 rfl
      · exact absurd m (List.not_mem_nil _)
  have hFshape : fragmentText u = [] ∨ (fragmentText u).head? = some 35 := by
    unfold fragmentText
    split
    · right; rfl
    · left; rfl
  rcases parseAuthority_text u.User u.Host hpw with hn | hs
  · rw [hn] at hparse
    rw [hS]
    exact normalizeAddr_of_parse_none _ (parse_fragment_none _ _ h35 hFshape hparse)
  · rw [hs] at hparse
    simp only [] at hparse
    rw [setPath_eq _ _ _ hun] at hparse
    generalize hw0 : ({ ({ url.URL.zero with
        Scheme := u.Scheme, ForceQuery := u.ForceQuery, RawQuery := u.RawQuery,
        User := u.User, Host := u.Host } : url.URL) with
        Path := Pw,
        RawPath := if pathText u = url.escape Pw url.encoding.encodePath then []
          else pathText u } : url.URL) = w0 at hparse
    have hw0P : w0.EscapedPath = pathText u := by
      apply escapedPath_of_setPath w0 (pathText u)
      · rw [← hw0]; exact hun
      · rw [← hw0]; exact hform
      · rw [← hw0]; exact endsInOneSlash_ne_star _ hPw1
      · rw [← hw0]
    have hw0pt : pathText w0 = pathText u := by
      have : pathText w0 = (if w0.EscapedPath ≠ [] ∧ w0.EscapedPath.head? ≠ some 47 then [47]
          else []) ++ w0.EscapedPath := rfl
      rw [this, hw0P, if_neg (fun h => h.2 hhead)]
      rfl
    have hne : u.String ≠ [] := by
      rw [hS]
      intro e
      have := congrArg List.length e
      simp at this
    by_cases hf : u.Fragment = []
    · have hft : fragmentText u = [] := by
        unfold fragmentText
        rw [if_neg (fun h => h hf)]
      have hP : url.Parse u.String = some w0 := by
        rw [hS, hft, List.append_nil]
        exact parse_fragment_nil _ _ h35 hparse
      rw [normalizeAddr_eq _ _ hne hP]
      have hfix : normalizedURL w0 = w0 := by
        apply normalizedURL_fixed
        · rw [← hw0]; exact hscne
        · rw [← hw0]; exact isPlainScheme_no_dot _ hsc
        · rw [← hw0]; exact hh
        · apply trimRight_of_endsInOneSlash
          rw [← hw0]; exact hPw1
      rw [hfix]
      apply String_congr u w0 hscne hop hh
      · rw [← hw0]
      · rw [← hw0]; rfl
      · rw [← hw0]
      · rw [← hw0]
      · rw [← hw0]
      · rw [← hw0]
      · exact hw0pt
      · rw [hft]
        unfold fragmentText
        rw [← hw0]
        rfl
    · have hft : fragmentText u = 35 :: u.EscapedFragment := by
        unfold fragmentText
        rw [if_pos hf]
      have hEF := escapedFragment_ne_nil u hf
      have hfs := escapedFragment_spec u
      have hP : url.Parse u.String = some { w0 with
          Fragment := u.Fragment,
          RawFragment := if u.EscapedFragment =
            url.escape u.Fragment url.encoding.encodeFragment then [] else u.EscapedFragment } := by
        rw [hS, hft, parse_fragment_cons _ _ w0 h35 hEF hparse]
        exact setFragment_eq _ _ _ hfs.1
      generalize hw1 : ({ w0 with
          Fragment := u.Fragment,
          RawFragment := if u.EscapedFragment =
            url.escape u.Fragment url.encoding.encodeFragment then [] else u.EscapedFragment } :
          url.URL) = w1 at hP
      rw [normalizeAddr_eq _ _ hne hP]
      have hfix : normalizedURL w1 = w1 := by
        apply normalizedURL_fixed
        · rw [← hw1, ← hw0]; exact hscne
        · rw [← hw1, ← hw0]; exact isPlainScheme_no_dot _ hsc
        · rw [← hw1, ← hw0]; exact hh
        · apply trimRight_of_endsInOneSlash
          rw [← hw1, ← hw0]; exact hPw1
      rw [hfix]
      have hw1F : w1.EscapedFragment = u.EscapedFragment := by
        apply escapedFragment_of_setFragment w1 u.EscapedFragment
        · rw [← hw1]; exact hfs.1
        · rw [← hw1]; exact hfs.2
        · rw [← hw1]
      apply String_congr u w1 hscne hop hh
      · rw [← hw1, ← hw0]
      · rw [← hw1, ← hw0]; rfl
      · rw [← hw1, ← hw0]
      · rw [← hw1, ← hw0]
      · rw [← hw1, ← hw0]
      · rw [← hw1, ← hw0]
      · rw [← hw0pt, ← hw1]
        rfl
      · rw [hft]
        have : fragmentText w1 = if w1.Fragment ≠ [] then 35 :: w1.EscapedFragment else [] := rfl
        rw [this, hw1F]
        rw [← hw1]
        exact if_pos hf

/-! ## A second pass of `normalizeAddr` -/

theorem trimRight_length_le (q cutset : GoString) :
    (strings.TrimRight q cutset).length ≤ q.length :=
  (List.rdropWhile_prefix (fun c => cutset.contains c) q).length_le

theorem trimRight_slash : strings.TrimRight (str "/") (str "/") ++ str "/" = [47] := by decide

/-- The URL written out for a URL with a plain scheme: scheme, user and query
are kept, the path ends in exactly one slash, and when the host is not empty
there is no opaque part and the escaped path is the escape of the path or
starts with a slash. -/
theorem normalizedURL_plain (v : url.URL) (hsc : isPlainScheme v.Scheme = true)
    (hbare : v.Opaque ≠ [] → v.Host = [] ∧ v.Path = [])
    (hraw : v.RawPath ≠ [] → url.unescape url.encoding.encodePath v.RawPath = some v.Path)
    (hrooted : v.Host ≠ [] → v.RawPath = [] ∨ v.RawPath.head? = some 47)
    (hh : (normalizedURL v).Host ≠ []) :
    (normalizedURL v).Scheme = v.Scheme ∧ (normalizedURL v).Opaque = [] ∧
    (normalizedURL v).User = v.User ∧ (normalizedURL v).ForceQuery = v.ForceQuery ∧
    (normalizedURL v).RawQuery = v.RawQuery ∧
    endsInOneSlash (normalizedURL v).Path = true ∧
    ((normalizedURL v).EscapedPath =
        url.escape (normalizedURL v).Path url.encoding.encodePath ∨
      (normalizedURL v).EscapedPath.head? = some 47) := by
  have hscne := isPlainScheme_ne_nil _ hsc
  have hdot := isPlainScheme_no_dot _ hsc
  have hone : ∀ w : url.URL, endsInOneSlash
      (strings.TrimRight w.Path (str "/") ++ str "/") = true :=
    fun w => endsInOneSlash_trimRight _
  by_cases hH : v.Host = []
  · rcases splitN_two v.Path 47 with ⟨hn, es⟩ | ⟨a, b, e1, es⟩
    · have e : normalizedURL v = { v with Host := v.Path, Path := [47] } := by
        unfold normalizedURL
        simp only [if_neg hscne, hdot, Bool.false_eq_true, if_false, if_pos hH, str_slash, es]
        rfl
      rw [e] at hh ⊢
      have hPne : v.Path ≠ [] := hh
      have hop : v.Opaque = [] := by
        by_contra ho
        exact hPne (hbare ho).2
      refine ⟨rfl, hop, rfl, rfl, rfl, (show endsInOneSlash [47] = true by decide), ?_⟩
      rcases (escapedPath_spec { v with Host := v.Path, Path := [47] }
          (show ([47] : GoString) ≠ str "*" by decide)).2 with
        e2 | ⟨_, hr, _, hu⟩
      · exact Or.inl e2
      · have hr2 : v.RawPath ≠ [] := hr
        have hu2 : url.unescape url.encoding.encodePath v.RawPath = some [47] := hu
        rw [hraw hr2] at hu2
        simp only [Option.some.injEq] at hu2
        rw [hu2] at hn
        exact absurd (List.mem_singleton.2 rfl) hn
    · have e : normalizedURL v =
          { v with Host := a, Path := strings.TrimRight b (str "/") ++ str "/" } := by
        unfold normalizedURL
        simp only [if_neg hscne, hdot, Bool.false_eq_true, if_false, if_pos hH, str_slash, es]
      rw [e] at hh ⊢
      have ha : a ≠ [] := hh
      have hop : v.Opaque = [] := by
        by_contra ho
        have := (hbare ho).2
        rw [e1] at this
        simp at this
      refine ⟨rfl, hop, rfl, rfl, rfl, endsInOneSlash_trimRight _, ?_⟩
      rcases (escapedPath_spec
          { v with Host := a, Path := strings.TrimRight b (str "/") ++ str "/" }
          (endsInOneSlash_ne_star _ (endsInOneSlash_trimRight _))).2 with e2 | ⟨_, hr, _, hu⟩
      · exact Or.inl e2
      · have hr2 : v.RawPath ≠ [] := hr
        have hu2 : url.unescape url.encoding.encodePath v.RawPath =
            some (strings.TrimRight b (str "/") ++ str "/") := hu
        rw [hraw hr2] at hu2
        simp only [Option.some.injEq] at hu2
        have hl := congrArg List.length hu2
        rw [e1] at hl
        have hle := trimRight_length_le b (str "/")
        have h1 : (str "/").length = 1 := rfl
        simp only [List.length_append, List.length_cons] at hl
        rw [h1] at hl
        have : a.length = 0 := by omega
        exact absurd (List.length_eq_zero.1 this) ha
  · have e : normalizedURL v =
        { v with Path := strings.TrimRight v.Path (str "/") ++ str "/" } := by
      unfold normalizedURL
      simp only [if_neg hscne, hdot, Bool.false_eq_true, if_false, if_neg hH]
    rw [e] at hh ⊢
    have hop : v.Opaque = [] := by
      by_contra ho
      exact hH (hbare ho).1
    refine ⟨rfl, hop, rfl, rfl, rfl, endsInOneSlash_trimRight _, ?_⟩
    rcases (escapedPath_spec
        { v with Path := strings.TrimRight v.Path (str "/") ++ str "/" }
        (endsInOneSlash_ne_star _ (endsInOneSlash_trimRight _))).2 with e2 | ⟨e3, hr, _, _⟩
    · exact Or.inl e2
    · right
      rw [e3]
      have hr2 : v.RawPath ≠ [] := hr
      rcases hrooted hH with h1 | h1
      · exact absurd h1 hr2
      · exact h1

theorem https_plain : isPlainScheme (str "https") = true := by decide

theorem normalizedURL_of_no_scheme (u0 : url.URL) (hs0 : u0.Scheme = []) :
    normalizedURL u0 = normalizedURL { u0 with Scheme := str "https" } := by
  have h1 : str "https" ≠ [] := by decide
  unfold normalizedURL
  simp only [if_pos hs0, if_neg h1]

theorem normalizedURL_of_dot (u0 : url.URL) (hs0 : u0.Scheme ≠ [])
    (hdot : strings.Contains u0.Scheme (str ".") = true) :
    normalizedURL u0 = normalizedURL { u0 with
      Host := if u0.Opaque ≠ [] then u0.Scheme ++ str ":" ++ u0.Opaque else u0.Scheme,
      Opaque := if u0.Opaque ≠ [] then [] else u0.Opaque,
      Scheme := str "https" } := by
  have h1 : str "https" ≠ [] := by decide
  have h2 : strings.Contains (str "https") (str ".") = false := by decide
  unfold normalizedURL
  simp only [if_neg hs0, hdot, if_true, if_neg h1, h2, Bool.false_eq_true, if_false]

theorem isPlainScheme_of_no_dot (sc : GoString)
    (h : ∃ c cs, sc = c :: cs ∧ isLower c = true ∧
      ∀ d ∈ cs, (isLower d || isDigit d || d = 43 || d = 45 || d = 46) = true)
    (hdot : strings.Contains sc (str ".") = false) : isPlainScheme sc = true := by
  obtain ⟨c, cs, rfl, hc, hcs⟩ := h
  rw [str_dot, contains_singleton] at hdot
  have hn : (46 : Byte) ∉ c :: cs := of_decide_eq_false hdot
  rw [isPlainScheme_iff]
  refine ⟨c, cs, rfl, hc, ?_⟩
  intro d hd
  have h46 : d ≠ 46 := fun e => hn (e ▸ List.mem_cons_of_mem _ hd)
  have := hcs d hd
  simp only [Bool.or_eq_true, decide_eq_true_eq] at this ⊢
  rcases this with h | h
  · exact h
  · exact absurd h h46

/-- The URL written out for a parsed URL is the one written out for a URL with
a plain scheme that has the same user and query. -/
theorem normalizedURL_stage (u0 : url.URL) (hp : u0.Parsed) :
    ∃ v : url.URL, normalizedURL u0 = normalizedURL v ∧ isPlainScheme v.Scheme = true ∧
      (v.Opaque ≠ [] → v.Host = [] ∧ v.Path = []) ∧
      (v.RawPath ≠ [] → url.unescape url.encoding.encodePath v.RawPath = some v.Path) ∧
      (v.Host ≠ [] → v.RawPath = [] ∨ v.RawPath.head? = some 47) ∧
      v.User = u0.User ∧ v.ForceQuery = u0.ForceQuery ∧ v.RawQuery = u0.RawQuery := by
  by_cases hs0 : u0.Scheme = []
  · refine ⟨{ u0 with Scheme := str "https" }, normalizedURL_of_no_scheme u0 hs0, https_plain,
      ?_, hp.raw, ?_, rfl, rfl, rfl⟩
    · intro ho
      exact ⟨(hp.bare ho).1, (hp.bare ho).2.1⟩
    · intro hH
      exact hp.rooted (Or.inr hH)
  · by_cases hdot : strings.Contains u0.Scheme (str ".") = true
    · refine ⟨_, normalizedURL_of_dot u0 hs0 hdot, https_plain, ?_, hp.raw, ?_, rfl, rfl, rfl⟩
      · intro ho
        have ho2 : (if u0.Opaque ≠ [] then [] else u0.Opaque) ≠ [] := ho
        by_cases h : u0.Opaque ≠ []
        · rw [if_pos h] at ho2; exact absurd rfl ho2
        · rw [if_neg h] at ho2; exact absurd ho2 h
      · intro _
        exact hp.rooted (Or.inl hs0)
    · have hsc : isPlainScheme u0.Scheme = true := by
        rcases hp.scheme with e | s
        · exact absurd e hs0
        · exact isPlainScheme_of_no_dot _ s (by simpa using hdot)
      refine ⟨u0, rfl, hsc, ?_, hp.raw, ?_, rfl, rfl, rfl⟩
      · intro ho
        exact ⟨(hp.bare ho).1, (hp.bare ho).2.1⟩
      · intro hH
        exact hp.rooted (Or.inr hH)

/-- The text that `normalizeAddr` writes out with a non-empty host is a fixed
point of `normalizeAddr`. -/
theorem normalizeAddr_normalized_fixed (u0 : url.URL) (hp : u0.Parsed)
    (hh : (normalizedURL u0).Host ≠ []) :
    normalizeAddr (normalizedURL u0).String = (normalizedURL u0).String := by
  obtain ⟨v, e, hsc, hbare, hraw, hrooted, hU, hF, hQ⟩ := normalizedURL_stage u0 hp
  rw [e] at hh ⊢
  obtain ⟨f1, f2, f3, f4, f5, f6, f7⟩ := normalizedURL_plain v hsc hbare hraw hrooted hh
  apply normalizeAddr_text_fixed _ (by rw [f1]; exact hsc) f2 hh f6 f7
  · rw [f5, hQ]; exact hp.query
  · rw [f4, f5, hF, hQ]; exact hp.forced
  · rw [f3, hU]; exact hp.password

/-- C1, amended: a second pass of `normalizeAddr` changes nothing for every
input for which the URL written out by the first pass has a non-empty host,
and for every input that `url.Parse` rejects (`normalizedHost s` is `some []`
exactly when `s` parses and the host written out is empty). -/
theorem normalizeAddr_idempotent_of_host (s : GoString)
    (hh : normalizedHost s ≠ some []) :
    normalizeAddr (normalizeAddr s) = normalizeAddr s := by
  by_cases hs : s = []
  · subst hs; rfl
  · cases hP : url.Parse s with
    | none => rw [normalizeAddr_of_parse_none s hP, normalizeAddr_of_parse_none s hP]
    | some u0 =>
      rw [normalizeAddr_eq s u0 hs hP]
      apply normalizeAddr_normalized_fixed u0 (Parse_parsed s u0 hP)
      intro e
      apply hh
      unfold normalizedHost
      rw [hP]
      show some (normalizedURL u0).Host = some []
      rw [e]

set_option maxRecDepth 1000000 in
/-- Witness for C1 (amended): the bare host name `www.example.com`, and a URL
with user information, a query and a fragment. -/
theorem normalizeAddr_idempotent_of_host_example :
    (normalizedHost (str "www.example.com") ≠ some [] ∧
      normalizeAddr (normalizeAddr (str "www.example.com")) =
        normalizeAddr (str "www.example.com")) ∧
    (normalizedHost (str "https://user@host/foo?x=1#frag") ≠ some [] ∧
      normalizeAddr (normalizeAddr (str "https://user@host/foo?x=1#frag")) =
        normalizeAddr (str "https://user@host/foo?x=1#frag")) :=
  ⟨⟨by decide!, normalizeAddr_idempotent_of_host (str "www.example.com") (by decide!)⟩,
   ⟨by decide!,
    normalizeAddr_idempotent_of_host (str "https://user@host/foo?x=1#frag") (by decide!)⟩⟩

/-! ## The fix-ups of `Validate` -/

/-- The configuration that `Validate` leaves when it returns an error is the
one it was called on. -/
theorem Validate_error (c : Configuration) (h : c.Validate.2 ≠ none) : c.Validate.1 = c := by
  unfold Configuration.Validate at h ⊢
  by_cases h1 : c.SecurityUserName = []
  · rw [if_pos h1]
  · by_cases h2 : c.SecurityUserPassword = []
    · rw [if_neg h1, if_pos h2]
    · by_cases h3 : c.VaultToken = []
      · rw [if_neg h1, if_neg h2, if_pos h3]
      · rw [if_neg h1, if_neg h2, if_neg h3] at h
        exact absurd rfl h

/-- Without an error, `Validate` has found the three required values. -/
theorem Validate_ok_required (c : Configuration) (h : c.Validate.2 = none) :
    c.SecurityUserName ≠ [] ∧ c.SecurityUserPassword ≠ [] ∧ c.VaultToken ≠ [] := by
  unfold Configuration.Validate at h
  by_cases h1 : c.SecurityUserName = []
  · rw [if_pos h1] at h; simp at h
  · by_cases h2 : c.SecurityUserPassword = []
    · rw [if_neg h1, if_pos h2] at h; simp at h
    · by_cases h3 : c.VaultToken = []
      · rw [if_neg h1, if_neg h2, if_pos h3] at h; simp at h
      · exact ⟨h1, h2, h3⟩

/-- The three fields that a successful `Validate` assigns. -/
theorem Validate_ok_fixed (c : Configuration) (h : c.Validate.2 = none) :
    c.Validate.1.Port =
      (if (str ":").isPrefixOf c.Port = false then str ":" ++ c.Port else c.Port) ∧
    c.Validate.1.VaultAddr = normalizeAddr c.VaultAddr ∧
    c.Validate.1.VaultAdvertiseAddr = normalizeAddr c.advertiseSource := by
  obtain ⟨h1, h2, h3⟩ := Validate_ok_required c h
  unfold Configuration.Validate Configuration.advertiseSource
  rw [if_neg h1, if_neg h2, if_neg h3]
  by_cases hp : (str ":").isPrefixOf c.Port = false <;>
  by_cases ha : c.VaultAdvertiseAddr = [] <;>
  simp [hp, ha]

/-- The fields that a successful `Validate` does not assign. -/
theorem Validate_ok_kept (c : Configuration) (h : c.Validate.2 = none) :
    c.Validate.1.SecurityUserName = c.SecurityUserName ∧
    c.Validate.1.SecurityUserPassword = c.SecurityUserPassword ∧
    c.Validate.1.VaultToken = c.VaultToken ∧
    c.Validate.1.CredhubURL = c.CredhubURL ∧
    c.Validate.1.ServiceID = c.ServiceID ∧
    c.Validate.1.ServiceName = c.ServiceName ∧
    c.Validate.1.ServiceDescription = c.ServiceDescription ∧
    c.Validate.1.PlanName = c.PlanName ∧
    c.Validate.1.PlanDescription = c.PlanDescription ∧
    c.Validate.1.ServiceTags = c.ServiceTags ∧
    c.Validate.1.VaultRenew = c.VaultRenew := by
  obtain ⟨h1, h2, h3⟩ := Validate_ok_required c h
  unfold Configuration.Validate
  rw [if_neg h1, if_neg h2, if_neg h3]
  by_cases hp : (str ":").isPrefixOf c.Port = false <;>
  by_cases ha : c.VaultAdvertiseAddr = [] <;>
  simp [hp, ha]

/-- C22: after a successful `Validate` the `Port` begins with `:`.  A `Port` that
already began with `:` is unchanged; any other `Port`, the empty one included,
becomes `:` followed by the previous value. -/
theorem Validate_port (c : Configuration) (h : c.Validate.2 = none) :
    (str ":").isPrefixOf c.Validate.1.Port = true ∧
    ((str ":").isPrefixOf c.Port = true → c.Validate.1.Port = c.Port) ∧
    ((str ":").isPrefixOf c.Port = false → c.Validate.1.Port = str ":" ++ c.Port) ∧
    (c.Port = [] → c.Validate.1.Port = str ":") := by
  have hP := (Validate_ok_fixed c h).1
  refine ⟨?_, ?_, ?_, ?_⟩
  · rw [hP]
    by_cases hp : (str ":").isPrefixOf c.Port = false
    · rw [if_pos hp]
      simp [str_colon, List.isPrefixOf]
    · rw [if_neg hp]
      simpa using hp
  · intro hp
    rw [hP, if_neg (by simp [hp])]
  · intro hp
    rw [hP, if_pos hp]
  · intro hp
    rw [hP, hp]
    rfl

theorem Validate_port_witness :
    (Configuration.ofAddrs (str "8080") (str "vault.example.com") []).Validate.2 = none ∧
    (str ":").isPrefixOf (str "8080") = false ∧
    (Configuration.ofAddrs (str "8080") (str "vault.example.com") []).Validate.1.Port =
      str ":8080" :=
  ⟨by decide,
   by decide,
   (Validate_port (Configuration.ofAddrs (str "8080") (str "vault.example.com") [])
     (by decide)).2.2.1 (by decide)⟩

/-- C23: after a successful `Validate` on a configuration with an empty
`VaultAdvertiseAddr`, both address fields hold `normalizeAddr` of the `VaultAddr`
before the call; with a non-empty `VaultAdvertiseAddr` the field holds
`normalizeAddr` of its own previous value, whatever `VaultAddr` is (two
configurations with the same non-empty `VaultAdvertiseAddr` end with the same
one). -/
theorem Validate_advertise_addr (c : Configuration) (h : c.Validate.2 = none) :
    (c.VaultAdvertiseAddr = [] →
      c.Validate.1.VaultAdvertiseAddr = c.Validate.1.VaultAddr ∧
      c.Validate.1.VaultAddr = normalizeAddr c.VaultAddr) ∧
    (c.VaultAdvertiseAddr ≠ [] →
      c.Validate.1.VaultAdvertiseAddr = normalizeAddr c.VaultAdvertiseAddr) ∧
    (∀ d : Configuration, d.Validate.2 = none → c.VaultAdvertiseAddr ≠ [] →
      d.VaultAdvertiseAddr = c.VaultAdvertiseAddr →
      d.Validate.1.VaultAdvertiseAddr = c.Validate.1.VaultAdvertiseAddr) := by
  obtain ⟨-, hA, hV⟩ := Validate_ok_fixed c h
  refine ⟨?_, ?_, ?_⟩
  · intro he
    rw [hA, hV]
    unfold Configuration.advertiseSource
    rw [if_pos he]
    exact ⟨rfl, rfl⟩
  · intro hne
    rw [hV]
    unfold Configuration.advertiseSource
    rw [if_neg hne]
  · intro d hd hne hdc
    rw [hV, (Validate_ok_fixed d hd).2.2]
    unfold Configuration.advertiseSource
    rw [hdc, if_neg hne, if_neg hne]

theorem Validate_advertise_addr_witness :
    (Configuration.ofAddrs (str ":8000") (str "vault.example.com") []).Validate.2 = none ∧
    (Configuration.ofAddrs (str ":8000") (str "vault.example.com") []).VaultAdvertiseAddr = [] ∧
    (Configuration.ofAddrs (str ":8000") (str "vault.example.com")
      []).Validate.1.VaultAdvertiseAddr =
        (Configuration.ofAddrs (str ":8000") (str "vault.example.com") []).Validate.1.VaultAddr ∧
    (Configuration.ofAddrs (str ":8000") (str "vault.example.com") []).Validate.1.VaultAddr =
      normalizeAddr (str "vault.example.com") :=
  ⟨by decide,
   by decide,
   (Validate_advertise_addr (Configuration.ofAddrs (str ":8000") (str "vault.example.com") [])
     (by decide)).1 (by decide)⟩

/-- C26: `Validate` changes nothing but `Port`, `VaultAddr` and
`VaultAdvertiseAddr`.  When it returns an error the configuration is as it was
before the call; when it succeeds the other eleven fields are unchanged. -/
theorem Validate_frame (c : Configuration) :
    (c.Validate.2 ≠ none → c.Validate.1 = c) ∧
    (c.Validate.2 = none →
      c.Validate.1.SecurityUserName = c.SecurityUserName ∧
      c.Validate.1.SecurityUserPassword = c.SecurityUserPassword ∧
      c.Validate.1.VaultToken = c.VaultToken ∧
      c.Validate.1.CredhubURL = c.CredhubURL ∧
      c.Validate.1.ServiceID = c.ServiceID ∧
      c.Validate.1.ServiceName = c.ServiceName ∧
      c.Validate.1.ServiceDescription = c.ServiceDescription ∧
      c.Validate.1.PlanName = c.PlanName ∧
      c.Validate.1.PlanDescription = c.PlanDescription ∧
      c.Validate.1.ServiceTags = c.ServiceTags ∧
      c.Validate.1.VaultRenew = c.VaultRenew) :=
  ⟨Validate_error c, Validate_ok_kept c⟩

theorem Validate_frame_witness :
    (Configuration.zero.Validate.2 ≠ none ∧ Configuration.zero.Validate.1 = Configuration.zero) ∧
    (testEnvironment.Validate.2 = none ∧
      testEnvironment.Validate.1.ServiceTags = [str "hello", str "world"] ∧
      testEnvironment.Validate.1.CredhubURL = str "http://127.0.0.1:8844") :=
  ⟨⟨by decide, (Validate_frame Configuration.zero).1 (by decide)⟩,
   ⟨by decide,
    ((Validate_frame testEnvironment).2 (by decide)).2.2.2.2.2.2.2.2.2.1,
    ((Validate_frame testEnvironment).2 (by decide)).2.2.2.1⟩⟩

/-! ## The addresses that `Validate` leaves -/

theorem normalizedHost_nil : normalizedHost [] = some [] := by decide

/-- An absolute URL in the sense of `NormalizedAbsolute` contains `://`. -/
theorem contains_of_normalizedAbsolute (t : GoString) (h : NormalizedAbsolute t) :
    strings.Contains t (str "://") = true := by
  obtain ⟨sc, auth, path, query, frag, decoded, e, -⟩ := h
  have e2 : t = sc ++ str "://" ++ (auth ++ path ++ query ++ frag) := by
    rw [e]
    simp only [List.append_assoc]
  rw [e2]
  exact contains_middle _ _ _

/-- The text that `normalizeAddr` writes out for an address of which the
normalised URL has a host is an absolute URL whose path ends in a slash. -/
theorem normalizeAddr_normalizedAbsolute (s : GoString)
    (hh : ∃ hst, normalizedHost s = some hst ∧ hst ≠ []) :
    NormalizedAbsolute (normalizeAddr s) := by
  obtain ⟨hst, hn, hne⟩ := hh
  have hs : s ≠ [] := by
    intro e
    rw [e, normalizedHost_nil] at hn
    exact hne (Option.some.inj hn).symm
  unfold normalizedHost at hn
  cases hP : url.Parse s with
  | none => rw [hP] at hn; exact absurd hn (by simp)
  | some u0 =>
    rw [hP] at hn
    have hhost : (normalizedURL u0).Host ≠ [] := by
      intro e
      apply hne
      have : some (normalizedURL u0).Host = some hst := hn
      rw [e] at this
      exact (Option.some.inj this).symm
    rw [normalizeAddr_eq s u0 hs hP]
    have hp := Parse_parsed s u0 hP
    obtain ⟨v, e, hsc, hbare, hraw, hrooted, hU, hF, hQ⟩ := normalizedURL_stage u0 hp
    rw [e] at hhost ⊢
    obtain ⟨f1, f2, f3, f4, f5, f6, f7⟩ := normalizedURL_plain v hsc hbare hraw hrooted hhost
    have hsc2 : isPlainScheme (normalizedURL v).Scheme = true := by rw [f1]; exact hsc
    have hS := String_of_host (normalizedURL v) (isPlainScheme_ne_nil _ hsc2) f2 hhost
    obtain ⟨hhead, hbytes, Pw, hPw1, hun, -⟩ := pathText_facts (normalizedURL v) f6 f7
    have hq : ∀ c ∈ (normalizedURL v).RawQuery, c ≠ 35 := by
      intro c hc
      rw [f5, hQ] at hc
      exact (hp.query c hc).1
    refine ⟨(normalizedURL v).Scheme,
      userText (normalizedURL v).User ++
        url.escape (normalizedURL v).Host url.encoding.encodeHost,
      pathText (normalizedURL v),
      queryText (normalizedURL v).ForceQuery (normalizedURL v).RawQuery,
      fragmentText (normalizedURL v), Pw, ?_, hsc2, ?_, hhead, ?_, hun, ?_, ?_, ?_, ?_⟩
    · rw [hS]
      simp only [str_scheme_sep, List.append_assoc, List.cons_append, List.nil_append]
    · intro c hc
      rcases List.mem_append.1 hc with m | m
      · unfold userText at m
        cases hu : (normalizedURL v).User with
        | none => rw [hu] at m; exact absurd m (List.not_mem_nil _)
        | some ui =>
          rw [hu] at m
          rcases List.mem_append.1 m with m | m
          · have := mem_userinfo_string ui c m
            exact ⟨this.2.2.1, this.2.1, this.1⟩
          · simp only [List.mem_singleton] at m
            subst m; decide
      · have := mem_escape_host (normalizedURL v).Host c m
        exact ⟨this.2.2.1, this.2.1, this.1⟩
    · intro c hc
      exact ⟨(hbytes c hc).2.1, (hbytes c hc).1⟩
    · unfold endsInOneSlash at hPw1
      simp only [Bool.and_eq_true, decide_eq_true_eq] at hPw1
      exact hPw1.1
    · unfold queryText
      split
      · right; rfl
      · left; rfl
    · intro c hc
      unfold queryText at hc
      split at hc
      · rcases List.mem_cons.1 hc with e | m
        · rw [e]; decide
        · exact hq c m
      · exact absurd hc (List.not_mem_nil _)
    · unfold fragmentText
      split
      · right; rfl
      · left; rfl

set_option maxRecDepth 1000000 in
/-- C21 fails as stated: `Validate` succeeds on a configuration whose `VaultAddr`
is `127.0.0.1:8200`, which `url.Parse` rejects, and leaves both address fields
as that text, which has no scheme and no `://`. -/
theorem Validate_keeps_unparsed_address :
    (Configuration.ofAddrs (str ":8000") (str "127.0.0.1:8200") []).Validate.2 = none ∧
    (Configuration.ofAddrs (str ":8000") (str "127.0.0.1:8200") []).Validate.1.VaultAddr =
      str "127.0.0.1:8200" ∧
    (Configuration.ofAddrs (str ":8000") (str "127.0.0.1:8200")
      []).Validate.1.VaultAdvertiseAddr = str "127.0.0.1:8200" ∧
    strings.Contains (str "127.0.0.1:8200") (str "://") = false ∧
    ¬ NormalizedAbsolute
      (Configuration.ofAddrs (str ":8000") (str "127.0.0.1:8200") []).Validate.1.VaultAddr := by
  have e : (Configuration.ofAddrs (str ":8000") (str "127.0.0.1:8200") []).Validate.1.VaultAddr =
      str "127.0.0.1:8200" := by decide!
  refine ⟨by decide, e, by decide!, by decide, ?_⟩
  intro hN
  have := contains_of_normalizedAbsolute _ hN
  rw [e] at this
  revert this
  decide

/-- C21 (as amended): after a successful `Validate`, an address field whose
normalised URL has a host is an absolute URL whose path ends in a slash: it
begins with a scheme followed by `://`, and its path begins with `/` and is the
escaped form of a path ending in `/`.  This holds for `VaultAddr`, and for
`VaultAdvertiseAddr` with respect to the address it is computed from.  An
address that is empty or that `url.Parse` rejects is left as it is. -/
theorem Validate_addresses (c : Configuration) (h : c.Validate.2 = none) :
    ((∃ hst, normalizedHost c.VaultAddr = some hst ∧ hst ≠ []) →
      NormalizedAbsolute c.Validate.1.VaultAddr) ∧
    ((∃ hst, normalizedHost c.advertiseSource = some hst ∧ hst ≠ []) →
      NormalizedAbsolute c.Validate.1.VaultAdvertiseAddr) ∧
    (c.VaultAddr = [] ∨ url.Parse c.VaultAddr = none → c.Validate.1.VaultAddr = c.VaultAddr) ∧
    (c.advertiseSource = [] ∨ url.Parse c.advertiseSource = none →
      c.Validate.1.VaultAdvertiseAddr = c.advertiseSource) := by
  obtain ⟨-, hA, hV⟩ := Validate_ok_fixed c h
  refine ⟨?_, ?_, ?_, ?_⟩
  · intro hh
    rw [hA]
    exact normalizeAddr_normalizedAbsolute _ hh
  · intro hh
    rw [hV]
    exact normalizeAddr_normalizedAbsolute _ hh
  · intro hh
    rw [hA]
    rcases hh with e | e
    · rw [e]; rfl
    · exact normalizeAddr_of_parse_none _ e
  · intro hh
    rw [hV]
    rcases hh with e | e
    · rw [e]; rfl
    · exact normalizeAddr_of_parse_none _ e

set_option maxRecDepth 1000000 in
theorem Validate_addresses_witness :
    (Configuration.ofAddrs (str ":8000") (str "vault.example.com:8200") []).Validate.2 = none ∧
    (∃ hst, normalizedHost (Configuration.ofAddrs (str ":8000") (str "vault.example.com:8200")
      []).VaultAddr = some hst ∧ hst ≠ []) ∧
    NormalizedAbsolute
      (Configuration.ofAddrs (str ":8000") (str "vault.example.com:8200")
        []).Validate.1.VaultAddr ∧
    (Configuration.ofAddrs (str ":8000") (str "vault.example.com:8200")
        []).Validate.1.VaultAddr = str "https://vault.example.com:8200/" :=
  ⟨by decide,
   ⟨str "vault.example.com:8200", by decide!, by decide⟩,
   (Validate_addresses (Configuration.ofAddrs (str ":8000") (str "vault.example.com:8200") [])
     (by decide)).1 ⟨str "vault.example.com:8200", by decide!, by decide⟩,
   by decide!⟩

/-! ## The names that `credhubProcess` looks up -/

theorem lookupKey_injective (pfx : GoString) : Function.Injective (lookupKey pfx) := by
  intro f g h
  exact Field.tag_injective f g (List.append_cancel_left h)

/-- The names looked up by any loop: those of an initial segment of its
fields, in order; of all fields when the loop ends without an error, and of at
least one field when it ends with an error. -/
theorem credhubLoop_queried_segment (w : World) (client : GoString → credhub.Result)
    (pfx : GoString) :
    ∀ (fs : List Field) (c : Configuration) (q : List GoString),
      ∃ pre post : List Field, fs = pre ++ post ∧
        (credhubLoop w client pfx fs c q).queried = q ++ pre.map (lookupKey pfx) ∧
        ((credhubLoop w client pfx fs c q).err = none → post = []) ∧
        ((credhubLoop w client pfx fs c q).err ≠ none → pre ≠ [])
  | [], c, q => ⟨[], [], rfl, by simp [credhubLoop], fun _ => rfl, fun h => absurd rfl h⟩
  | g :: fs, c, q => by
    cases hs : credhubField w (pfx ++ strings.ToUpper g.tag) g
        (client (pfx ++ strings.ToUpper g.tag)) c with
    | error err =>
      rw [credhubLoop_cons_error w client pfx g fs c q err hs]
      exact ⟨[g], fs, rfl, rfl, fun h => by simp at h, fun _ => by simp⟩
    | ok c2 =>
      rw [credhubLoop_cons_ok w client pfx g fs c c2 q hs]
      obtain ⟨pre, post, e1, e2, e3, -⟩ :=
        credhubLoop_queried_segment w client pfx fs c2 (q ++ [pfx ++ strings.ToUpper g.tag])
      refine ⟨g :: pre, post, by rw [e1]; rfl, ?_, e3, fun _ => by simp⟩
      rw [e2]
      simp [lookupKey]

set_option maxRecDepth 1000000 in
/-- C24 fails as stated: in the scenario of `TestCredhubConfigOverridesEnvConfig`
with an outage at the lookup of the port, `credhubProcess` looks up five names
and returns; the names of the nine later fields, such as
`VAULT_SERVICE_BROKER_VAULT_RENEW`, are not looked up. -/
theorem credhubProcess_stops_at_error :
    (credhubProcess (overrideWorld (str "VAULT_SERVICE_BROKER_PORT")
      ⟨none, some (str "connection refused")⟩) (str "VAULT_SERVICE_BROKER_")
      testEnvironment).queried =
      [str "VAULT_SERVICE_BROKER_SECURITY_USER_NAME",
       str "VAULT_SERVICE_BROKER_SECURITY_USER_PASSWORD",
       str "VAULT_SERVICE_BROKER_VAULT_TOKEN", str "VAULT_SERVICE_BROKER_CREDHUB_URL",
       str "VAULT_SERVICE_BROKER_PORT"] ∧
    (credhubProcess (overrideWorld (str "VAULT_SERVICE_BROKER_PORT")
      ⟨none, some (str "connection refused")⟩) (str "VAULT_SERVICE_BROKER_")
      testEnvironment).queried ≠ Field.all.map (lookupKey (str "VAULT_SERVICE_BROKER_")) ∧
    str "VAULT_SERVICE_BROKER_VAULT_RENEW" ∉
      (credhubProcess (overrideWorld (str "VAULT_SERVICE_BROKER_PORT")
        ⟨none, some (str "connection refused")⟩) (str "VAULT_SERVICE_BROKER_")
        testEnvironment).queried := by
  have e : (credhubProcess (overrideWorld (str "VAULT_SERVICE_BROKER_PORT")
      ⟨none, some (str "connection refused")⟩) (str "VAULT_SERVICE_BROKER_")
      testEnvironment).queried =
      [str "VAULT_SERVICE_BROKER_SECURITY_USER_NAME",
       str "VAULT_SERVICE_BROKER_SECURITY_USER_PASSWORD",
       str "VAULT_SERVICE_BROKER_VAULT_TOKEN", str "VAULT_SERVICE_BROKER_CREDHUB_URL",
       str "VAULT_SERVICE_BROKER_PORT"] := by decide!
  refine ⟨e, ?_, ?_⟩
  · rw [e]; decide
  · rw [e]; decide

/-- C24 (as amended): a run of `credhubProcess` that returns no error looks up
exactly one name per field of `Configuration`, in declaration order: the prefix
followed by the upper-cased `envconfig` tag; these fourteen names are different
from each other.  Any run, also one that returns an error, looks up the names
of an initial segment of the fields, in that order and once each (a run with
an error at least one), and no other name.  With the prefix
`VAULT_SERVICE_BROKER_` of `parseConfig` the names are the fourteen names
`VAULT_SERVICE_BROKER_SECURITY_USER_NAME` to `VAULT_SERVICE_BROKER_VAULT_RENEW`. -/
theorem credhubProcess_queries (w : World) (pfx : GoString) (config : Configuration) :
    ((credhubProcess w pfx config).err = none →
      (credhubProcess w pfx config).queried = Field.all.map (lookupKey pfx)) ∧
    (∃ pre post : List Field, Field.all = pre ++ post ∧
      (credhubProcess w pfx config).queried = pre.map (lookupKey pfx) ∧
      ((credhubProcess w pfx config).err ≠ none → pre ≠ [])) ∧
    (Field.all.map (lookupKey pfx)).Nodup ∧
    (credhubProcess w pfx config).queried.Nodup ∧
    (∀ name ∈ (credhubProcess w pfx config).queried, ∃ f : Field, name = lookupKey pfx f) ∧
    Field.all.map (lookupKey (str "VAULT_SERVICE_BROKER_")) =
      [str "VAULT_SERVICE_BROKER_SECURITY_USER_NAME",
       str "VAULT_SERVICE_BROKER_SECURITY_USER_PASSWORD",
       str "VAULT_SERVICE_BROKER_VAULT_TOKEN",
       str "VAULT_SERVICE_BROKER_CREDHUB_URL",
       str "VAULT_SERVICE_BROKER_PORT",
       str "VAULT_SERVICE_BROKER_SERVICE_ID",
       str "VAULT_SERVICE_BROKER_VAULT_ADDR",
       str "VAULT_SERVICE_BROKER_VAULT_ADVERTISE_ADDR",
       str "VAULT_SERVICE_BROKER_SERVICE_NAME",
       str "VAULT_SERVICE_BROKER_SERVICE_DESCRIPTION",
       str "VAULT_SERVICE_BROKER_PLAN_NAME",
       str "VAULT_SERVICE_BROKER_PLAN_DESCRIPTION",
       str "VAULT_SERVICE_BROKER_SERVICE_TAGS",
       str "VAULT_SERVICE_BROKER_VAULT_RENEW"] := by
  obtain ⟨pre, post, e1, e2, e3, e4⟩ :=
    credhubLoop_queried_segment w (w.GetLatestByName config.CredhubURL) pfx Field.all config []
  have e2q : (credhubProcess w pfx config).queried = pre.map (lookupKey pfx) := by
    unfold credhubProcess
    rw [e2, List.nil_append]
  have hnd : (Field.all.map (lookupKey pfx)).Nodup :=
    Field.all_nodup.map (lookupKey_injective pfx)
  refine ⟨?_, ⟨pre, post, e1, e2q, e4⟩, hnd, ?_, ?_, by decide⟩
  · intro h
    have hpost := e3 h
    rw [e2q, e1, hpost, List.append_nil]
  · rw [e2q]
    have hpre : pre.Nodup := by
      have := Field.all_nodup
      rw [e1] at this
      exact (List.nodup_append.1 this).1
    exact hpre.map (lookupKey_injective pfx)
  · intro name hm
    rw [e2q, List.mem_map] at hm
    obtain ⟨f, -, hf⟩ := hm
    exact ⟨f, hf.symm⟩

set_option maxRecDepth 1000000 in
theorem credhubProcess_queries_witness :
    (credhubProcess testWorld (str "VAULT_SERVICE_BROKER_") testEnvironment).err = none ∧
    (credhubProcess testWorld (str "VAULT_SERVICE_BROKER_") testEnvironment).queried =
      Field.all.map (lookupKey (str "VAULT_SERVICE_BROKER_")) :=
  ⟨by decide!,
   (credhubProcess_queries testWorld (str "VAULT_SERVICE_BROKER_") testEnvironment).1
     (by decide!)⟩

/-! ## Text of the name-qualified policy outside its stanzas -/

/-- The name-qualified policy contains, for every identity, the two pairs of
lines of the template that belong to no stanza. -/
theorem policyWithNames_stray (iname ig sname sg oname og : GoString) :
    strings.Contains (policyWithNames iname ig sname sg oname og) strayLinesSpace = true ∧
    strings.Contains (policyWithNames iname ig sname sg oname og) strayLinesOrg = true := by
  constructor
  · have h := contains_middle
      (str "\n" ++ stanza (str "  ") (str "cf/" ++ iname ++ str "-" ++ ig) capsList ++
        stanza (str "  ") (str "cf/" ++ ig) capsList ++
        stanza (str "\t") (str "cf/" ++ iname ++ str "-" ++ ig ++ str "/*") capsFull ++
        stanza (str "\t") (str "cf/" ++ ig ++ str "/*") capsFull ++
        stanza (str "  ") (str "cf/" ++ sname ++ str "-" ++ sg) capsList ++
        stanza (str "  ") (str "cf/" ++ sg) capsList ++
        stanza (str "  ") (str "cf/" ++ sname ++ str "-" ++ sg ++ str "/*") capsFull ++
        stanza (str "  ") (str "cf/" ++ sg ++ str "/*") capsFull ++
        stanza (str "  ") (str "cf/" ++ oname ++ str "-" ++ og) capsList ++
        stanza (str "  ") (str "cf/" ++ og) capsList)
      strayLinesSpace
      (stanza (str "  ") (str "cf/" ++ oname ++ str "-" ++ og ++ str "/*") capsReadList ++
        str "\t// OrgID is the unique ID of the space.\n\tOrgID string\n" ++
        stanza (str "  ") (str "cf/" ++ og ++ str "/*") capsReadList)
    unfold policyWithNames
    unfold strayLinesSpace at h ⊢
    simpa only [List.append_assoc] using h
  · have h := contains_middle
      (str "\n" ++ stanza (str "  ") (str "cf/" ++ iname ++ str "-" ++ ig) capsList ++
        stanza (str "  ") (str "cf/" ++ ig) capsList ++
        stanza (str "\t") (str "cf/" ++ iname ++ str "-" ++ ig ++ str "/*") capsFull ++
        stanza (str "\t") (str "cf/" ++ ig ++ str "/*") capsFull ++
        stanza (str "  ") (str "cf/" ++ sname ++ str "-" ++ sg) capsList ++
        stanza (str "  ") (str "cf/" ++ sg) capsList ++
        stanza (str "  ") (str "cf/" ++ sname ++ str "-" ++ sg ++ str "/*") capsFull ++
        stanza (str "  ") (str "cf/" ++ sg ++ str "/*") capsFull ++
        stanza (str "  ") (str "cf/" ++ oname ++ str "-" ++ og) capsList ++
        stanza (str "  ") (str "cf/" ++ og) capsList ++
        str "\t// SpaceID is the unique ID of the space.\n\tSpaceID string\n" ++
        stanza (str "  ") (str "cf/" ++ oname ++ str "-" ++ og ++ str "/*") capsReadList)
      strayLinesOrg
      (stanza (str "  ") (str "cf/" ++ og ++ str "/*") capsReadList)
    unfold policyWithNames
    unfold strayLinesOrg at h ⊢
    simpa only [List.append_assoc] using h

/-- For every identity with all three names the rendered policy contains the
two pairs of lines that belong to no stanza. -/
theorem GeneratePolicy_names_stray (i : instanceInfo) (h : ¬ i.namesAbsent) :
    ∃ out, GeneratePolicy i = Except.ok out ∧
      strings.Contains out strayLinesSpace = true ∧
      strings.Contains out strayLinesOrg = true :=
  ⟨_, (GeneratePolicy_of_names i h).trans (render_withNames i),
    policyWithNames_stray _ _ _ _ _ _⟩

set_option maxRecDepth 1000000 in
/-- C25 at an identity with all three names (organization `acme` with GUID `o1`,
space `dev` with GUID `s1`, instance `db` with GUID `i1`): the rendered
name-qualified policy has its twelve stanzas, and besides them the four lines
`// SpaceID is the unique ID of the space.`, `SpaceID string`,
`// OrgID is the unique ID of the space.` and `OrgID string`, which are not
lines of a stanza.  The GUID-only policy for the same GUIDs has six stanzas and
no other text. -/
theorem GeneratePolicy_names_stray_lines :
    GeneratePolicy ⟨str "o1", str "acme", str "s1", str "dev", str "i1", str "db"⟩ =
      Except.ok (policyWithNames (str "db") (str "i1") (str "dev") (str "s1") (str "acme")
        (str "o1")) ∧
    stanzaCount (policyWithNames (str "db") (str "i1") (str "dev") (str "s1") (str "acme")
      (str "o1")) = 12 ∧
    stanzasOnly (policyWithNames (str "db") (str "i1") (str "dev") (str "s1") (str "acme")
      (str "o1")) = false ∧
    (strings.Split (policyWithNames (str "db") (str "i1") (str "dev") (str "s1") (str "acme")
      (str "o1")) 10).filter (fun l => !isStanzaLine l) =
      [str "\t// SpaceID is the unique ID of the space.", str "\tSpaceID string",
       str "\t// OrgID is the unique ID of the space.", str "\tOrgID string"] ∧
    GeneratePolicy ⟨str "o1", [], str "s1", [], str "i1", []⟩ =
      Except.ok (policyWithoutNames (str "i1") (str "s1") (str "o1")) ∧
    stanzaCount (policyWithoutNames (str "i1") (str "s1") (str "o1")) = 6 ∧
    stanzasOnly (policyWithoutNames (str "i1") (str "s1") (str "o1")) = true := by
  refine ⟨by decide!, by decide!, by decide!, by decide!, by decide!, by decide!, by decide!⟩

/-! ## Trailing slashes after any authority -/

/-- The bytes of an authority as `String` writes it: none of `#`, `?`, `/` and no
control byte. -/
theorem written_authority_bytes (user : Option url.Userinfo) (hst : GoString) :
    ∀ c ∈ userText user ++ url.escape hst url.encoding.encodeHost,
      c ≠ 35 ∧ c ≠ 63 ∧ c ≠ 47 ∧ (c < 32 || c = 127) = false := by
  intro c hc
  rcases List.mem_append.1 hc with m | m
  · unfold userText at m
    cases user with
    | none => exact absurd m (List.not_mem_nil _)
    | some ui =>
      rcases List.mem_append.1 m with m | m
      · have := mem_userinfo_string ui c m
        exact ⟨this.1, this.2.1, this.2.2.1, this.2.2.2.2.1⟩
      · simp only [List.mem_singleton] at m
        subst m; decide
  · have := mem_escape_host hst c m
    exact ⟨this.1, this.2.1, this.2.2.1, this.2.2.2.2⟩

/-- Go `normalizeAddr` on `sc://A` followed by a plain path, for a plain scheme
and an authority `A` that the parser accepts with a non-empty host and that
`String` writes back as it is: scheme and authority are kept, the path loses
its trailing slashes and gets exactly one. -/
theorem normalizeAddr_written_authority (sc A P : GoString) (user : Option url.Userinfo)
    (hst : GoString) (hsc : isPlainScheme sc = true)
    (hA : url.parseAuthority A = some (user, hst)) (hhst : hst ≠ [])
    (hw : userText user ++ url.escape hst url.encoding.encodeHost = A)
    (hhead : P.head? = some 47)
    (hP : ∀ c ∈ P, url.shouldEscape c url.encoding.encodePath = false) :
    normalizeAddr (sc ++ str "://" ++ A ++ P) =
      sc ++ str "://" ++ A ++ (strings.TrimRight P (str "/") ++ str "/") := by
  have hAb : ∀ c ∈ A, c ≠ 35 ∧ c ≠ 63 ∧ c ≠ 47 ∧ (c < 32 || c = 127) = false := by
    rw [← hw]; exact written_authority_bytes user hst
  have hscne := isPlainScheme_ne_nil _ hsc
  have hdot := isPlainScheme_no_dot _ hsc
  have hparse := parse_of_shape sc A P [] false hsc
    (fun c hc => ⟨(hAb c hc).2.1, (hAb c hc).2.2.1, (hAb c hc).2.2.2⟩) hhead
    (fun c hc => ⟨(pathByte_facts c (hP c hc)).2.1, (pathByte_facts c (hP c hc)).2.2.2⟩)
    (fun c hc => absurd hc (List.not_mem_nil _)) (fun h => absurd h (by decide))
  have hq : queryText false [] = [] := by decide
  rw [hq, List.append_nil, hA] at hparse
  simp only [] at hparse
  have hun : url.unescape url.encoding.encodePath P = some P :=
    unescape_of_plain _ (by decide) P
      (Or.inr (fun c hc => ⟨(pathByte_facts c (hP c hc)).1, rfl⟩))
  have hesc : url.escape P url.encoding.encodePath = P := escape_of_plain _ (by decide) P hP
  rw [setPath_eq _ P P hun, hesc, if_pos rfl] at hparse
  have h35 : (35 : Byte) ∉ sc ++ 58 :: 47 :: 47 :: (A ++ P) := by
    intro m
    rcases List.mem_append.1 m with m | m
    · have := isPlainScheme_bytes _ hsc 35 m
      revert this; decide
    · rcases List.mem_cons.1 m with e | m
      · exact absurd e (by decide)
      · rcases List.mem_cons.1 m with e | m
        · exact absurd e (by decide)
        · rcases List.mem_cons.1 m with e | m
          · exact absurd e (by decide)
          · rcases List.mem_append.1 m with m | m
            · exact (hAb 35 m).1 rfl
            · exact (pathByte_facts 35 (hP 35 m)).2.2.1 rfl
  have hP0 := parse_fragment_nil _ _ h35 hparse
  have e1 : sc ++ str "://" ++ A ++ P = sc ++ 58 :: 47 :: 47 :: (A ++ P) := by
    rw [str_scheme_sep]; simp [List.append_assoc]
  have hne0 : sc ++ 58 :: 47 :: 47 :: (A ++ P) ≠ [] := by simp
  rw [e1, normalizeAddr_eq _ _ hne0 hP0,
    normalizedURL_of_scheme_host _ hscne hdot hhst]
  -- the path that is written
  have hT : ∀ c ∈ strings.TrimRight P (str "/") ++ str "/",
      url.shouldEscape c url.encoding.encodePath = false := by
    intro c hc
    rcases List.mem_append.1 hc with m | m
    · exact hP c (mem_of_mem_trimRight m)
    · rw [str_slash] at m
      rw [List.mem_singleton.1 m]; decide
  have hTe : url.escape (strings.TrimRight P (str "/") ++ str "/") url.encoding.encodePath =
      strings.TrimRight P (str "/") ++ str "/" := escape_of_plain _ (by decide) _ hT
  have hTh := trimRight_slash_head P (Or.inr hhead)
  have hTne : strings.TrimRight P (str "/") ++ str "/" ≠ [] := by
    intro e; rw [e] at hTh; simp at hTh
  have hTstar : strings.TrimRight P (str "/") ++ str "/" ≠ str "*" := by
    intro e; rw [e] at hTh; revert hTh; decide
  generalize strings.TrimRight P (str "/") ++ str "/" = T at hTe hTh hTne hTstar ⊢
  rw [String_of_host _ hscne rfl hhst]
  have hEP : (⟨sc, [], user, hst, T, [], false, false, [], [], []⟩ : url.URL).EscapedPath = T := by
    unfold url.URL.EscapedPath
    simp [hTe, hTstar]
  show sc ++ 58 :: 47 :: 47 :: (userText user ++ url.escape hst url.encoding.encodeHost ++
      pathText ⟨sc, [], user, hst, T, [], false, false, [], [], []⟩) ++
      queryText false [] ++ fragmentText ⟨sc, [], user, hst, T, [], false, false, [], [], []⟩ = _
  have hpt : pathText ⟨sc, [], user, hst, T, [], false, false, [], [], []⟩ = T := by
    unfold pathText
    rw [hEP, if_neg (fun h => h.2 hTh)]
    rfl
  have hft : fragmentText ⟨sc, [], user, hst, T, [], false, false, [], [], []⟩ = [] := by
    unfold fragmentText
    rw [if_neg (fun h => h rfl)]
  rw [hpt, hft, hq, hw, str_scheme_sep]
  simp [List.append_assoc]

/-- C18, amended: for an input `scheme://authority/p` with a scheme of lower-case
letters, digits, `+` and `-` that starts with a letter, an authority
`[user[:password]@]host[:port]` that `url.Parse` accepts with a non-empty host
and that `String` writes back as it is, and a non-empty path text `p` that
holds no escape, query or fragment and does not end in a slash, `normalizeAddr`
maps the input followed by any number of slashes to the input followed by
exactly one. -/
theorem normalizeAddr_trailing_slashes_written (sc A p : GoString) (n : Nat)
    (user : Option url.Userinfo) (hst : GoString) (hsc : isPlainScheme sc = true)
    (hA : url.parseAuthority A = some (user, hst)) (hhst : hst ≠ [])
    (hw : userText user ++ url.escape hst url.encoding.encodeHost = A)
    (hp : isUnescapedPath p = true) (hne : p ≠ []) (hend : p.getLast? ≠ some 47) :
    normalizeAddr (sc ++ str "://" ++ A ++ str "/" ++ p ++ slashes n) =
      sc ++ str "://" ++ A ++ str "/" ++ p ++ str "/" := by
  have hall := (isUnescapedPath_iff p).1 hp
  have hP : ∀ c ∈ str "/" ++ p ++ slashes n,
      url.shouldEscape c url.encoding.encodePath = false := by
    intro c hc
    rcases List.mem_append.1 hc with m | m
    · rcases List.mem_append.1 m with m | m
      · rw [str_slash, List.mem_singleton] at m
        subst m; exact slash_unescaped
      · exact hall c m
    · unfold slashes at m
      rw [List.eq_of_mem_replicate m]
      exact slash_unescaped
  have hlast : (str "/" ++ p).getLast? ≠ some 47 := by
    rw [List.getLast?_append_of_ne_nil _ hne]
    exact hend
  have e : sc ++ str "://" ++ A ++ str "/" ++ p ++ slashes n =
      sc ++ str "://" ++ A ++ (str "/" ++ p ++ slashes n) := by
    simp only [List.append_assoc]
  have hhead : (str "/" ++ p ++ slashes n).head? = some 47 := rfl
  rw [e, normalizeAddr_written_authority sc A (str "/" ++ p ++ slashes n) user hst hsc hA hhst hw
    hhead hP, trimRight_append_slashes _ n hlast]
  simp only [List.append_assoc]

set_option maxRecDepth 1000000 in
/-- Witness for C18 (amended): `https://www.example.com/foo` followed by no slash
and by seven slashes. -/
theorem normalizeAddr_trailing_slashes_written_witness :
    str "https" ++ str "://" ++ str "www.example.com" ++ str "/" ++ str "foo" ++ slashes 7 =
      str "https://www.example.com/foo///////" ∧
    normalizeAddr (str "https://www.example.com/foo") = str "https://www.example.com/foo/" ∧
    normalizeAddr (str "https" ++ str "://" ++ str "www.example.com" ++ str "/" ++
      str "foo" ++ slashes 7) =
      str "https" ++ str "://" ++ str "www.example.com" ++ str "/" ++ str "foo" ++ str "/" :=
  ⟨by decide, by decide!,
    normalizeAddr_trailing_slashes_written (str "https") (str "www.example.com") (str "foo") 7
      none (str "www.example.com") (by decide) (by decide!) (by decide) (by decide!)
      (by decide) (by decide) (by decide)⟩

/-! ## Composite paths and the escaping of identifiers -/

set_option maxRecDepth 1000000 in
/-- C5, as stated, fails: for an identity whose instance name is `my+db` (GUID
`i1`) the rendered policy has no stanza on the composite path `cf/my+db-i1`;
the path of the stanza is `cf/my&#43;db-i1`. -/
theorem GeneratePolicy_composite_path_escaped :
    GeneratePolicy ⟨str "o1", str "acme", str "s1", str "dev", str "i1", str "my+db"⟩ =
      Except.ok (policyWithNames (str "my&#43;db") (str "i1") (str "dev") (str "s1")
        (str "acme") (str "o1")) ∧
    strings.Contains (policyWithNames (str "my&#43;db") (str "i1") (str "dev") (str "s1")
      (str "acme") (str "o1")) (str "cf/my+db-i1") = false ∧
    ¬ Grants (policyWithNames (str "my&#43;db") (str "i1") (str "dev") (str "s1")
      (str "acme") (str "o1")) (str "cf/my+db-i1") capsList ∧
    Grants (policyWithNames (str "my&#43;db") (str "i1") (str "dev") (str "s1")
      (str "acme") (str "o1")) (str "cf/my&#43;db-i1") capsList := by
  refine ⟨by decide!, by decide!, ?_, ?_⟩
  · unfold Grants
    decide!
  · unfold Grants
    decide!

/-- C5, amended: for every identity with all three names non-empty, the rendered
policy has, for each of instance, space and organization, a stanza on the
composite path `cf/<name>-<guid>` with the same capability list (`["list"]`) as
the stanza on `cf/<guid>`, and a stanza on `cf/<name>-<guid>/*` with the same
capability list as the stanza on `cf/<guid>/*` (the full list for instance and
space, `["read", "list"]` for the organization), where `<name>` and `<guid>` are
the identifiers after `htmlEscaper`; so when no identifier contains one of the
seven bytes that `htmlEscaper` replaces, they are the identifiers
themselves. -/
theorem GeneratePolicy_composite_escaped (i : instanceInfo)
    (h : i.OrganizationName ≠ [] ∧ i.SpaceName ≠ [] ∧ i.ServiceInstanceName ≠ []) :
    ∃ out, GeneratePolicy i = Except.ok out ∧
      CompositeGrants htmlEscaper i out ∧
      (i.identifiersSafe → CompositeGrants (fun s => s) i out) := by
  have hn : ¬ i.namesAbsent := by
    unfold instanceInfo.namesAbsent
    rintro (h1 | h1 | h1)
    · exact h.1 h1
    · exact h.2.1 h1
    · exact h.2.2 h1
  have g := grants_policyWithNames (htmlEscaper i.ServiceInstanceName)
    (htmlEscaper i.ServiceInstanceGUID) (htmlEscaper i.SpaceName) (htmlEscaper i.SpaceGUID)
    (htmlEscaper i.OrganizationName) (htmlEscaper i.OrganizationGUID)
  obtain ⟨⟨b1, b2, b3, b4, b5, b6⟩, ⟨c1, c2, c3, c4, c5, c6⟩⟩ := g
  have key : CompositeGrants htmlEscaper i (policyWithNames (htmlEscaper i.ServiceInstanceName)
      (htmlEscaper i.ServiceInstanceGUID) (htmlEscaper i.SpaceName) (htmlEscaper i.SpaceGUID)
      (htmlEscaper i.OrganizationName) (htmlEscaper i.OrganizationGUID)) :=
    ⟨⟨c1, b1⟩, ⟨c4, b4⟩, ⟨c2, b2⟩, ⟨c5, b5⟩, ⟨c3, b3⟩, ⟨c6, b6⟩⟩
  refine ⟨_, (GeneratePolicy_of_names i hn).trans (render_withNames i), key, fun hs => ?_⟩
  unfold instanceInfo.identifiersSafe at hs
  obtain ⟨s1, s2, s3, s4, s5, s6⟩ := hs
  have k2 := key
  simp only [CompositeGrants, htmlEscaper_of_htmlSafe _ s1, htmlEscaper_of_htmlSafe _ s2,
    htmlEscaper_of_htmlSafe _ s3, htmlEscaper_of_htmlSafe _ s4, htmlEscaper_of_htmlSafe _ s5,
    htmlEscaper_of_htmlSafe _ s6] at k2 ⊢
  exact k2

set_option maxRecDepth 1000000 in
/-- Witness for C5 (amended): an identity with all three names and identifiers
that need no escaping. -/
theorem GeneratePolicy_composite_escaped_witness :
    ∃ out, GeneratePolicy ⟨str "o1", str "acme", str "s1", str "dev", str "i1", str "db"⟩ =
        Except.ok out ∧
      Grants out (str "cf/db-i1") capsList ∧ Grants out (str "cf/i1") capsList := by
  obtain ⟨out, h, -, g⟩ := GeneratePolicy_composite_escaped
    ⟨str "o1", str "acme", str "s1", str "dev", str "i1", str "db"⟩ (by decide)
  have g2 := (g (by unfold instanceInfo.identifiersSafe; decide)).1
  exact ⟨out, h, g2⟩

/-! ## Quoted texts in a policy -/

/-- Two texts that agree up to the first occurrence of a byte: the parts before
it are equal, and so are the parts after it. -/
theorem cut_unique (s : Byte) (x y z w : GoString) (hx : s ∉ x) (hy : s ∉ y)
    (h : x ++ s :: z = y ++ s :: w) : x = y ∧ z = w := by
  rcases List.append_eq_append_iff.1 h with ⟨a, h1, h2⟩ | ⟨a, h1, h2⟩
  · cases a with
    | nil =>
      simp only [List.append_nil] at h1
      simp only [List.nil_append, List.cons.injEq, true_and] at h2
      exact ⟨h1.symm, h2⟩
    | cons d a2 =>
      simp only [List.cons_append, List.cons.injEq] at h2
      exfalso
      apply hy
      rw [h1, ← h2.1]
      simp
  · cases a with
    | nil =>
      simp only [List.append_nil] at h1
      simp only [List.nil_append, List.cons.injEq, true_and] at h2
      exact ⟨h1, h2.symm⟩
    | cons d a2 =>
      simp only [List.cons_append, List.cons.injEq] at h2
      exfalso
      apply hx
      rw [h1, ← h2.1]
      simp

theorem head_ne_space (t : GoString) (b : Byte) (h : t.head? = some b) (hb : b ≠ 32) :
    t.head? ≠ some 32 := by
  rw [h]
  intro e
  exact hb (Option.some.inj e)

theorem not_quotedAt_of_not_mem (p r t : GoString) (h : (34 : Byte) ∉ t) : ¬ QuotedAt p r t := by
  rintro ⟨a, e⟩
  apply h
  rw [e]
  simp

theorem quotedAt_drop_left (p r x t : GoString) (hx : (34 : Byte) ∉ x)
    (h : QuotedAt p r (x ++ t)) : QuotedAt p r t := by
  obtain ⟨a, e⟩ := h
  rcases List.append_eq_append_iff.1 e with ⟨a2, h1, h2⟩ | ⟨a2, h1, h2⟩
  · exact ⟨a2, h2⟩
  · cases a2 with
    | nil =>
      simp only [List.nil_append] at h2
      exact ⟨[], by rw [← h2]; rfl⟩
    | cons d a3 =>
      simp only [List.cons_append, List.cons.injEq] at h2
      exfalso
      apply hx
      rw [h1, ← h2.1]
      simp

theorem quotedAt_at_quote (p r t : GoString) (h : QuotedAt p r (34 :: t)) :
    t = p ++ 34 :: r ∨ QuotedAt p r t := by
  obtain ⟨a, e⟩ := h
  cases a with
  | nil =>
    simp only [List.nil_append, List.cons.injEq, true_and] at e
    exact Or.inl e
  | cons d a2 =>
    simp only [List.cons_append, List.cons.injEq] at e
    exact Or.inr ⟨a2, e.2⟩

/-- A quoted text in `w"t`, for a text `w` without a quote, lies in `t`: at its
start or further on. -/
theorem quotedAt_token (p r w t : GoString) (hw : (34 : Byte) ∉ w)
    (h : QuotedAt p r (w ++ 34 :: t)) : t = p ++ 34 :: r ∨ QuotedAt p r t :=
  quotedAt_at_quote p r t (quotedAt_drop_left p r w _ hw h)

/-- A quoted text that is followed by a blank is not the text `w2` when that is
followed by something else. -/
theorem quotedAt_skip (p r w w2 t : GoString) (hp : (34 : Byte) ∉ p) (hr : r.head? = some 32)
    (hw : (34 : Byte) ∉ w) (hw2 : (34 : Byte) ∉ w2) (ht : t.head? ≠ some 32)
    (h : QuotedAt p r (w ++ 34 :: (w2 ++ 34 :: t))) : QuotedAt p r (w2 ++ 34 :: t) := by
  rcases quotedAt_token p r w _ hw h with e | h2
  · have := (cut_unique 34 w2 p t r hw2 hp e).2
    rw [this] at ht
    exact absurd hr ht
  · exact h2

/-- The body of a stanza determines its capability list. -/
theorem stanza_body_unique (ind0 ind c caps b t : GoString)
    (hind0 : ind0 = str "  " ∨ ind0 = str "\t") (hind : ind = str "  " ∨ ind = str "\t")
    (hc : (10 : Byte) ∉ c) (hcaps : (10 : Byte) ∉ caps)
    (h : str " \x7b\n" ++ ind0 ++ str "capabilities = " ++ c ++ str "\n\x7d\n" ++ b =
      str " \x7b\n" ++ ind ++ str "capabilities = " ++ caps ++ str "\n\x7d\n" ++ t) :
    c = caps := by
  simp only [List.append_assoc] at h
  have h1 := List.append_cancel_left h
  have key : ∀ i : GoString, i ++ (str "capabilities = " ++ (c ++ (str "\n\x7d\n" ++ b))) =
      i ++ (str "capabilities = " ++ (caps ++ (str "\n\x7d\n" ++ t))) → c = caps := by
    intro i hi
    have h2 := List.append_cancel_left (List.append_cancel_left hi)
    have h3 : c ++ 10 :: (125 :: 10 :: b) = caps ++ 10 :: (125 :: 10 :: t) := h2
    exact (cut_unique 10 c caps _ _ hc hcaps h3).1
  rcases hind0 with e0 | e0 <;> rcases hind with e | e
  · rw [e0, e] at h1; exact key _ h1
  · rw [e0, e] at h1
    exact absurd (List.head_eq_of_cons_eq h1) (by decide)
  · rw [e0, e] at h1
    exact absurd (List.head_eq_of_cons_eq h1) (by decide)
  · rw [e0, e] at h1; exact key _ h1

/-! ## The quoted texts of one stanza -/

/-- The text of a stanza, cut at its first two quotes. -/
theorem stanza_cut (pre ind path caps t : GoString) :
    pre ++ stanza ind path caps ++ t =
      (pre ++ str "path ") ++ 34 :: (path ++ 34 ::
        (str " \x7b\n" ++ ind ++ str "capabilities = " ++ caps ++ str "\n\x7d\n" ++ t)) := by
  simp only [stanza, List.append_assoc]
  rfl

theorem body_capsList (ind t : GoString) :
    str " \x7b\n" ++ ind ++ str "capabilities = " ++ capsList ++ str "\n\x7d\n" ++ t =
      (str " \x7b\n" ++ ind ++ str "capabilities = [") ++ 34 :: (str "list" ++ 34 ::
        (str "]\n\x7d\n" ++ t)) := by
  simp only [capsList, List.append_assoc]
  rfl

theorem body_capsReadList (ind t : GoString) :
    str " \x7b\n" ++ ind ++ str "capabilities = " ++ capsReadList ++ str "\n\x7d\n" ++ t =
      (str " \x7b\n" ++ ind ++ str "capabilities = [") ++ 34 :: (str "read" ++ 34 ::
        (str ", " ++ 34 :: (str "list" ++ 34 :: (str "]\n\x7d\n" ++ t)))) := by
  simp only [capsReadList, List.append_assoc]
  rfl

theorem body_capsFull (ind t : GoString) :
    str " \x7b\n" ++ ind ++ str "capabilities = " ++ capsFull ++ str "\n\x7d\n" ++ t =
      (str " \x7b\n" ++ ind ++ str "capabilities = [") ++ 34 :: (str "create" ++ 34 ::
        (str ", " ++ 34 :: (str "read" ++ 34 :: (str ", " ++ 34 :: (str "update" ++ 34 ::
        (str ", " ++ 34 :: (str "delete" ++ 34 :: (str ", " ++ 34 :: (str "list" ++ 34 ::
        (str "]\n\x7d\n" ++ t)))))))))) := by
  simp only [capsFull, List.append_assoc]
  rfl

theorem quote_not_mem_opening (ind : GoString) (hind : ind = str "  " ∨ ind = str "\t") :
    (34 : Byte) ∉ str " \x7b\n" ++ ind ++ str "capabilities = [" := by
  rcases hind with e | e <;> rw [e] <;> decide

/-- The end of a stanza: a quoted text that is followed by a blank and lies in
the last quoted word of a capability list and what follows lies in what
follows the stanza. -/
theorem quotedAt_closing (p r w t : GoString) (hw : (34 : Byte) ∉ w)
    (ht : ∀ x : GoString, (34 : Byte) ∉ x → x ++ t ≠ p ++ 34 :: r)
    (h : QuotedAt p r (w ++ 34 :: (str "]\n\x7d\n" ++ t))) : QuotedAt p r t := by
  rcases quotedAt_token p r w _ hw h with e | h2
  · exact absurd e (ht _ (by decide))
  · exact quotedAt_drop_left p r _ t (by decide) h2

/-- A quoted text that is followed by a blank and lies in a stanza after its
path lies in what follows the stanza. -/
theorem quotedAt_body (p r path ind caps t : GoString) (hp : (34 : Byte) ∉ p)
    (hr : r.head? = some 32) (hpath : (34 : Byte) ∉ path)
    (hind : ind = str "  " ∨ ind = str "\t")
    (hcaps : caps = capsList ∨ caps = capsFull ∨ caps = capsReadList)
    (ht : ∀ x : GoString, (34 : Byte) ∉ x → x ++ t ≠ p ++ 34 :: r)
    (h : QuotedAt p r (path ++ 34 ::
      (str " \x7b\n" ++ ind ++ str "capabilities = " ++ caps ++ str "\n\x7d\n" ++ t))) :
    QuotedAt p r t := by
  have ho := quote_not_mem_opening ind hind
  rcases hcaps with e | e | e
  · rw [e, body_capsList] at h
    have h1 := quotedAt_skip p r _ _ _ hp hr hpath ho (head_ne_space _ 108 (by rfl) (by decide)) h
    have h2 := quotedAt_skip p r _ _ _ hp hr ho (by decide) (head_ne_space _ 93 (by rfl) (by decide)) h1
    exact quotedAt_closing p r _ t (by decide) ht h2
  · rw [e, body_capsFull] at h
    have h1 := quotedAt_skip p r _ _ _ hp hr hpath ho (head_ne_space _ 99 (by rfl) (by decide)) h
    have h2 := quotedAt_skip p r _ _ _ hp hr ho (by decide) (head_ne_space _ 44 (by rfl) (by decide)) h1
    have h3 := quotedAt_skip p r _ _ _ hp hr (by decide) (by decide)
      (head_ne_space _ 114 (by rfl) (by decide)) h2
    have h4 := quotedAt_skip p r _ _ _ hp hr (by decide) (by decide)
      (head_ne_space _ 44 (by rfl) (by decide)) h3
    have h5 := quotedAt_skip p r _ _ _ hp hr (by decide) (by decide)
      (head_ne_space _ 117 (by rfl) (by decide)) h4
    have h6 := quotedAt_skip p r _ _ _ hp hr (by decide) (by decide)
      (head_ne_space _ 44 (by rfl) (by decide)) h5
    have h7 := quotedAt_skip p r _ _ _ hp hr (by decide) (by decide)
      (head_ne_space _ 100 (by rfl) (by decide)) h6
    have h8 := quotedAt_skip p r _ _ _ hp hr (by decide) (by decide)
      (head_ne_space _ 44 (by rfl) (by decide)) h7
    have h9 := quotedAt_skip p r _ _ _ hp hr (by decide) (by decide)
      (head_ne_space _ 108 (by rfl) (by decide)) h8
    have h10 := quotedAt_skip p r _ _ _ hp hr (by decide) (by decide)
      (head_ne_space _ 93 (by rfl) (by decide)) h9
    exact quotedAt_closing p r _ t (by decide) ht h10
  · rw [e, body_capsReadList] at h
    have h1 := quotedAt_skip p r _ _ _ hp hr hpath ho (head_ne_space _ 114 (by rfl) (by decide)) h
    have h2 := quotedAt_skip p r _ _ _ hp hr ho (by decide) (head_ne_space _ 44 (by rfl) (by decide)) h1
    have h3 := quotedAt_skip p r _ _ _ hp hr (by decide) (by decide)
      (head_ne_space _ 108 (by rfl) (by decide)) h2
    have h4 := quotedAt_skip p r _ _ _ hp hr (by decide) (by decide)
      (head_ne_space _ 93 (by rfl) (by decide)) h3
    exact quotedAt_closing p r _ t (by decide) ht h4

theorem newline_not_mem_caps (caps : GoString)
    (hcaps : caps = capsList ∨ caps = capsFull ∨ caps = capsReadList) : (10 : Byte) ∉ caps := by
  rcases hcaps with e | e | e <;> rw [e] <;> decide

/-- A stanza text `path "p" {`, indented `capabilities = c` and `}` that stands
in a text beginning with a stanza is that stanza, or stands in what follows
it. -/
theorem quotedAt_stanza (p r c b ind0 pre path ind caps t : GoString)
    (hp : (34 : Byte) ∉ p) (hc : (10 : Byte) ∉ c)
    (hr : r = str " \x7b\n" ++ ind0 ++ str "capabilities = " ++ c ++ str "\n\x7d\n" ++ b)
    (hind0 : ind0 = str "  " ∨ ind0 = str "\t")
    (hpre : (34 : Byte) ∉ pre) (hpath : (34 : Byte) ∉ path)
    (hind : ind = str "  " ∨ ind = str "\t")
    (hcaps : caps = capsList ∨ caps = capsFull ∨ caps = capsReadList)
    (ht : ∀ x : GoString, (34 : Byte) ∉ x → x ++ t ≠ p ++ 34 :: r)
    (h : QuotedAt p r (pre ++ stanza ind path caps ++ t)) :
    (p = path ∧ c = caps) ∨ QuotedAt p r t := by
  have hr32 : r.head? = some 32 := by rw [hr]; rfl
  rw [stanza_cut] at h
  have hpre2 : (34 : Byte) ∉ pre ++ str "path " := by
    intro m
    rcases List.mem_append.1 m with m | m
    · exact hpre m
    · revert m; decide
  rcases quotedAt_token p r _ _ hpre2 h with e | h2
  · left
    obtain ⟨e1, e2⟩ := cut_unique 34 path p _ r hpath hp e
    refine ⟨e1.symm, ?_⟩
    rw [hr] at e2
    exact stanza_body_unique ind0 ind c caps b t hind0 hind hc
      (newline_not_mem_caps caps hcaps) e2.symm
  · right
    exact quotedAt_body p r path ind caps t hp hr32 hpath hind hcaps ht h2

/-- No quoted text that is followed by a blank ends at the first quote of a
text that begins with a stanza on a path `cf/...`. -/
theorem not_quoted_before_stanza (p r pre ind y caps t : GoString) (hp : (34 : Byte) ∉ p)
    (hr : r.head? = some 32) (hpre : (34 : Byte) ∉ pre) :
    ∀ x : GoString, (34 : Byte) ∉ x →
      x ++ (pre ++ stanza ind (str "cf/" ++ y) caps ++ t) ≠ p ++ 34 :: r := by
  intro x hx e
  rw [stanza_cut] at e
  have hseg : (34 : Byte) ∉ x ++ (pre ++ str "path ") := by
    intro m
    rcases List.mem_append.1 m with m | m
    · exact hx m
    · rcases List.mem_append.1 m with m | m
      · exact hpre m
      · revert m; decide
  have e2 : (x ++ (pre ++ str "path ")) ++ 34 :: (str "cf/" ++ y ++ 34 ::
      (str " \x7b\n" ++ ind ++ str "capabilities = " ++ caps ++ str "\n\x7d\n" ++ t)) =
      p ++ 34 :: r := by
    rw [← e]; simp only [List.append_assoc]
  have := (cut_unique 34 _ p _ r hseg hp e2).2
  rw [← this] at hr
  exact absurd hr (head_ne_space _ 99 (by rfl) (by decide))

theorem not_quoted_before_nil (p r : GoString) :
    ∀ x : GoString, (34 : Byte) ∉ x → x ++ ([] : GoString) ≠ p ++ 34 :: r := by
  intro x hx e
  apply hx
  rw [List.append_nil] at e
  rw [e]
  simp

/-! ## Every stanza of a policy -/

/-- A stanza text `path "p" {`, indented `capabilities = c` and `}` that stands
in a sequence of stanzas is one of them. -/
theorem quotedAt_renderStanzas (p r c b ind0 : GoString) (hp : (34 : Byte) ∉ p)
    (hc : (10 : Byte) ∉ c)
    (hr : r = str " \x7b\n" ++ ind0 ++ str "capabilities = " ++ c ++ str "\n\x7d\n" ++ b)
    (hind0 : ind0 = str "  " ∨ ind0 = str "\t") :
    ∀ l : List (GoString × GoString × GoString × GoString),
      (∀ st ∈ l, (34 : Byte) ∉ st.1 ∧ (st.2.1 = str "  " ∨ st.2.1 = str "\t") ∧
        (34 : Byte) ∉ st.2.2.1 ∧
        (st.2.2.2 = capsList ∨ st.2.2.2 = capsFull ∨ st.2.2.2 = capsReadList)) →
      QuotedAt p r (renderStanzas l) →
      ∃ st ∈ l, p = str "cf/" ++ st.2.2.1 ∧ c = st.2.2.2
  | [], _, h => absurd h (not_quotedAt_of_not_mem p r [] (List.not_mem_nil _))
  | (pre, ind, y, caps) :: l, hl, h => by
    have hr32 : r.head? = some 32 := by rw [hr]; rfl
    obtain ⟨h1, h2, h3, h4⟩ := hl (pre, ind, y, caps) (List.mem_cons_self _ _)
    have hpath : (34 : Byte) ∉ str "cf/" ++ y := by
      intro m
      rcases List.mem_append.1 m with m | m
      · revert m; decide
      · exact h3 m
    have ht : ∀ x : GoString, (34 : Byte) ∉ x → x ++ renderStanzas l ≠ p ++ 34 :: r := by
      cases l with
      | nil => exact not_quoted_before_nil p r
      | cons st2 l2 =>
        obtain ⟨pre2, ind2, y2, caps2⟩ := st2
        have hpre2 := (hl (pre2, ind2, y2, caps2)
          (List.mem_cons_of_mem _ (List.mem_cons_self _ _))).1
        exact not_quoted_before_stanza p r pre2 ind2 y2 caps2 (renderStanzas l2) hp hr32 hpre2
    have h0 : QuotedAt p r (pre ++ stanza ind (str "cf/" ++ y) caps ++ renderStanzas l) := h
    rcases quotedAt_stanza p r c b ind0 pre (str "cf/" ++ y) ind caps (renderStanzas l) hp hc hr
      hind0 h1 hpath h2 h4 ht h0 with ⟨e1, e2⟩ | h5
    · exact ⟨(pre, ind, y, caps), List.mem_cons_self _ _, e1, e2⟩
    · obtain ⟨st, hst, e⟩ := quotedAt_renderStanzas p r c b ind0 hp hc hr hind0 l
        (fun st hst => hl st (List.mem_cons_of_mem _ hst)) h5
      exact ⟨st, List.mem_cons_of_mem _ hst, e⟩

/-- A stanza that a text grants stands in it as a quoted path followed by the
body of the stanza. -/
theorem quotedAt_of_grants (out p c : GoString) (h : Grants out p c) :
    ∃ ind0 b, (ind0 = str "  " ∨ ind0 = str "\t") ∧
      QuotedAt p (str " \x7b\n" ++ ind0 ++ str "capabilities = " ++ c ++ str "\n\x7d\n" ++ b)
        out := by
  have key : ∀ ind0 : GoString, strings.Contains out (stanza ind0 p c) = true →
      ∃ b, QuotedAt p
        (str " \x7b\n" ++ ind0 ++ str "capabilities = " ++ c ++ str "\n\x7d\n" ++ b) out := by
    intro ind0 hc
    rw [contains_iff_subslice] at hc
    obtain ⟨s, t, e⟩ := hc
    refine ⟨t, s ++ str "path ", ?_⟩
    rw [← e, stanza_cut]
  rcases h with h | h
  · obtain ⟨b, hb⟩ := key _ h
    exact ⟨_, b, Or.inl rfl, hb⟩
  · obtain ⟨b, hb⟩ := key _ h
    exact ⟨_, b, Or.inr rfl, hb⟩

theorem policyWithoutNames_stanzas (ig sg og : GoString) :
    policyWithoutNames ig sg og = renderStanzas
      [(str "\n", str "  ", ig, capsList), (str "\n", str "\t", ig ++ str "/*", capsFull),
       (str "\n", str "  ", sg, capsList), (str "\n", str "  ", sg ++ str "/*", capsFull),
       (str "\n", str "  ", og, capsList),
       (str "\n", str "  ", og ++ str "/*", capsReadList)] := by
  simp only [policyWithoutNames, renderStanzas, List.append_assoc, List.append_nil]

theorem policyWithNames_stanzas (iname ig sname sg oname og : GoString) :
    policyWithNames iname ig sname sg oname og = renderStanzas
      [(str "\n", str "  ", iname ++ str "-" ++ ig, capsList),
       ([], str "  ", ig, capsList),
       ([], str "\t", iname ++ str "-" ++ ig ++ str "/*", capsFull),
       ([], str "\t", ig ++ str "/*", capsFull),
       ([], str "  ", sname ++ str "-" ++ sg, capsList),
       ([], str "  ", sg, capsList),
       ([], str "  ", sname ++ str "-" ++ sg ++ str "/*", capsFull),
       ([], str "  ", sg ++ str "/*", capsFull),
       ([], str "  ", oname ++ str "-" ++ og, capsList),
       ([], str "  ", og, capsList),
       (str "\t// SpaceID is the unique ID of the space.\n\tSpaceID string\n", str "  ",
         oname ++ str "-" ++ og ++ str "/*", capsReadList),
       (str "\t// OrgID is the unique ID of the space.\n\tOrgID string\n", str "  ",
         og ++ str "/*", capsReadList)] := by
  simp only [policyWithNames, renderStanzas, List.append_assoc, List.append_nil,
    List.nil_append]

/-- Every stanza of the GUID-only policy is one of its six stanzas. -/
theorem every_stanza_withoutNames (ig sg og p c : GoString) (hig : (34 : Byte) ∉ ig)
    (hsg : (34 : Byte) ∉ sg) (hog : (34 : Byte) ∉ og) (hp : (34 : Byte) ∉ p)
    (hc : (10 : Byte) ∉ c) (h : Grants (policyWithoutNames ig sg og) p c) :
    (p, c) ∈ stanzasWithoutNames ig sg og := by
  obtain ⟨ind0, b, hind0, hq⟩ := quotedAt_of_grants _ p c h
  rw [policyWithoutNames_stanzas] at hq
  have h34 : (34 : Byte) ∉ str "/*" := by decide
  have hn : (34 : Byte) ∉ str "\n" := by decide
  obtain ⟨st, hst, e1, e2⟩ := quotedAt_renderStanzas p _ c b ind0 hp hc rfl hind0 _ (by
    intro st hst
    simp only [List.mem_cons, List.mem_singleton, List.not_mem_nil, or_false] at hst
    rcases hst with e | e | e | e | e | e <;> subst e <;>
      simp [hig, hsg, hog, h34, hn]) hq
  simp only [List.mem_cons, List.mem_singleton, List.not_mem_nil, or_false] at hst
  unfold stanzasWithoutNames
  rcases hst with e | e | e | e | e | e <;> subst e <;>
    simp [e1, e2, List.append_assoc]

/-- Every stanza of the name-qualified policy is one of its twelve stanzas. -/
theorem every_stanza_withNames (iname ig sname sg oname og p c : GoString)
    (hin : (34 : Byte) ∉ iname) (hig : (34 : Byte) ∉ ig) (hsn : (34 : Byte) ∉ sname)
    (hsg : (34 : Byte) ∉ sg) (hon : (34 : Byte) ∉ oname) (hog : (34 : Byte) ∉ og)
    (hp : (34 : Byte) ∉ p) (hc : (10 : Byte) ∉ c)
    (h : Grants (policyWithNames iname ig sname sg oname og) p c) :
    (p, c) ∈ stanzasWithNames iname ig sname sg oname og := by
  obtain ⟨ind0, b, hind0, hq⟩ := quotedAt_of_grants _ p c h
  rw [policyWithNames_stanzas] at hq
  have h34 : (34 : Byte) ∉ str "/*" := by decide
  have hd : (34 : Byte) ∉ str "-" := by decide
  have hn : (34 : Byte) ∉ str "\n" := by decide
  have hs1 : (34 : Byte) ∉
      str "\t// SpaceID is the unique ID of the space.\n\tSpaceID string\n" := by decide
  have hs2 : (34 : Byte) ∉
      str "\t// OrgID is the unique ID of the space.\n\tOrgID string\n" := by decide
  obtain ⟨st, hst, e1, e2⟩ := quotedAt_renderStanzas p _ c b ind0 hp hc rfl hind0 _ (by
    intro st hst
    simp only [List.mem_cons, List.mem_singleton, List.not_mem_nil, or_false] at hst
    rcases hst with e | e | e | e | e | e | e | e | e | e | e | e <;> subst e <;>
      simp [hin, hig, hsn, hsg, hon, hog, h34, hd, hn, hs1, hs2]) hq
  simp only [List.mem_cons, List.mem_singleton, List.not_mem_nil, or_false] at hst
  unfold stanzasWithNames
  rcases hst with e | e | e | e | e | e | e | e | e | e | e | e <;> subst e <;>
    simp [e1, e2, List.append_assoc]

/-! ## The stanzas that `GeneratePolicy` writes -/

set_option maxRecDepth 100000 in
theorem quote_not_mem_replacement :
    ∀ c : Byte, (34 : Byte) ∉ (htmlReplacementTable c).getD [c] := by
  decide

/-- The text that `htmlEscaper` writes holds no double quote. -/
theorem quote_not_mem_htmlEscaper (s : GoString) : (34 : Byte) ∉ htmlEscaper s := by
  unfold htmlEscaper
  intro m
  rw [List.mem_flatMap] at m
  obtain ⟨c, -, hc⟩ := m
  exact quote_not_mem_replacement c hc

set_option maxRecDepth 1000000 in
/-- C4, as stated, fails in two ways.  For an instance GUID `a&b` the rendered
policy has no stanza on `cf/a&b`; the path of the stanza is `cf/a&amp;b`.  And
for a space and an organization with the same GUID `x` the path `cf/x/*` has
the stanza of the space with the full capability list besides the stanza of
the organization with `["read", "list"]`. -/
theorem GeneratePolicy_guid_path_escaped :
    (GeneratePolicy ⟨str "o1", [], str "s1", [], str "a&b", []⟩ =
        Except.ok (policyWithoutNames (str "a&amp;b") (str "s1") (str "o1")) ∧
      strings.Contains (policyWithoutNames (str "a&amp;b") (str "s1") (str "o1"))
        (str "cf/a&b") = false ∧
      ¬ Grants (policyWithoutNames (str "a&amp;b") (str "s1") (str "o1")) (str "cf/a&b")
        capsList ∧
      Grants (policyWithoutNames (str "a&amp;b") (str "s1") (str "o1")) (str "cf/a&amp;b")
        capsList) ∧
    (GeneratePolicy ⟨str "x", [], str "x", [], str "i1", []⟩ =
        Except.ok (policyWithoutNames (str "i1") (str "x") (str "x")) ∧
      Grants (policyWithoutNames (str "i1") (str "x") (str "x")) (str "cf/x/*") capsFull ∧
      Grants (policyWithoutNames (str "i1") (str "x") (str "x")) (str "cf/x/*") capsReadList ∧
      capsFull ≠ capsReadList) := by
  refine ⟨⟨by decide!, by decide!, ?_, ?_⟩, ⟨by decide!, ?_, ?_, by decide⟩⟩
  · unfold Grants
    decide!
  · unfold Grants
    decide!
  · unfold Grants
    decide!
  · unfold Grants
    decide!

/-- C4, amended: for every identity, whichever template is chosen, the rendered
policy has a stanza with the capability list `["list"]` on each path
`cf/<guid>` for instance, space and organization, a stanza with the full list
on `cf/<guid>/*` for instance and space, and a stanza with `["read", "list"]` on
`cf/<guid>/*` for the organization, where `<guid>` is the GUID after
`htmlEscaper`; so when no identifier contains one of the seven bytes that
`htmlEscaper` replaces, it is the GUID itself.  And every stanza that stands in
the policy (a path without a double quote, a capability list without a line
break) is a stanza of the chosen template: its path and its capability list
are those of one of the six stanzas of the GUID-only template, or of one of the
twelve of the name-qualified template. -/
theorem GeneratePolicy_capabilities_escaped (i : instanceInfo) :
    ∃ out, GeneratePolicy i = Except.ok out ∧
      GuidGrants htmlEscaper i out ∧
      (i.identifiersSafe → GuidGrants (fun s => s) i out) ∧
      (∀ p c : GoString, (34 : Byte) ∉ p → (10 : Byte) ∉ c → Grants out p c →
        (p, c) ∈ templateStanzas i) := by
  have key : ∃ out, GeneratePolicy i = Except.ok out ∧ GuidGrants htmlEscaper i out ∧
      (∀ p c : GoString, (34 : Byte) ∉ p → (10 : Byte) ∉ c → Grants out p c →
        (p, c) ∈ templateStanzas i) := by
    by_cases h : i.namesAbsent
    · refine ⟨_, (GeneratePolicy_of_namesAbsent i h).trans (render_withoutNames i),
        grants_policyWithoutNames _ _ _, ?_⟩
      intro p c hp hc hg
      unfold templateStanzas
      rw [if_pos h]
      exact every_stanza_withoutNames _ _ _ p c (quote_not_mem_htmlEscaper _)
        (quote_not_mem_htmlEscaper _) (quote_not_mem_htmlEscaper _) hp hc hg
    · refine ⟨_, (GeneratePolicy_of_names i h).trans (render_withNames i),
        (grants_policyWithNames _ _ _ _ _ _).1, ?_⟩
      intro p c hp hc hg
      unfold templateStanzas
      rw [if_neg h]
      exact every_stanza_withNames _ _ _ _ _ _ p c (quote_not_mem_htmlEscaper _)
        (quote_not_mem_htmlEscaper _) (quote_not_mem_htmlEscaper _)
        (quote_not_mem_htmlEscaper _) (quote_not_mem_htmlEscaper _)
        (quote_not_mem_htmlEscaper _) hp hc hg
  obtain ⟨out, h1, h2, h3⟩ := key
  refine ⟨out, h1, h2, fun hs => ?_, h3⟩
  unfold instanceInfo.identifiersSafe at hs
  obtain ⟨s1, s2, s3, s4, s5, s6⟩ := hs
  have k2 := h2
  simp only [GuidGrants, htmlEscaper_of_htmlSafe _ s1, htmlEscaper_of_htmlSafe _ s3,
    htmlEscaper_of_htmlSafe _ s5] at k2 ⊢
  exact k2

set_option maxRecDepth 1000000 in
/-- Witness for C4 (amended): an identity without names whose GUIDs need no
escaping; the stanza on the organization wildcard `cf/o1/*` has the list
`["read", "list"]`. -/
theorem GeneratePolicy_capabilities_escaped_witness :
    ∃ out, GeneratePolicy ⟨str "o1", [], str "s1", [], str "i1", []⟩ = Except.ok out ∧
      Grants out (str "cf/i1") capsList ∧ Grants out (str "cf/o1/*") capsReadList := by
  obtain ⟨out, h, -, g, -⟩ := GeneratePolicy_capabilities_escaped
    ⟨str "o1", [], str "s1", [], str "i1", []⟩
  have g2 := g (by unfold instanceInfo.identifiersSafe; decide)
  exact ⟨out, h, g2.1, g2.2.2.2.2.2⟩

end VaultBroker
